import Mathlib

/-!
# Verification of the intersection-splitter library

Shallow embedding of the TypeScript sources:
* `helpers.ts` (node model, `cloneSet`, `intersectSets`, `addMaxDepthToNodes`,
  set/array adapters),
* `shallow-intersections-splitter.ts` (baseline splitter),
* `biggest-intersections-splitter.ts` (greedy largest-intersection splitter),
* the weighted incremental splitter and the DAG metrics pass.

Modelling conventions:
* A JavaScript `Set` is modelled as an insertion-ordered duplicate-free
  `List`; `Set.prototype.add` appends unless the element is present.
* A JavaScript `Map` is modelled as an insertion-ordered association list;
  `Map.prototype.set` on an existing key replaces the value in place,
  `Map.prototype.delete` removes the entry.
* Node graphs are arenas: the object references stored in `imports` become
  indices into the flat node list (the lists only grow by appending, so an
  index is a stable identity, mirroring object identity in the source).
* JS `number` values that the code produces for depths and weights are
  modelled as `Int` (all arithmetic on them in the source is integral).
-/

namespace IntersectionSplitter

variable {T : Type} [DecidableEq T]

/-- JS `Set.prototype.add`: append unless already present (insertion order). -/
def sadd (s : List T) (x : T) : List T := if x ∈ s then s else s ++ [x]

/-- Contents of `new Set(xs)`: insertion-ordered deduplication of `xs`. -/
def jsNewSet (xs : List T) : List T := xs.foldl sadd []

/-- JS `Set.prototype.delete` (`filterFromSet` style removal keeps order). -/
def sdel (s : List T) (x : T) : List T := s.filter (fun y => ¬ y = x)

/-! ## Node model (`helpers.ts`) -/

/-- `ArrayNode<T>` from `helpers.ts`; `imports` holds arena indices. -/
structure ArrayNode (T : Type) where
  array : List T
  rest : List T
  imports : List Nat
  depth : Int
deriving DecidableEq

/-- `SetNode<T>` from `helpers.ts`; the `set` field is the insertion-ordered
contents of the underlying JS `Set`, `imports` holds arena indices. -/
structure SetNode (T : Type) where
  set : List T
  rest : List T
  imports : List Nat
  depth : Int
deriving DecidableEq

/-! ## Baseline splitter (`shallow-intersections-splitter.ts`) -/

/-- The first `forEach` of `splitIntersectionsSetsShallow`: fold every element
of every set through `setElements`/`multipleSetElements`. Returns the pair
`(setElements, multipleSetElements)`. -/
def collectMultiSets (sets : List (List T)) : List T × List T :=
  sets.foldl (fun acc s =>
    s.foldl (fun p element =>
      (sadd p.1 element, if element ∈ p.1 then sadd p.2 element else p.2)) acc)
    ([], [])

/-- `splitIntersectionsSetsShallow` from `shallow-intersections-splitter.ts`.
Every input set becomes a root node (depth 0) whose `rest` collects the
elements outside `multipleSetElements` and whose `imports` point at the
singleton nodes, which are appended after the roots in
`multipleSetElements` insertion order. -/
def splitIntersectionsSetsShallow (sets : List (List T)) : List (SetNode T) :=
  let multi := (collectMultiSets sets).2
  let roots := sets.map (fun s =>
    { set := s
      rest := (s.filter (fun e => ¬ e ∈ multi)).foldl sadd []
      imports := (s.filter (fun e => e ∈ multi)).map
        (fun e => sets.length + multi.indexOf e)
      depth := 0 })
  let gens := multi.map (fun e =>
    ({ set := [e], rest := [e], imports := [], depth := 1 } : SetNode T))
  roots ++ gens

/-- The first `forEach` of `splitIntersectionsArrayShallow`: elements already
seen in `arrElements` are pushed (with multiplicity) onto
`multipleArrayElements`. Returns `(arrElements, multipleArrayElements)`. -/
def collectMultiArr (arrays : List (List T)) : List T × List T :=
  arrays.foldl (fun acc a =>
    a.foldl (fun p element =>
      if element ∈ p.1 then (p.1, p.2 ++ [element])
      else (p.1 ++ [element], p.2)) acc)
    ([], [])

/-- `splitIntersectionsArrayShallow` from `shallow-intersections-splitter.ts`.
`multipleArrayElementsMap` keeps one node per distinct element of
`multipleArrayElements`, keyed in first-occurrence order, which is the order
the generated nodes are appended in. -/
def splitIntersectionsArrayShallow (arrays : List (List T)) : List (ArrayNode T) :=
  let multi := (collectMultiArr arrays).2
  let keys := jsNewSet multi
  let roots := arrays.map (fun a =>
    { array := a
      rest := a.filter (fun e => ¬ e ∈ multi)
      imports := (a.filter (fun e => e ∈ multi)).map
        (fun e => arrays.length + keys.indexOf e)
      depth := 0 })
  let gens := keys.map (fun e =>
    ({ array := [e], rest := [e], imports := [], depth := 1 } : ArrayNode T))
  roots ++ gens

/-! ## `helpers.ts`: cloneSet, intersectSets, addMaxDepthToNodes -/

/-- `cloneSet`: a fresh container with the same entries in the same order. -/
def cloneSet (s : List T) : List T := s.foldl sadd []

/-- `intersectSets`: scan the smaller set against the larger; the result keeps
the smaller set's order. -/
def intersectSets (set1 set2 : List T) : List T :=
  let p := if set1.length ≤ set2.length then (set1, set2) else (set2, set1)
  p.1.filter (fun e => e ∈ p.2)

/-- `Math.max(...l)`; `none` stands for the `-Infinity` of an empty spread. -/
def mathMax (l : List Int) : Option Int := l.max?

/-- One step of the `unImportedNodes.forEach` in `addMaxDepthToNodes`:
assign `1 + max(depth of every already-assigned node that imports it)` and
append to the assigned pool. In the arena, the source's reference check
`iNode.set === arrayNode.set` (membership of this node among an assigned
node's imports) becomes an index check. `none` models the `-Infinity`
produced by `Math.max()` over an empty spread. -/
def amdStep (assigned : List (Nat × ArrayNode T)) (jn : Nat × ArrayNode T) :
    Option (List (Nat × ArrayNode T)) :=
  match mathMax ((assigned.filter (fun p => jn.1 ∈ p.2.imports)).map
      (fun p => p.2.depth)) with
  | none => none
  | some m => some (assigned ++ [(jn.1, { jn.2 with depth := m + 1 })])

/-- `addMaxDepthToNodes` from `helpers.ts`: the depth-0 nodes seed the
assigned pool (in list order); the remaining nodes are assigned in list
order; the original node list is returned with the computed depths. -/
def addMaxDepthToNodes (nodes : List (ArrayNode T)) : Option (List (ArrayNode T)) := do
  let idx := nodes.enum
  let roots := idx.filter (fun p => p.2.depth = 0)
  let todo := idx.filter (fun p => ¬ p.2.depth = 0)
  let assigned ← todo.foldlM amdStep roots
  some (idx.map (fun p =>
    match assigned.find? (fun q => q.1 = p.1) with
    | some q => q.2
    | none => p.2))

/-! ## DAG metrics (`GetNodeMetrics`)

The source is generic over `ArrayNode | SetNode` and only reads
`rest`/`imports`/`depth` plus the collection field; it is embedded once over
`ArrayNode` (the `SetNode` instance is identical up to the field name). -/

/-- The accumulator object threaded through `getNodeMetricRecursive`. -/
structure NodeMetricAcc where
  maxDepth : Int
  leaves : Nat
  importCount : Nat
  nodeCount : Nat
  avgDepthSum : Int
deriving DecidableEq

/-- `getNodeMetricRecursive`. Fuel bounds the recursion depth: every splitter
output has strictly forward import edges, so fuel `nodes.length` suffices
there; on a cyclic graph the source would never return, which exhausting the
fuel (contributing nothing further) stands in for. A dangling index (the
source would crash reading `.imports` of `undefined`) likewise contributes
nothing. -/
def getNodeMetricRecursive (nodes : List (ArrayNode T)) :
    Nat → Nat → Int → NodeMetricAcc → NodeMetricAcc × List T
  | 0, _, _, acc => (acc, [])
  | fuel + 1, i, depth, acc =>
    match nodes.get? i with
    | none => (acc, [])
    | some n =>
      let a1 := { acc with nodeCount := acc.nodeCount + 1 }
      let a2 := if a1.maxDepth < depth then { a1 with maxDepth := depth } else a1
      let a3 := if depth > 0 ∧ n.imports = [] then
          { a2 with leaves := a2.leaves + 1, avgDepthSum := a2.avgDepthSum + depth }
        else a2
      if n.imports = [] then (a3, n.rest)
      else
        let a4 := { a3 with importCount := a3.importCount + n.imports.length }
        let r := n.imports.foldl (fun pr j =>
          let s := getNodeMetricRecursive nodes fuel j (depth + 1) pr.1
          (s.1, pr.2 ++ s.2)) (a4, ([] : List T))
        (r.1, n.rest ++ r.2)

/-- The record returned by `getNodeMetric`; the JS float `avgDepth`
(`avgDepthSum / leaves`) is kept as the exact numerator/denominator pair. -/
structure NodeMetric where
  maxDepth : Int
  leaves : Nat
  importCount : Nat
  nodeCount : Nat
  avgDepthNum : Int
  avgDepthDen : Nat
deriving DecidableEq

/-- `GetNodeMetrics.getNodeMetric`: run the recursive traversal from node `i`,
throw (`none`) iff `nodeElements.some((element) => !allElements.includes(element))`,
otherwise return the metric record. -/
def getNodeMetric (nodes : List (ArrayNode T)) (fuel i : Nat) : Option NodeMetric :=
  let r := getNodeMetricRecursive nodes fuel i 0 ⟨0, 0, 0, 0, 0⟩
  let nodeElements := (nodes.get? i).elim [] (fun n => n.array)
  if nodeElements.any (fun e => ¬ e ∈ r.2) then none
  else some ⟨r.1.maxDepth, r.1.leaves, r.1.importCount, r.1.nodeCount,
    r.1.avgDepthSum, r.1.leaves⟩

/-! ## Greedy splitter (`biggest-intersections-splitter.ts`)

The constructor resolves `this.intersectionFunction` from the `sort`
argument (`false` | `true` | sorter function); the machinery below is
parameterised by that resolved intersection function `inter` and by the
initial-rest builder (`[...array]`, `[...array].sort()` or
`[...array].sort(this.sort)`), and three entry wrappers fix them per mode. -/

/-- JS `Map` get: first entry with the key. -/
def aget {K V : Type} [DecidableEq K] (m : List (K × V)) (k : K) : Option V :=
  (m.find? (fun p => p.1 = k)).map (fun p => p.2)

/-- JS `Map` set: replace in place when the key exists (position kept),
append otherwise. -/
def aset {K V : Type} [DecidableEq K] (m : List (K × V)) (k : K) (v : V) :
    List (K × V) :=
  if (m.find? (fun p => p.1 = k)).isSome then
    m.map (fun p => if p.1 = k then (k, v) else p)
  else m ++ [(k, v)]

/-- JS `Map` delete. -/
def adel {K V : Type} [DecidableEq K] (m : List (K × V)) (k : K) : List (K × V) :=
  m.filter (fun p => ¬ p.1 = k)

/-- Stable insertion into a sorted list: `x` goes in front of the first `y`
with `cmp x y < 0`, i.e. after every element it does not strictly precede. -/
def insSorted (cmp : T → T → Int) (x : T) : List T → List T
  | [] => [x]
  | y :: ys => if cmp x y < 0 then x :: y :: ys else y :: insSorted cmp x ys

/-- `Array.prototype.sort(cmp)`: ECMAScript requires a stable sort, and the
result of a stable sort is determined by the comparator; for a comparator
that reports every pair as equal a stable sort leaves the order untouched,
exactly as this insertion sort does. -/
def jsSortWith (cmp : T → T → Int) (l : List T) : List T :=
  l.foldl (fun acc x => insSorted cmp x acc) []

/-- The comparator behaviour of the default-sort / relational-operator pair:
`x < y` steps the left pointer, `y < x` the right one, otherwise the element
is shared (for JS strings both the default sort order and `<` are the same
lexicographic order, the `LinearOrder` here). -/
def defaultCmp [LinearOrder T] (x y : T) : Int :=
  if x < y then -1 else if y < x then 1 else 0

/-- Fuelled two-pointer merge shared by `getIntersectionFromOrderedArrays`
and `getIntersectionFromArraysWithOrderingFunction`; fuel
`array1.length + array2.length` always suffices. -/
def twoPtrC (cmp : T → T → Int) : Nat → List T → List T → List T
  | 0, _, _ => []
  | _ + 1, [], _ => []
  | _ + 1, _ :: _, [] => []
  | fuel + 1, x :: xs, y :: ys =>
    let s := cmp x y
    if s < 0 then twoPtrC cmp fuel xs (y :: ys)
    else if 0 < s then twoPtrC cmp fuel (x :: xs) ys
    else x :: twoPtrC cmp fuel xs ys

/-- `getIntersection` (the `sort === false` mode): filter the shorter array
by membership in the longer. -/
def getIntersection (array1 array2 : List T) : List T :=
  let p := if array1.length < array2.length then (array1, array2) else (array2, array1)
  p.1.filter (fun e => e ∈ p.2)

/-- Intersection for the `sort === true` / sorter modes. -/
def getIntersectionSorted (cmp : T → T → Int) (a1 a2 : List T) : List T :=
  twoPtrC cmp (a1.length + a2.length) a1 a2

/-- The inner `allArrays.slice(i + 1).forEach` of `getLongestIntersection`. -/
def gliInner (inter : List T → List T → List T) (set : List T) :
    List (List T) → Nat → List T → Nat × List T
  | [], longest, li => (longest, li)
  | all :: rest, longest, li =>
    let i := inter set all
    if longest < i.length then gliInner inter set rest i.length i
    else gliInner inter set rest longest li

/-- The outer `nextArrays.forEach((set, i) => ...)` of
`getLongestIntersection`. -/
def gliLoop (inter : List T → List T → List T) (allArrays : List (List T)) :
    List (List T) → Nat → Nat → List T → List T
  | [], _, _, li => li
  | set :: rest, i, longest, li =>
    let p := gliInner inter set (allArrays.drop (i + 1)) longest li
    gliLoop inter allArrays rest (i + 1) p.1 p.2

/-- `getLongestIntersection`: intersect every entry of `nextArrays` with
every later entry of `allArrays = nextArrays ++ baseArrays`, keeping the
longest intersection exceeding the incoming `longest` threshold. -/
def getLongestIntersection (inter : List T → List T → List T)
    (baseArrays nextArrays : List (List T)) (longest : Nat) : List T :=
  gliLoop inter (nextArrays ++ baseArrays) nextArrays 0 longest []

/-- The extraction block of `splitArrayNodes` once every remaining rest is
classified: every node whose rest contains all extracted elements loses them
and gains an import edge to the appended node. -/
def extractLI (nodes : List (ArrayNode T)) (li : List T) (longest : Nat) :
    List (ArrayNode T) × Nat :=
  if 0 < li.length then
    let newIdx := nodes.length
    let updated := nodes.map (fun n =>
      if li.all (fun e => e ∈ n.rest) then
        { n with rest := n.rest.filter (fun e => ¬ e ∈ li)
                 imports := n.imports ++ [newIdx] }
      else n)
    (updated ++ [{ array := li, rest := li, imports := [], depth := 1 }], longest)
  else (nodes, longest)

/-- The body of `for (const element of elements)`: classify the surviving
filtered rests against `element`, probe for a longer intersection, and
extract when no unclassified rest remains. -/
def elemStep (inter : List T → List T → List T) (nodes : List (ArrayNode T))
    (element : T) (filtered base : List (List T)) (longest : Nat) (li : List T) :
    (List (ArrayNode T) × Nat) ⊕ (List (List T) × List (List T) × Nat × List T) :=
  let nextIntersected := filtered.filter (fun r => longest < r.length ∧ element ∈ r)
  let nextFiltered := filtered.filter (fun r => longest < r.length ∧ ¬ element ∈ r)
  let intersection := getLongestIntersection inter base nextIntersected longest
  let p := if longest < intersection.length then (intersection.length, intersection)
    else (longest, li)
  let base2 := base ++ nextIntersected
  if nextFiltered = [] then Sum.inl (extractLI nodes p.2 p.1)
  else Sum.inr (nextFiltered, base2, p.1, p.2)

/-- Iteration over one count bucket's elements. -/
def elemsLoop (inter : List T → List T → List T) (nodes : List (ArrayNode T)) :
    List T → List (List T) → List (List T) → Nat → List T →
      (List (ArrayNode T) × Nat) ⊕ (List (List T) × List (List T) × Nat × List T)
  | [], filtered, base, longest, li => Sum.inr (filtered, base, longest, li)
  | e :: es, filtered, base, longest, li =>
    match elemStep inter nodes e filtered base longest li with
    | Sum.inl r => Sum.inl r
    | Sum.inr (f, b, lo, l) => elemsLoop inter nodes es f b lo l

/-- Iteration over `counts.slice(0, -1)`; falling through the whole loop is
the final `return 0`. -/
def bucketsLoop (inter : List T → List T → List T) (nodes : List (ArrayNode T))
    (ecm : List (Nat × List T)) :
    List Nat → List (List T) → List (List T) → Nat → List T →
      (List (ArrayNode T) × Nat) ⊕ Unit
  | [], _, _, _, _ => Sum.inr ()
  | c :: cs, filtered, base, longest, li =>
    match elemsLoop inter nodes ((aget ecm c).getD []) filtered base longest li with
    | Sum.inl r => Sum.inl r
    | Sum.inr (f, b, lo, l) => bucketsLoop inter nodes ecm cs f b lo l

/-- The `elementCount` map: occurrences of each element value across every
node's current rest, in first-occurrence order. -/
def elementCountOf (nodes : List (ArrayNode T)) : List (T × Nat) :=
  nodes.foldl (fun m n => n.rest.foldl (fun m2 e =>
    match aget m2 e with
    | none => aset m2 e 1
    | some c => aset m2 e (c + 1)) m) []

/-- The `elementCountMap`: count value to the elements holding it. -/
def elementCountMapOf (ec : List (T × Nat)) : List (Nat × List T) :=
  ec.foldl (fun m p =>
    match aget m p.2 with
    | none => aset m p.2 [p.1]
    | some l => aset m p.2 (l ++ [p.1])) []

/-- `splitArrayNodes`: one pass of the greedy splitter; returns the updated
arena and the pass's return value (`0` = stop, otherwise the length of the
extracted intersection). -/
def splitArrayNodes (inter : List T → List T → List T)
    (nodes : List (ArrayNode T)) : List (ArrayNode T) × Nat :=
  let ec := elementCountOf nodes
  let ecm := elementCountMapOf ec
  let counts := jsSortWith (fun (a b : Nat) => (b : Int) - (a : Int)) (ecm.map (fun p => p.1))
  if counts.head? = some 1 then (nodes, 0)
  else
    let singleElements := (aget ecm 1).getD []
    let filtered0 := nodes.map (fun n => n.rest.filter (fun e => ¬ e ∈ singleElements))
    match bucketsLoop inter nodes ecm counts.dropLast filtered0 [] 0 [] with
    | Sum.inl r => r
    | Sum.inr _ => (nodes, 0)

/-- `while (this.splitArrayNodes(arrayNodes) > 0) {}`, fuelled; `none` means
the loop did not reach its stopping condition within `fuel` passes. -/
def greedyLoop (inter : List T → List T → List T) :
    Nat → List (ArrayNode T) → Option (List (ArrayNode T))
  | 0, _ => none
  | fuel + 1, nodes =>
    let r := splitArrayNodes inter nodes
    if 0 < r.2 then greedyLoop inter fuel r.1 else some r.1

/-- `splitArrays` generic in the constructor-resolved pieces: build the root
nodes (rest = the mode's copy of the array), run the extraction loop to its
fixpoint, then `addMaxDepthToNodes`. -/
def splitArraysWith (inter : List T → List T → List T)
    (initR : List T → List T) (arrays : List (List T)) (fuel : Nat) :
    Option (List (ArrayNode T)) := do
  let nodes := arrays.map (fun a =>
    { array := a, rest := initR a, imports := [], depth := 0 })
  let out ← greedyLoop inter fuel nodes
  addMaxDepthToNodes out

/-- `new BiggestIntersectionsSplitter(false).splitArrays`. -/
def splitArraysFalse (arrays : List (List T)) (fuel : Nat) :
    Option (List (ArrayNode T)) :=
  splitArraysWith getIntersection (fun a => a) arrays fuel

/-- `new BiggestIntersectionsSplitter(true).splitArrays` (default sort and
relational comparison, the `LinearOrder`). -/
def splitArraysTrue [LinearOrder T] (arrays : List (List T)) (fuel : Nat) :
    Option (List (ArrayNode T)) :=
  splitArraysWith (getIntersectionSorted defaultCmp) (jsSortWith defaultCmp) arrays fuel

/-- `new BiggestIntersectionsSplitter(sorter).splitArrays`. -/
def splitArraysSorter (f : T → T → Int) (arrays : List (List T)) (fuel : Nat) :
    Option (List (ArrayNode T)) :=
  splitArraysWith (getIntersectionSorted f) (jsSortWith f) arrays fuel

/-- Reconstruction of a node in the sense of the spec's invariant 1: its
`rest` together with the reconstruction of every import, one copy per import
edge. Fuel bounds the recursion; `nodes.length` suffices on forward-edge
arenas. -/
def reconstruct (nodes : List (ArrayNode T)) : Nat → Nat → List T
  | 0, _ => []
  | fuel + 1, i =>
    match nodes.get? i with
    | none => []
    | some n => n.rest ++ (n.imports.map (fun j => reconstruct nodes fuel j)).flatten

/-! ## Weighted incremental splitter (`WeightedIntersectionsSplitter`)

The class "relies heavily on side effects": the object in `SetObj.rest` and
`set` in various structures is the same object. The model makes that
aliasing explicit: every working set (the clones and every generated rest)
lives in a `store` keyed by a fresh id, and every place the source holds a
set *reference* (keys of `setNodeMap`, members of `clonedSets`, participant
sets inside the four indexes) holds that id. A node's `rest` field is its
store id; mutating it (`filterFromSet`) updates the store. Failure (`none`)
models the source crashing on a `<...>map.get(...)` cast that returns
`undefined`, or `Math.max()` over an empty spread feeding a map lookup. -/

namespace Weighted

/-- The constructor arguments of `WeightedIntersectionsSplitter`: the
bijective `join`/`split` pair and the two weight functions (arguments:
`intersectingElementsCount`, `intersectingSetsCount`). -/
structure WConfig (T U : Type) where
  join : List T → U
  split : U → List T
  primaryWeight : Int → Int → Int
  secondaryWeight : Int → Int → Int

/-- The node wrapper: the `set` field's contents, the id of the (aliased,
mutable) `rest` object, the depth, and the import edges as positions in
`setNodeMap` insertion order. -/
structure WNode (T : Type) where
  setElems : List T
  restId : Nat
  depth : Int
  imports : List Nat
deriving DecidableEq

/-- The four cross-referencing indexes. -/
structure WMaps (T U : Type) where
  imap : List (U × List (Nat × Nat))
  imapSet : List (U × List (Nat × Nat))
  s2i : List (Nat × List U)
  wmap : List (Int × List U)
deriving DecidableEq

/-- The complete per-call state. -/
structure WState (T U : Type) where
  store : List (Nat × List T)
  clonedSets : List Nat
  setNodeMap : List (Nat × WNode T)
  maps : WMaps T U
  nextId : Nat
deriving DecidableEq

variable {T U : Type} [DecidableEq T] [DecidableEq U]

/-- Dereference a set id (the object always exists in the source). -/
def storeGet (store : List (Nat × List T)) (i : Nat) : List T :=
  (aget store i).getD []

/-- In-place mutation of the set behind an id. -/
def storeUpdate (store : List (Nat × List T)) (i : Nat) (f : List T → List T) :
    List (Nat × List T) :=
  store.map (fun p => if p.1 = i then (p.1, f p.2) else p)

/-- `createSetObjMap`: clone every input set, track it in `clonedSets` and
wrap it in a node (`set` = the caller's set, `rest` = the clone, depth 0). -/
def createSetObjMap (sets : List (List T)) :
    List (Nat × List T) × List Nat × List (Nat × WNode T) :=
  ((sets.enum.map (fun p => (p.1, cloneSet p.2)),
    sets.enum.map (fun p => p.1),
    sets.enum.map (fun p =>
      (p.1, { setElems := p.2, restId := p.1, depth := 0, imports := [] }))))

/-- Inner loop of `createIntersectionMap`: pair `s1` with every later set. -/
def cimInner (cfg : WConfig T U) (store : List (Nat × List T)) (s1 : Nat) :
    List Nat → List (U × List (Nat × Nat)) → List (U × List (Nat × Nat))
  | [], m => m
  | s2 :: rest, m =>
    let intersected := intersectSets (storeGet store s1) (storeGet store s2)
    let m2 :=
      if 0 < intersected.length then
        let key := cfg.join intersected
        match aget m key with
        | some entry => aset m key (entry ++ [(s1, s2)])
        | none => aset m key [(s1, s2)]
      else m
    cimInner cfg store s1 rest m2

/-- `createIntersectionMap`: all pairwise intersections of the ordered sets. -/
def createIntersectionMap (cfg : WConfig T U) (store : List (Nat × List T)) :
    List Nat → List (U × List (Nat × Nat)) → List (U × List (Nat × Nat))
  | [], m => m
  | s1 :: rest, m => createIntersectionMap cfg store rest (cimInner cfg store s1 rest m)

/-- The per-key pass of `createIntersectionMapSet`: count, for every
participant set, how many pairs contributed it. -/
def cimsPairs (pairs : List (Nat × Nat)) : List (Nat × Nat) :=
  pairs.foldl (fun m pr =>
    let m1 := match aget m pr.1 with
      | some c => aset m pr.1 (c + 1)
      | none => aset m pr.1 1
    match aget m1 pr.2 with
    | some c => aset m1 pr.2 (c + 1)
    | none => aset m1 pr.2 1) []

/-- `createIntersectionMapSet`. -/
def createIntersectionMapSet (imap : List (U × List (Nat × Nat))) :
    List (U × List (Nat × Nat)) :=
  imap.map (fun p => (p.1, cimsPairs p.2))

/-- `createSetToIntersectionMap`. -/
def createSetToIntersectionMap (imapSet : List (U × List (Nat × Nat)))
    (s2i0 : List (Nat × List U)) : List (Nat × List U) :=
  imapSet.foldl (fun m p =>
    p.2.foldl (fun m2 q =>
      match aget m2 q.1 with
      | none => aset m2 q.1 [p.1]
      | some ks => aset m2 q.1 (sadd ks p.1)) m) s2i0

/-- `getWeightIntersectionsMap`: bucket every intersection under its primary
weight. -/
def getWeightIntersectionsMap (cfg : WConfig T U)
    (imapSet : List (U × List (Nat × Nat))) : List (Int × List U) :=
  imapSet.foldl (fun m p =>
    let w := cfg.primaryWeight ((cfg.split p.1).length : Int) (p.2.length : Int)
    match aget m w with
    | none => aset m w [p.1]
    | some ks => aset m w (sadd ks p.1)) []

/-- `getHighestWeightIntersection`: highest primary weight, ties resolved by
the secondary weight evaluated against the live participant count, strict
improvement over a running maximum started at `-Infinity` (`none`); first
bucket entry wins remaining ties. -/
def getHighestWeightIntersection (cfg : WConfig T U)
    (wmap : List (Int × List U)) (imapSet : List (U × List (Nat × Nat))) :
    Option (U × Int) := do
  let highestWeight ← mathMax (wmap.map (fun p => p.1))
  let maxWeightIntersections ← aget wmap highestWeight
  let first ← maxWeightIntersections.head?
  if 1 < maxWeightIntersections.length then do
    let r ← maxWeightIntersections.foldlM
      (fun (acc : Option Int × U) k => do
        let setMap ← aget imapSet k
        let sw := cfg.secondaryWeight ((cfg.split k).length : Int) (setMap.length : Int)
        match acc.1 with
        | none => pure (some sw, k)
        | some m => if m < sw then pure (some sw, k) else pure acc)
      ((none : Option Int), first)
    pure (r.2, highestWeight)
  else pure (first, highestWeight)

/-- `getOtherAffectedIntersections`: every other intersection sharing an
element with the chosen one, and every set participating in such an
intersection that is not itself a direct participant. -/
def getOtherAffectedIntersections (cfg : WConfig T U)
    (intersectingSets : List Nat) (s2i : List (Nat × List U)) (K : U)
    (imapSet : List (U × List (Nat × Nat))) : Option (List U × List Nat) := do
  let hElems := cfg.split K
  let r ← intersectingSets.foldlM
    (fun (acc : List U × List Nat) sid => do
      let affected ← aget s2i sid
      affected.foldlM (fun (acc2 : List U × List Nat) k => do
        if (cfg.split k).any (fun e => e ∈ hElems) then do
          let setMap ← aget imapSet k
          let oas := (setMap.map (fun q => q.1)).foldl
            (fun l a => if a ∈ intersectingSets then l else sadd l a) acc2.2
          pure (sadd acc2.1 k, oas)
        else pure acc2) acc)
    (([] : List U), ([] : List Nat))
  pure (sdel r.1 K, r.2)

/-- `removeFromSetOrDeleteFromMap`: shrink the set behind the key, deleting
the whole entry when at most one element remains; crashes (`none`) when the
key is absent. -/
def removeFromSetOrDeleteFromMap {K' W : Type} [DecidableEq K'] [DecidableEq W]
    (m : List (K' × List W)) (k : K') (e : W) : Option (List (K' × List W)) := do
  let elements ← aget m k
  if 1 < elements.length then pure (aset m k (sdel elements e))
  else pure (adel m k)

/-- `addToSetOrCreateKeyInMap`. -/
def addToSetOrCreateKeyInMap {K' W : Type} [DecidableEq K'] [DecidableEq W]
    (m : List (K' × List W)) (k : K') (e : W) : List (K' × List W) :=
  match aget m k with
  | some elements => aset m k (sadd elements e)
  | none => aset m k [e]

/-- `removeOtherAffectedSetFromMaps`: drop one pair-contribution of `sid`
from the intersection `key`, relocating the key in the weight buckets when
its participant count shrinks (re-adding only while participants remain),
and deleting the whole `imapSet` entry when empty. A missing per-set count
compares as `undefined > 1 = false` and takes the else branch, exactly like
the source's unchecked cast. -/
def removeOtherAffectedSetFromMaps (cfg : WConfig T U) (mp : WMaps T U)
    (key : U) (sid : Nat) : Option (WMaps T U) := do
  let setMap ← aget mp.imapSet key
  match aget setMap sid with
  | some c =>
    if 1 < c then
      let setMap2 := aset setMap sid (c - 1)
      let imapSet2 := if setMap2.length = 0 then adel mp.imapSet key
        else aset mp.imapSet key setMap2
      pure { mp with imapSet := imapSet2 }
    else do
      let iec := ((cfg.split key).length : Int)
      let isc := (setMap.length : Int)
      let w := cfg.primaryWeight iec isc
      let wmap2 ← removeFromSetOrDeleteFromMap mp.wmap w key
      let uw := cfg.primaryWeight iec (isc - 1)
      let wmap3 := if 1 < isc then addToSetOrCreateKeyInMap wmap2 uw key else wmap2
      let s2i2 ← removeFromSetOrDeleteFromMap mp.s2i sid key
      let setMap2 := adel setMap sid
      let imapSet2 := if setMap2.length = 0 then adel mp.imapSet key
        else aset mp.imapSet key setMap2
      pure { mp with imapSet := imapSet2, wmap := wmap3, s2i := s2i2 }
  | none => do
    let iec := ((cfg.split key).length : Int)
    let isc := (setMap.length : Int)
    let w := cfg.primaryWeight iec isc
    let wmap2 ← removeFromSetOrDeleteFromMap mp.wmap w key
    let uw := cfg.primaryWeight iec (isc - 1)
    let wmap3 := if 1 < isc then addToSetOrCreateKeyInMap wmap2 uw key else wmap2
    let s2i2 ← removeFromSetOrDeleteFromMap mp.s2i sid key
    let setMap2 := adel setMap sid
    let imapSet2 := if setMap2.length = 0 then adel mp.imapSet key
      else aset mp.imapSet key setMap2
    pure { mp with imapSet := imapSet2, wmap := wmap3, s2i := s2i2 }

/-- `removeUpdatedFromMaps`: delete the chosen intersection everywhere, then,
for every other affected intersection, drop the pairs involving a direct
participant (or two otherwise-affected sets), collecting them in
`intersectingPairs`; the filtering callback's side effects run left to
right, exactly as `Array.prototype.filter` evaluates them. -/
def removeUpdatedFromMaps (cfg : WConfig T U) (K : U)
    (intersectingSets : List Nat) (OAI : List U) (OAS : List Nat)
    (mp : WMaps T U) (highestWeight : Int) :
    Option (List (Nat × Nat) × WMaps T U) := do
  let imap1 := adel mp.imap K
  let imapSet1 := adel mp.imapSet K
  let s2i1 ← intersectingSets.foldlM
    (fun m sid => removeFromSetOrDeleteFromMap m sid K) mp.s2i
  let wmap1 ← removeFromSetOrDeleteFromMap mp.wmap highestWeight K
  OAI.foldlM
    (fun (acc : List (Nat × Nat) × WMaps T U) oK => do
      let possiblyAffected ← aget acc.2.imap oK
      let r ← possiblyAffected.foldlM
        (fun (acc2 : List (Nat × Nat) × List (Nat × Nat) × WMaps T U) pr => do
          if pr.1 ∈ intersectingSets ∨ pr.2 ∈ intersectingSets ∨
              (pr.1 ∈ OAS ∧ pr.2 ∈ OAS) then do
            let mp3 ← removeOtherAffectedSetFromMaps cfg acc2.2.2 oK pr.1
            let mp4 ← removeOtherAffectedSetFromMaps cfg mp3 oK pr.2
            pure (acc2.1, acc2.2.1 ++ [pr], mp4)
          else pure (acc2.1 ++ [pr], acc2.2.1, acc2.2.2))
        (([] : List (Nat × Nat)), acc.1, acc.2)
      let imap2 := if 0 < r.1.length then aset r.2.2.imap oK r.1
        else adel r.2.2.imap oK
      pure (r.2.1, { r.2.2 with imap := imap2 }))
    (([] : List (Nat × Nat)),
      ({ imap := imap1, imapSet := imapSet1, s2i := s2i1, wmap := wmap1 } : WMaps T U))

/-- `updateSetObj` (also the body of the `intersectingSets.forEach`): raise
the running depth past this node, remove the extracted elements from its
rest (a store mutation, since the rest is aliased), and push the import
edge. -/
def updateSetObj (store : List (Nat × List T)) (nodeMap : List (Nat × WNode T))
    (sid : Nat) (newSetElems : List T) (newIdx : Nat) (depth : Int) :
    Option (List (Nat × List T) × List (Nat × WNode T) × Int) := do
  let setNode ← aget nodeMap sid
  let depth2 := if depth ≤ setNode.depth then setNode.depth + 1 else depth
  let store2 := storeUpdate store sid (fun l =>
    l.filter (fun e => ¬ e ∈ newSetElems))
  let nodeMap2 := aset nodeMap sid
    { setNode with imports := setNode.imports ++ [newIdx] }
  pure (store2, nodeMap2, depth2)

/-- `addToIntersectingMapSets`. -/
def addToIntersectingMapSets (ims : List (Nat × Nat)) (sid : Nat) :
    List (Nat × Nat) :=
  match aget ims sid with
  | some c => aset ims sid (c + 1)
  | none => aset ims sid 1

/-- `addUpdateToMaps`: record the current intersection of two live sets in
all four indexes, relocating the weight bucket when the key already exists. -/
def addUpdateToMaps (cfg : WConfig T U) (store : List (Nat × List T))
    (mp : WMaps T U) (s1 s2 : Nat) : Option (WMaps T U) := do
  let intersection := intersectSets (storeGet store s1) (storeGet store s2)
  if 0 < intersection.length then do
    let key := cfg.join intersection
    let imap2 := match aget mp.imap key with
      | some pairs => aset mp.imap key (pairs ++ [(s1, s2)])
      | none => aset mp.imap key [(s1, s2)]
    match aget mp.imapSet key with
    | some ims => do
      let prevW := cfg.primaryWeight (intersection.length : Int) (ims.length : Int)
      let wmap2 ← removeFromSetOrDeleteFromMap mp.wmap prevW key
      let ims2 := addToIntersectingMapSets (addToIntersectingMapSets ims s1) s2
      let w := cfg.primaryWeight (intersection.length : Int) (ims2.length : Int)
      let wmap3 := addToSetOrCreateKeyInMap wmap2 w key
      let s2i2 := addToSetOrCreateKeyInMap
        (addToSetOrCreateKeyInMap mp.s2i s1 key) s2 key
      pure { imap := imap2, imapSet := aset mp.imapSet key ims2,
             s2i := s2i2, wmap := wmap3 }
    | none => do
      let w := cfg.primaryWeight (intersection.length : Int) 2
      let wmap2 := addToSetOrCreateKeyInMap mp.wmap w key
      let s2i2 := addToSetOrCreateKeyInMap
        (addToSetOrCreateKeyInMap mp.s2i s1 key) s2 key
      pure { imap := imap2, imapSet := aset mp.imapSet key [(s1, 1), (s2, 1)],
             s2i := s2i2, wmap := wmap2 }
  else pure mp

/-- `addUpdatedToMaps`: re-test the new rest against every previously-live
set, then every pair that lost a removed intersection. -/
def addUpdatedToMaps (cfg : WConfig T U) (store : List (Nat × List T))
    (mp : WMaps T U) (newSetId : Nat) (prevSets : List Nat)
    (pairs : List (Nat × Nat)) : Option (WMaps T U) := do
  let mp2 ← prevSets.foldlM (fun m sid => addUpdateToMaps cfg store m sid newSetId) mp
  pairs.foldlM (fun m pr => addUpdateToMaps cfg store m pr.1 pr.2) mp2

/-- One iteration of the `while (intersectionMap.size > 0)` loop of
`splitSets`. -/
def wStep (cfg : WConfig T U) (st : WState T U) : Option (WState T U) := do
  let (K, highestWeight) ← getHighestWeightIntersection cfg st.maps.wmap st.maps.imapSet
  let ims ← aget st.maps.imapSet K
  let intersectingSets := ims.map (fun q => q.1)
  let (OAI, OAS) ← getOtherAffectedIntersections cfg intersectingSets
    st.maps.s2i K st.maps.imapSet
  let (pairs, mp1) ← removeUpdatedFromMaps cfg K intersectingSets OAI OAS
    st.maps highestWeight
  let newElems := jsNewSet (cfg.split K)
  let rid := st.nextId
  let newIdx := st.setNodeMap.length
  let store1 := st.store ++ [(rid, newElems)]
  let r1 ← intersectingSets.foldlM
    (fun (acc : List (Nat × List T) × List (Nat × WNode T) × Int) sid =>
      updateSetObj acc.1 acc.2.1 sid newElems newIdx acc.2.2)
    (store1, st.setNodeMap, (1 : Int))
  let hElems := cfg.split K
  let r2 ← OAS.foldlM
    (fun (acc : List (Nat × List T) × List (Nat × WNode T) × Int) sid =>
      if hElems.all (fun e => e ∈ storeGet acc.1 sid) then
        updateSetObj acc.1 acc.2.1 sid newElems newIdx acc.2.2
      else pure acc) r1
  let newNode : WNode T :=
    { setElems := newElems, restId := rid, depth := r2.2.2, imports := [] }
  let mp2 ← addUpdatedToMaps cfg r2.1 mp1 rid st.clonedSets pairs
  pure { store := r2.1
         clonedSets := sadd st.clonedSets rid
         setNodeMap := aset r2.2.1 rid newNode
         maps := mp2
         nextId := rid + 1 }

/-- The fuelled `while` loop; returns the node list (with every node's rest
materialised from the store) once the intersection index is empty. -/
def wLoop (cfg : WConfig T U) : Nat → WState T U → Option (List (SetNode T))
  | 0, st =>
    if st.maps.imap = [] then
      some (st.setNodeMap.map (fun p =>
        { set := p.2.setElems, rest := storeGet st.store p.2.restId,
          imports := p.2.imports, depth := p.2.depth }))
    else none
  | fuel + 1, st =>
    if st.maps.imap = [] then
      some (st.setNodeMap.map (fun p =>
        { set := p.2.setElems, rest := storeGet st.store p.2.restId,
          imports := p.2.imports, depth := p.2.depth }))
    else do
      let st2 ← wStep cfg st
      wLoop cfg fuel st2

/-- `WeightedIntersectionsSplitter.splitSets` (fuelled). -/
def splitSets (cfg : WConfig T U) (sets : List (List T)) (fuel : Nat) :
    Option (List (SetNode T)) :=
  let r := createSetObjMap sets
  let imap := createIntersectionMap cfg r.1 r.2.1 []
  let imapSet := createIntersectionMapSet imap
  let s2i := createSetToIntersectionMap imapSet []
  let wmap := getWeightIntersectionsMap cfg imapSet
  wLoop cfg fuel
    { store := r.1, clonedSets := r.2.1, setNodeMap := r.2.2,
      maps := { imap := imap, imapSet := imapSet, s2i := s2i, wmap := wmap },
      nextId := sets.length }

/-- `WeightedIntersectionsSplitter.splitArrays` =
`convertArraysToSetsAndUseSplitFunction(arrays, splitSets)`: each array
becomes a fresh set (`new Set(array)`), and `mapSetsToArrayNodes` translates
the result back. The source resolves node identity through the
`setToArrayMap` object-reference map; since the original input sets are
exactly the first `arrays.length` nodes, in input order, that reference
lookup is positional here: a root keeps the caller's original array, a
generated node gets `[...setNode.set]`, every `rest` is spread into a fresh
array and the import references (indices) carry over unchanged. -/
def splitArrays (cfg : WConfig T U) (arrays : List (List T)) (fuel : Nat) :
    Option (List (ArrayNode T)) := do
  let out ← splitSets cfg (arrays.map (fun a => jsNewSet a)) fuel
  some (out.enum.map (fun p =>
    { array := if p.1 < arrays.length then arrays.getD p.1 [] else p.2.set
      rest := p.2.rest
      imports := p.2.imports
      depth := p.2.depth }))

end Weighted

/-- `BiggestIntersectionsSplitter.splitSets` =
`convertSetsToArraysAndUseSplitFunction(sets, splitArrays)`: every set is
spread into an array, the array splitter runs, and `mapArraysToSetNodes`
translates back: a root keeps the caller's original set, a generated node
gets `new Set(arrayNode.array)`, every rest becomes `new Set(arrayNode.rest)`
and the import references (indices) carry over unchanged (the reference
lookup through `arrayToSetMap` is positional, roots being the first
`sets.length` nodes in input order). -/
def splitSetsWith (inter : List T → List T → List T)
    (initR : List T → List T) (sets : List (List T)) (fuel : Nat) :
    Option (List (SetNode T)) := do
  let out ← splitArraysWith inter initR (sets.map (fun s => s)) fuel
  some (out.enum.map (fun p =>
    { set := if p.1 < sets.length then sets.getD p.1 [] else jsNewSet p.2.array
      rest := jsNewSet p.2.rest
      imports := p.2.imports
      depth := p.2.depth }))

/-- `new BiggestIntersectionsSplitter(false).splitSets`. -/
def splitSetsFalse (sets : List (List T)) (fuel : Nat) :
    Option (List (SetNode T)) :=
  splitSetsWith getIntersection (fun a => a) sets fuel

/-- `new BiggestIntersectionsSplitter(true).splitSets`. -/
def splitSetsTrue [LinearOrder T] (sets : List (List T)) (fuel : Nat) :
    Option (List (SetNode T)) :=
  splitSetsWith (getIntersectionSorted defaultCmp) (jsSortWith defaultCmp) sets fuel

/-- `new BiggestIntersectionsSplitter(sorter).splitSets`. -/
def splitSetsSorter (f : T → T → Int) (sets : List (List T)) (fuel : Nat) :
    Option (List (SetNode T)) :=
  splitSetsWith (getIntersectionSorted f) (jsSortWith f) sets fuel

/-! ## Spec-side vocabulary -/

/-- Total number of occurrences of `x` across a family of sequences. -/
def totalOccurrences (x : T) (arrays : List (List T)) : Nat := arrays.flatten.count x

/-- Number of input collections that contain `x`. -/
def setsContaining (x : T) (sets : List (List T)) : Nat :=
  sets.countP (fun s => x ∈ s)

/-- Number of nodes of an arena whose current `rest` contains `x`. -/
def restsContaining (nodes : List (ArrayNode T)) (x : T) : Nat :=
  nodes.countP (fun n => x ∈ n.rest)

/-- The element step of `collectMultiArr` as a named function. -/
def arrStep : List T × List T → T → List T × List T := fun p element =>
  if element ∈ p.1 then (p.1, p.2 ++ [element]) else (p.1 ++ [element], p.2)

/-- The element step of `collectMultiSets` as a named function. -/
def setStep : List T × List T → T → List T × List T := fun p element =>
  (sadd p.1 element, if element ∈ p.1 then sadd p.2 element else p.2)

end IntersectionSplitter

namespace IntersectionSplitter

/-! ## Theorems -/

variable {T : Type} [DecidableEq T]

theorem collectMultiArr_eq (arrays : List (List T)) :
    collectMultiArr arrays = arrays.foldl (fun acc a => a.foldl arrStep acc) ([], []) :=
  rfl

theorem collectMultiSets_eq (sets : List (List T)) :
    collectMultiSets sets = sets.foldl (fun acc s => s.foldl setStep acc) ([], []) :=
  rfl

theorem mem_sadd {s : List T} {x y : T} : y ∈ sadd s x ↔ y ∈ s ∨ y = x := by
  unfold sadd
  by_cases h : x ∈ s
  · rw [if_pos h]
    constructor
    · exact Or.inl
    · rintro (hy | rfl)
      · exact hy
      · exact h
  · rw [if_neg h]; simp

theorem mem_foldl_sadd (l : List T) (acc : List T) (y : T) :
    y ∈ l.foldl sadd acc ↔ y ∈ acc ∨ y ∈ l := by
  induction l generalizing acc with
  | nil => simp
  | cons e t ih =>
    rw [List.foldl_cons, ih, mem_sadd]
    simp [or_assoc, or_comm, or_left_comm]

theorem nodup_sadd {s : List T} (h : s.Nodup) (x : T) : (sadd s x).Nodup := by
  unfold sadd
  by_cases hx : x ∈ s
  · rwa [if_pos hx]
  · rw [if_neg hx]
    simpa [List.nodup_append] using ⟨h, fun hmem => hx hmem⟩

theorem nodup_foldl_sadd (l : List T) (acc : List T) (h : acc.Nodup) :
    (l.foldl sadd acc).Nodup := by
  induction l generalizing acc with
  | nil => simpa
  | cons e t ih => exact ih _ (nodup_sadd h e)

theorem nodup_jsNewSet (l : List T) : (jsNewSet l).Nodup :=
  nodup_foldl_sadd l [] (by simp)

theorem mem_jsNewSet (l : List T) (y : T) : y ∈ jsNewSet l ↔ y ∈ l := by
  simp [jsNewSet, mem_foldl_sadd]

theorem sadd_of_mem {s : List T} {x : T} (h : x ∈ s) : sadd s x = s := by
  unfold sadd; rw [if_pos h]

theorem sadd_of_not_mem {s : List T} {x : T} (h : ¬ x ∈ s) : sadd s x = s ++ [x] := by
  unfold sadd; rw [if_neg h]

theorem foldl_sadd_of_nodup (l acc : List T) (h : (acc ++ l).Nodup) :
    l.foldl sadd acc = acc ++ l := by
  induction l generalizing acc with
  | nil => simp
  | cons e t ih =>
    have he : e ∉ acc := by
      intro hmem
      exact (List.disjoint_of_nodup_append h) hmem (by simp)
    rw [List.foldl_cons, sadd_of_not_mem he, ih (acc ++ [e]) (by simpa using h)]
    simp

theorem jsNewSet_of_nodup (l : List T) (h : l.Nodup) : jsNewSet l = l := by
  simpa [jsNewSet] using foldl_sadd_of_nodup l [] (by simpa)

theorem foldl_arrStep_fst (a : List T) (p : List T × List T) :
    (a.foldl arrStep p).1 = a.foldl sadd p.1 := by
  induction a generalizing p with
  | nil => rfl
  | cons e t ih =>
    rw [List.foldl_cons, List.foldl_cons, ih]
    unfold arrStep sadd
    by_cases h : e ∈ p.1 <;> simp [h]

theorem arrStep_of_mem {els multi : List T} {e : T} (h : e ∈ els) :
    arrStep (els, multi) e = (els, multi ++ [e]) := by
  unfold arrStep; rw [if_pos h]

theorem arrStep_of_not_mem {els multi : List T} {e : T} (h : ¬ e ∈ els) :
    arrStep (els, multi) e = (els ++ [e], multi) := by
  unfold arrStep; rw [if_neg h]

theorem mem_foldl_arrStep (a : List T) (els multi : List T) (x : T) :
    x ∈ (a.foldl arrStep (els, multi)).2 ↔
      x ∈ multi ∨ (x ∈ els ∧ x ∈ a) ∨ 2 ≤ a.count x := by
  induction a generalizing els multi with
  | nil => simp
  | cons e t ih =>
    rw [List.foldl_cons]
    by_cases he : e ∈ els
    · rw [arrStep_of_mem he, ih]
      by_cases hx : x = e
      · subst hx
        simp only [List.mem_append, List.mem_cons, List.mem_singleton]
        have hxe : x ∈ els := he
        tauto
      · have hc : (e :: t).count x = t.count x := by
          simp [List.count_cons, hx]
        simp only [List.mem_append, List.mem_cons, List.mem_singleton, hc]
        tauto
    · rw [arrStep_of_not_mem he, ih]
      by_cases hx : x = e
      · subst hx
        have hc : (x :: t).count x = t.count x + 1 := by simp [List.count_cons]
        have hm : x ∈ t ↔ 1 ≤ t.count x := by
          rw [← List.count_pos_iff]; omega
        simp only [List.mem_append, List.mem_cons, List.mem_singleton, hc]
        by_cases hmu : x ∈ multi
        · tauto
        · simp only [hmu, false_or]
          constructor
          · rintro (⟨h1, h2⟩ | hcnt)
            · rcases h1 with h1 | h1
              · exact absurd h1 he
              · rw [hm] at h2; omega
            · omega
          · rintro (⟨h1, _⟩ | hcnt)
            · exact absurd h1 he
            · have h1t : 1 ≤ t.count x := by omega
              rw [← hm] at h1t
              refine Or.inl ⟨?_, h1t⟩
              simp
      · have hc : (e :: t).count x = t.count x := by simp [List.count_cons, hx]
        simp only [List.mem_append, List.mem_cons, List.mem_singleton, hc]
        tauto

theorem foldl_setStep_fst (s : List T) (p : List T × List T) :
    (s.foldl setStep p).1 = s.foldl sadd p.1 := by
  induction s generalizing p with
  | nil => rfl
  | cons e t ih =>
    rw [List.foldl_cons, List.foldl_cons, ih]
    rfl

theorem mem_foldl_setStep (s : List T) (els multi : List T) (x : T) (hs : s.Nodup) :
    x ∈ (s.foldl setStep (els, multi)).2 ↔ x ∈ multi ∨ (x ∈ els ∧ x ∈ s) := by
  induction s generalizing els multi with
  | nil => simp
  | cons e t ih =>
    have het : e ∉ t := (List.nodup_cons.mp hs).1
    have ht : t.Nodup := (List.nodup_cons.mp hs).2
    rw [List.foldl_cons]
    by_cases he : e ∈ els
    · rw [show setStep (els, multi) e = (sadd els e, sadd multi e) by
        unfold setStep; rw [if_pos he]]
      rw [ih _ _ ht, mem_sadd, mem_sadd]
      by_cases hx : x = e
      · subst hx; simp only [List.mem_cons]; tauto
      · simp only [List.mem_cons]; tauto
    · rw [show setStep (els, multi) e = (sadd els e, multi) by
        unfold setStep; rw [if_neg he]]
      rw [ih _ _ ht, mem_sadd]
      by_cases hx : x = e
      · subst hx
        simp only [List.mem_cons]
        have hxt : x ∉ t := het
        tauto
      · simp only [List.mem_cons]; tauto

theorem mem_collectMultiArr_from (arrays : List (List T)) (els multi : List T) (x : T) :
    x ∈ (arrays.foldl (fun acc a => a.foldl arrStep acc) (els, multi)).2 ↔
      x ∈ multi ∨ (x ∈ els ∧ 1 ≤ arrays.flatten.count x) ∨
        2 ≤ arrays.flatten.count x := by
  induction arrays generalizing els multi with
  | nil => simp
  | cons a R ih =>
    rw [List.foldl_cons, ← Prod.mk.eta (p := a.foldl arrStep (els, multi)), ih,
      foldl_arrStep_fst, mem_foldl_sadd, mem_foldl_arrStep]
    have hma : x ∈ a ↔ 1 ≤ a.count x := by rw [← List.count_pos_iff]; omega
    have hcnt : (a :: R).flatten.count x = a.count x + R.flatten.count x := by
      rw [List.flatten_cons, List.count_append]
    rw [hma, hcnt, show ((els, multi).1 : List T) = els from rfl]
    generalize List.count x a = ca
    generalize List.count x R.flatten = cR
    by_cases hP : x ∈ multi <;> by_cases hQ : x ∈ els <;> simp [hP, hQ] <;> omega

theorem mem_collectMultiArr (arrays : List (List T)) (x : T) :
    x ∈ (collectMultiArr arrays).2 ↔ 2 ≤ totalOccurrences x arrays := by
  rw [collectMultiArr_eq, mem_collectMultiArr_from]
  simp [totalOccurrences]

theorem mem_collectMultiSets_from (sets : List (List T)) (els multi : List T)
    (x : T) (h : ∀ s ∈ sets, s.Nodup) :
    x ∈ (sets.foldl (fun acc s => s.foldl setStep acc) (els, multi)).2 ↔
      x ∈ multi ∨ (x ∈ els ∧ 1 ≤ setsContaining x sets) ∨
        2 ≤ setsContaining x sets := by
  induction sets generalizing els multi with
  | nil => simp [setsContaining]
  | cons s R ih =>
    have hs : s.Nodup := h s (by simp)
    have hR : ∀ s' ∈ R, s'.Nodup := fun s' hm => h s' (by simp [hm])
    rw [List.foldl_cons, ← Prod.mk.eta (p := s.foldl setStep (els, multi)), ih _ _ hR,
      foldl_setStep_fst, mem_foldl_sadd, mem_foldl_setStep s _ _ x hs]
    have hcnt : setsContaining x (s :: R) =
        setsContaining x R + if x ∈ s then 1 else 0 := by
      simp only [setsContaining, List.countP_cons]
      by_cases hx : x ∈ s <;> simp [hx]
    rw [hcnt]
    by_cases hP : x ∈ multi <;> by_cases hQ : x ∈ els <;> by_cases hA : x ∈ s <;>
      simp [hP, hQ, hA] <;> omega

theorem mem_collectMultiSets (sets : List (List T)) (x : T)
    (h : ∀ s ∈ sets, s.Nodup) :
    x ∈ (collectMultiSets sets).2 ↔ 2 ≤ setsContaining x sets := by
  rw [collectMultiSets_eq, mem_collectMultiSets_from sets [] [] x h]
  simp

theorem nodup_foldl_setStep_snd (s : List T) (p : List T × List T)
    (h : p.2.Nodup) : ((s.foldl setStep p).2).Nodup := by
  induction s generalizing p with
  | nil => simpa
  | cons e t ih =>
    rw [List.foldl_cons]
    apply ih
    show (if e ∈ p.1 then sadd p.2 e else p.2).Nodup
    by_cases he : e ∈ p.1
    · rw [if_pos he]; exact nodup_sadd h e
    · rwa [if_neg he]

theorem nodup_collectMultiSets (sets : List (List T)) :
    ((collectMultiSets sets).2).Nodup := by
  rw [collectMultiSets_eq]
  have main : ∀ (p : List T × List T), p.2.Nodup →
      ((sets.foldl (fun acc s => s.foldl setStep acc) p).2).Nodup := by
    induction sets with
    | nil => intro p hp; simpa
    | cons s R ih =>
      intro p hp
      rw [List.foldl_cons]
      exact ih _ (nodup_foldl_setStep_snd s p hp)
  exact main ([], []) (by simp)

/-- C3 (amended): the baseline splitter extracts exactly the elements with at
least two occurrences across the whole input (for set input: membership in at
least two of the sets; for sequence input: total occurrence count at least
two, so a duplicate inside a single sequence already counts). Roots keep
their collection, depth 0, a rest of the elements occurring exactly once, and
one import per occurrence of a multiply-occurring element, in collection
order; the generated nodes are the depth-1 singletons, appended after the
roots. On `{1,2,3}, {2,3,4}, {3,4,5}` this yields the documented 3 roots with
rests `{1}`, `{}`, `{5}` and the three singleton nodes for `2`, `3`, `4`. -/
theorem shallow_splitter_characterization (sets arrays : List (List T))
    (h : ∀ s ∈ sets, s.Nodup) :
    (∃ keys : List T, keys.Nodup ∧
      (∀ x, x ∈ keys ↔ 2 ≤ setsContaining x sets) ∧
      splitIntersectionsSetsShallow sets =
        sets.map (fun s =>
          { set := s
            rest := s.filter (fun e => setsContaining e sets < 2)
            imports := (s.filter (fun e => 2 ≤ setsContaining e sets)).map
              (fun e => sets.length + keys.indexOf e)
            depth := 0 }) ++
        keys.map (fun e =>
          ({ set := [e], rest := [e], imports := [], depth := 1 } : SetNode T))) ∧
    (∃ keys : List T, keys.Nodup ∧
      (∀ x, x ∈ keys ↔ 2 ≤ totalOccurrences x arrays) ∧
      splitIntersectionsArrayShallow arrays =
        arrays.map (fun a =>
          { array := a
            rest := a.filter (fun e => totalOccurrences e arrays < 2)
            imports := (a.filter (fun e => 2 ≤ totalOccurrences e arrays)).map
              (fun e => arrays.length + keys.indexOf e)
            depth := 0 }) ++
        keys.map (fun e =>
          ({ array := [e], rest := [e], imports := [], depth := 1 } : ArrayNode T))) ∧
    splitIntersectionsSetsShallow ([[1, 2, 3], [2, 3, 4], [3, 4, 5]] : List (List Nat)) =
      [{ set := [1, 2, 3], rest := [1], imports := [3, 4], depth := 0 },
       { set := [2, 3, 4], rest := [], imports := [3, 4, 5], depth := 0 },
       { set := [3, 4, 5], rest := [5], imports := [4, 5], depth := 0 },
       { set := [2], rest := [2], imports := [], depth := 1 },
       { set := [3], rest := [3], imports := [], depth := 1 },
       { set := [4], rest := [4], imports := [], depth := 1 }] := by
  refine ⟨⟨(collectMultiSets sets).2, nodup_collectMultiSets sets, ?_, ?_⟩,
    ⟨jsNewSet (collectMultiArr arrays).2, nodup_jsNewSet _, ?_, ?_⟩, by decide⟩
  · intro x; exact mem_collectMultiSets sets x h
  · show (let multi := (collectMultiSets sets).2; _) = _
    simp only
    apply congrArg₂ (· ++ ·)
    · apply List.map_congr_left
      intro s hsmem
      have hnods : s.Nodup := h s hsmem
      have hmem : ∀ e, e ∈ (collectMultiSets sets).2 ↔ 2 ≤ setsContaining e sets :=
        fun e => mem_collectMultiSets sets e h
      simp only [SetNode.mk.injEq, true_and, and_true]
      constructor
      · rw [foldl_sadd_of_nodup _ [] (by simpa using hnods.filter _)]
        simp only [List.nil_append]
        apply List.filter_congr
        intro e _
        simp only [decide_eq_decide, hmem e]
        omega
      · apply congrArg₂ List.map rfl
        apply List.filter_congr
        intro e _
        simp only [decide_eq_decide, hmem e]
    · rfl
  · intro x; rw [mem_jsNewSet, mem_collectMultiArr]
  · show (let multi := (collectMultiArr arrays).2; _) = _
    simp only
    apply congrArg₂ (· ++ ·)
    · apply List.map_congr_left
      intro a _
      have hmem : ∀ e, e ∈ (collectMultiArr arrays).2 ↔ 2 ≤ totalOccurrences e arrays :=
        fun e => mem_collectMultiArr arrays e
      simp only [ArrayNode.mk.injEq, true_and, and_true]
      constructor
      · apply List.filter_congr
        intro e _
        simp only [decide_eq_decide, hmem e]
        omega
      · apply congrArg₂ List.map rfl
        apply List.filter_congr
        intro e _
        simp only [decide_eq_decide, hmem e]
    · rfl

/-- Witness for the characterization theorem at a concrete input. -/
theorem shallow_splitter_characterization_witness :
    (∀ s ∈ ([[1, 2], [2, 3]] : List (List Nat)), s.Nodup) ∧
    ((∃ keys : List Nat, keys.Nodup ∧
      (∀ x, x ∈ keys ↔ 2 ≤ setsContaining x [[1, 2], [2, 3]]) ∧
      splitIntersectionsSetsShallow [[1, 2], [2, 3]] =
        ([[1, 2], [2, 3]] : List (List Nat)).map (fun s =>
          { set := s
            rest := s.filter (fun e => setsContaining e [[1, 2], [2, 3]] < 2)
            imports := (s.filter (fun e => 2 ≤ setsContaining e [[1, 2], [2, 3]])).map
              (fun e => ([[1, 2], [2, 3]] : List (List Nat)).length + keys.indexOf e)
            depth := 0 }) ++
        keys.map (fun e =>
          ({ set := [e], rest := [e], imports := [], depth := 1 } : SetNode Nat))) ∧
    (∃ keys : List Nat, keys.Nodup ∧
      (∀ x, x ∈ keys ↔ 2 ≤ totalOccurrences x [[4], [4, 5]]) ∧
      splitIntersectionsArrayShallow [[4], [4, 5]] =
        ([[4], [4, 5]] : List (List Nat)).map (fun a =>
          { array := a
            rest := a.filter (fun e => totalOccurrences e [[4], [4, 5]] < 2)
            imports := (a.filter (fun e => 2 ≤ totalOccurrences e [[4], [4, 5]])).map
              (fun e => ([[4], [4, 5]] : List (List Nat)).length + keys.indexOf e)
            depth := 0 }) ++
        keys.map (fun e =>
          ({ array := [e], rest := [e], imports := [], depth := 1 } : ArrayNode Nat))) ∧
    splitIntersectionsSetsShallow ([[1, 2, 3], [2, 3, 4], [3, 4, 5]] : List (List Nat)) =
      [{ set := [1, 2, 3], rest := [1], imports := [3, 4], depth := 0 },
       { set := [2, 3, 4], rest := [], imports := [3, 4, 5], depth := 0 },
       { set := [3, 4, 5], rest := [5], imports := [4, 5], depth := 0 },
       { set := [2], rest := [2], imports := [], depth := 1 },
       { set := [3], rest := [3], imports := [], depth := 1 },
       { set := [4], rest := [4], imports := [], depth := 1 }]) :=
  ⟨by decide, shallow_splitter_characterization [[1, 2], [2, 3]] [[4], [4, 5]] (by decide)⟩

/-- C4 (amended): `getNodeMetric` raises an error exactly when some element
of the node's own collection is missing from the elements reachable through
rest/imports; reachable elements outside the collection are not detected. -/
theorem getNodeMetric_none_iff (nodes : List (ArrayNode T)) (fuel i : Nat) :
    getNodeMetric nodes fuel i = none ↔
      ¬ ((nodes.get? i).elim [] (fun n => n.array) ⊆
          (getNodeMetricRecursive nodes fuel i 0 ⟨0, 0, 0, 0, 0⟩).2) := by
  simp only [getNodeMetric]
  split
  · next hc =>
    simp only [true_iff]
    rw [List.any_eq_true] at hc
    obtain ⟨e, he, hne⟩ := hc
    intro hsub
    simp only [decide_eq_true_eq] at hne
    exact hne (hsub he)
  · next hc =>
    simp only [reduceCtorEq, false_iff, not_not]
    intro e he
    by_contra hmem
    exact hc (List.any_eq_true.mpr ⟨e, he, by simpa using hmem⟩)

/-- The output of `splitArraysFalse [[1,1,2],[1,2]]` (checked below). -/
def c1Out : List (ArrayNode Nat) :=
  [{ array := [1, 1, 2], rest := [], imports := [2], depth := 0 },
   { array := [1, 2], rest := [], imports := [2], depth := 0 },
   { array := [1, 2], rest := [1, 2], imports := [], depth := 1 }]

/-- C1: the reconstruction invariant fails as a multiset for the greedy
splitter on sequences with duplicates. On `[[1,1,2],[1,2]]` (mode
`sort = false`) the pass extracts `[1,2]`; the extraction removes every
occurrence of `1` from the first root's rest while the generated node holds
`1` only once, so the root reconstructs to `[1,2]`, not to a permutation of
its original sequence `[1,1,2]`. -/
theorem greedy_reconstruction_loses_duplicates :
    splitArraysFalse [[1, 1, 2], [1, 2]] 9 = some c1Out ∧
    reconstruct c1Out c1Out.length 0 = [1, 2] ∧
    ¬ ([1, 2] : List Nat).Perm [1, 1, 2] := by decide

/-- The output of `splitArraysFalse [[1],[1]]` (checked below). -/
def c2Out : List (ArrayNode Nat) :=
  [{ array := [1], rest := [1], imports := [], depth := 0 },
   { array := [1], rest := [1], imports := [], depth := 0 }]

/-- C2: the greedy stopping condition is not a post-condition. On `[[1],[1]]`
every occurrence count is `2`, so `counts.slice(0, -1)` (meant to drop the
count-1 bucket) drops the only real bucket, the pass returns `0` without
extracting, and the final node list still has the element `1` in the rest of
two distinct nodes. -/
theorem greedy_stopping_condition_violated :
    splitArraysFalse [[1], [1]] 9 = some c2Out ∧
    restsContaining c2Out 1 = 2 := by decide

/-- C3 counterexample input: one single collection with a duplicate. -/
theorem shallow_extracts_from_single_collection :
    splitIntersectionsArrayShallow [[1, 1]] =
      [{ array := [1, 1], rest := [], imports := [1, 1], depth := 0 },
       { array := [1], rest := [1], imports := [], depth := 1 }] ∧
    setsContaining 1 [[1, 1]] = 1 := by decide

/-- The everywhere-equal comparator, a legitimate `Array.prototype.sort`
comparator (e.g. comparing records by an all-equal key). -/
def cmp0 : Nat → Nat → Int := fun _ _ => 0

/-- The generated-node chain of the diverging greedy run: after `k + 1`
extractions the nodes `3, …, 3 + k - 1` are exhausted copies of `[2,2]`, each
importing its successor. -/
def c7Chain (k : Nat) : List (ArrayNode Nat) :=
  (List.range k).map (fun i =>
    { array := [2, 2], rest := [], imports := [4 + i], depth := 1 })

/-- The arena after `k + 1` extractions of the diverging greedy run on
`[[1,1],[2,2],[3]]` with the everywhere-equal comparator. -/
def c7State (k : Nat) : List (ArrayNode Nat) :=
  [{ array := [1, 1], rest := [1, 1], imports := [], depth := 0 },
   { array := [2, 2], rest := [], imports := [3], depth := 0 },
   { array := [3], rest := [3], imports := [], depth := 0 }] ++
  c7Chain k ++
  [{ array := [2, 2], rest := [2, 2], imports := [], depth := 1 }]

theorem c7Chain_succ (k : Nat) :
    c7Chain (k + 1) = c7Chain k ++
      [{ array := [2, 2], rest := [], imports := [4 + k], depth := 1 }] := by
  unfold c7Chain
  rw [List.range_succ, List.map_append]
  rfl

theorem c7Chain_foldl_id {β : Type} (F : β → ArrayNode Nat → β)
    (hF : ∀ b i, F b { array := [2, 2], rest := [], imports := [4 + i], depth := 1 } = b)
    (m : β) (k : Nat) : (c7Chain k).foldl F m = m := by
  induction k with
  | zero => rfl
  | succ n ih =>
    rw [c7Chain_succ, List.foldl_append, ih, List.foldl_cons, List.foldl_nil, hF]

theorem c7Chain_map_rests (k : Nat) (g : List Nat → List Nat) (hg : g [] = []) :
    (c7Chain k).map (fun n => g n.rest) = (List.range k).map (fun _ => []) := by
  unfold c7Chain
  rw [List.map_map]
  apply List.map_congr_left
  intro i _
  exact hg

theorem c7_filter_chain (p : List Nat → Bool) (hp : p [] = false) (k : Nat) :
    ((List.range k).map (fun _ => ([] : List Nat))).filter p = [] := by
  rw [List.filter_eq_nil_iff]
  intro a ha
  rw [List.mem_map] at ha
  obtain ⟨i, _, rfl⟩ := ha
  simp [hp]

theorem c7_elementCount (k : Nat) :
    elementCountOf (c7State k) = [(1, 2), (3, 1), (2, 2)] := by
  unfold c7State elementCountOf
  rw [List.foldl_append, List.foldl_append]
  rw [c7Chain_foldl_id _ (fun b i => rfl)]
  rfl

theorem c7_length (k : Nat) : (c7State k).length = k + 4 := by
  simp [c7State, c7Chain]

theorem c7_extract (k : Nat) :
    extractLI (c7State k) [2, 2] 2 = (c7State (k + 1), 2) := by
  have hmap : (c7State k).map (fun n =>
      if ([2, 2] : List Nat).all (fun e => e ∈ n.rest) then
        { n with rest := n.rest.filter (fun e => ¬ e ∈ ([2, 2] : List Nat))
                 imports := n.imports ++ [k + 4] }
      else n) =
      [{ array := [1, 1], rest := [1, 1], imports := [], depth := 0 },
       { array := [2, 2], rest := [], imports := [3], depth := 0 },
       { array := [3], rest := [3], imports := [], depth := 0 }] ++
      c7Chain k ++
      [{ array := [2, 2], rest := [], imports := [k + 4], depth := 1 }] := by
    have hchain : (c7Chain k).map (fun n =>
        if ([2, 2] : List Nat).all (fun e => e ∈ n.rest) then
          { n with rest := n.rest.filter (fun e => ¬ e ∈ ([2, 2] : List Nat))
                   imports := n.imports ++ [k + 4] }
        else n) = c7Chain k := by
      conv_lhs => rw [c7Chain]
      rw [List.map_map]
      conv_rhs => rw [c7Chain]
      apply List.map_congr_left
      intro i _
      rfl
    conv_lhs => rw [c7State]
    rw [List.map_append, List.map_append, hchain]
    rfl
  simp only [extractLI]
  rw [if_pos (by decide : (0 : Nat) < ([2, 2] : List Nat).length)]
  rw [c7_length, hmap]
  conv_rhs => rw [c7State, c7Chain_succ]
  simp [c7State, List.append_assoc]
  omega

theorem c7_step (k : Nat) :
    splitArrayNodes (getIntersectionSorted cmp0) (c7State k) = (c7State (k + 1), 2) := by
  have hecm : elementCountMapOf [(1, 2), (3, 1), (2, 2)] = [(2, [1, 2]), (1, [3])] := by
    decide
  have hfil : (c7State k).map
      (fun n => n.rest.filter (fun e => ¬ e ∈ ((aget [(2, [1, 2]), (1, [3])] 1).getD []))) =
      ([[1, 1], [], []] : List (List Nat)) ++
        (List.range k).map (fun _ => []) ++ [[2, 2]] := by
    conv_lhs => rw [c7State]
    rw [List.map_append, List.map_append, c7Chain_map_rests k _ rfl]
    rfl
  have hf1 : (([[1, 1], [], []] : List (List Nat)) ++
      (List.range k).map (fun _ => []) ++ [[2, 2]]).filter
        (fun r => decide (0 < r.length ∧ (1 : Nat) ∈ r)) = [[1, 1]] := by
    rw [List.filter_append, List.filter_append, c7_filter_chain _ rfl]
    rfl
  have hf2 : (([[1, 1], [], []] : List (List Nat)) ++
      (List.range k).map (fun _ => []) ++ [[2, 2]]).filter
        (fun r => decide (0 < r.length ∧ ¬ (1 : Nat) ∈ r)) = [[2, 2]] := by
    rw [List.filter_append, List.filter_append, c7_filter_chain _ rfl]
    rfl
  have hstep1 : elemStep (getIntersectionSorted cmp0) (c7State k) 1
      (([[1, 1], [], []] : List (List Nat)) ++
        (List.range k).map (fun _ => []) ++ [[2, 2]]) [] 0 [] =
      Sum.inr ([[2, 2]], [[1, 1]], 0, []) := by
    simp only [elemStep]
    rw [hf1, hf2]
    rw [if_neg (by decide : ¬ ([[2, 2]] : List (List Nat)) = [])]
    rfl
  have hstep2 : elemStep (getIntersectionSorted cmp0) (c7State k) 2
      [[2, 2]] [[1, 1]] 0 [] = Sum.inl (extractLI (c7State k) [2, 2] 2) := by
    simp only [elemStep]
    rw [if_pos (by decide :
      (([[2, 2]] : List (List Nat)).filter
        (fun r => decide (0 < r.length ∧ ¬ (2 : Nat) ∈ r))) = [])]
    rfl
  simp only [splitArrayNodes, c7_elementCount, hecm]
  rw [show jsSortWith (fun (a b : Nat) => (b : Int) - (a : Int))
      ([(2, [1, 2]), (1, [3])].map (fun p : Nat × List Nat => p.1)) = [2, 1] from by decide]
  rw [if_neg (by decide : ¬ ([2, 1] : List Nat).head? = some 1)]
  rw [show ([2, 1] : List Nat).dropLast = [2] from rfl]
  rw [hfil]
  simp only [bucketsLoop]
  rw [show (aget [(2, [1, 2]), (1, [3])] 2).getD [] = [1, 2] from by decide]
  simp only [elemsLoop]
  rw [hstep1]
  dsimp only
  rw [hstep2]
  exact c7_extract k

/-- The extraction loop never reaches its stopping condition from any of the
diverging states. -/
theorem c7_loop (fuel k : Nat) :
    greedyLoop (getIntersectionSorted cmp0) fuel (c7State k) = none := by
  induction fuel generalizing k with
  | zero => rfl
  | succ n ih =>
    simp only [greedyLoop]
    rw [c7_step k]
    have hlt : (0 : Nat) < ((c7State (k + 1), 2) : List (ArrayNode Nat) × Nat).2 :=
      Nat.zero_lt_two
    rw [if_pos hlt]
    exact ih (k + 1)

/-- C7: the greedy splitter does not terminate on every finite input. With
the everywhere-equal comparator (a legitimate JS comparator) on
`[[1,1],[2,2],[3]]`, the two-pointer intersection equates `2` with the `1`s,
so every pass extracts `[2,2]` out of the node generated by the previous
pass and appends a fresh copy: the loop never reaches its stopping condition
for any amount of fuel. -/
theorem greedy_splitter_divergence (fuel : Nat) :
    splitArraysSorter cmp0 [[1, 1], [2, 2], [3]] fuel = none := by
  simp only [splitArraysSorter, splitArraysWith]
  have hinit : ([[1, 1], [2, 2], [3]] : List (List Nat)).map (fun a =>
      ({ array := a, rest := jsSortWith cmp0 a, imports := [], depth := 0 } : ArrayNode Nat)) =
      [{ array := [1, 1], rest := [1, 1], imports := [], depth := 0 },
       { array := [2, 2], rest := [2, 2], imports := [], depth := 0 },
       { array := [3], rest := [3], imports := [], depth := 0 }] := by decide
  rw [hinit]
  cases fuel with
  | zero => rfl
  | succ n =>
    have h0 : splitArrayNodes (getIntersectionSorted cmp0)
        [{ array := [1, 1], rest := [1, 1], imports := [], depth := 0 },
         { array := [2, 2], rest := [2, 2], imports := [], depth := 0 },
         { array := [3], rest := [3], imports := [], depth := 0 }] = (c7State 0, 2) := by
      decide
    have hgl : greedyLoop (getIntersectionSorted cmp0) (n + 1)
        [{ array := [1, 1], rest := [1, 1], imports := [], depth := 0 },
         { array := [2, 2], rest := [2, 2], imports := [], depth := 0 },
         { array := [3], rest := [3], imports := [], depth := 0 }] = none := by
      simp only [greedyLoop]
      rw [h0]
      have hlt : (0 : Nat) < ((c7State 0, 2) : List (ArrayNode Nat) × Nat).2 :=
        Nat.zero_lt_two
      rw [if_pos hlt]
      exact c7_loop n 0
    rw [hgl]
    rfl

/-- JS default string comparison on the one-digit keys of the examples,
which coincides with the numeric order. -/
def natSortCmp : Nat → Nat → Int := fun a b => if a < b then -1 else if b < a then 1 else 0

/-- The configuration of the documented example runs:
`join = (array) => array.sort().join('\x00')` and
`split = (string) => string.split('\x00')` become the sorted element list as
the primitive key (equality of the joined strings is equality of the sorted
lists, none of the elements containing the separator), with the default
weight pair (`elementsCount` primary, `setsCount` secondary). -/
def exampleCfg : Weighted.WConfig Nat (List Nat) :=
  { join := fun a => jsSortWith natSortCmp a
    split := fun u => u
    primaryWeight := fun iec _ => iec
    secondaryWeight := fun _ isc => isc }

/-- The node list of the weighted example run (checked below); it is exactly
the expected value of the repository test `Splits array of arrays of strings`. -/
def c9Out : List (ArrayNode Nat) :=
  [{ array := [1, 2, 3], rest := [1], imports := [3], depth := 0 },
   { array := [2, 3, 4], rest := [], imports := [3, 5], depth := 0 },
   { array := [3, 4, 5], rest := [5], imports := [4, 5], depth := 0 },
   { array := [2, 3], rest := [2], imports := [4], depth := 1 },
   { array := [3], rest := [3], imports := [], depth := 2 },
   { array := [4], rest := [4], imports := [], depth := 1 }]

/-- C9: the weighted splitter with default weights and the sort-join/split
pair, on `{1,2,3}, {2,3,4}, {3,4,5}` given as sequences, produces the
two-level hierarchy: the `{2,3}` group is extracted first (node 3, creation
order before node 4) and `{3}` is then extracted out of it (node 3 imports
node 4, whose depth is 2), and the maximum depth over the node list — the
`maxDepth` the metrics pass reports — is 2. -/
theorem weighted_example_two_level_hierarchy :
    Weighted.splitArrays exampleCfg [[1, 2, 3], [2, 3, 4], [3, 4, 5]] 5 = some c9Out ∧
    (c9Out.getD 3 ⟨[], [], [], 0⟩).array = [2, 3] ∧
    (c9Out.getD 3 ⟨[], [], [], 0⟩).imports = [4] ∧
    (c9Out.getD 4 ⟨[], [], [], 0⟩).array = [3] ∧
    (c9Out.getD 4 ⟨[], [], [], 0⟩).depth = 2 ∧
    c9Out.foldl (fun m n => max m n.depth) 0 = 2 ∧
    (getNodeMetric c9Out 6 1).map (fun m => m.maxDepth) = some 2 := by decide

/-- C6: the weighted splitter is deterministic — the embedding resolves every
iteration-order choice (JS `Map`/`Set` insertion order) deterministically, so
two calls with the same configuration on equal input families presented in
the same order return structurally identical node lists. -/
theorem weighted_splitter_deterministic {U : Type} [DecidableEq U]
    (cfg : Weighted.WConfig T U) (s1 s2 a1 a2 : List (List T)) (fuel : Nat)
    (hs : s1 = s2) (ha : a1 = a2) :
    Weighted.splitSets cfg s1 fuel = Weighted.splitSets cfg s2 fuel ∧
    Weighted.splitArrays cfg a1 fuel = Weighted.splitArrays cfg a2 fuel := by
  subst hs
  subst ha
  exact ⟨rfl, rfl⟩

/-- Witness for determinism at a concrete input. -/
theorem weighted_splitter_deterministic_witness :
    ([[1, 2], [2, 3]] : List (List Nat)) = [[1, 2], [2, 3]] ∧
    (Weighted.splitSets exampleCfg [[1, 2], [2, 3]] 5 =
        Weighted.splitSets exampleCfg [[1, 2], [2, 3]] 5 ∧
      Weighted.splitArrays exampleCfg [[4], [4, 5]] 5 =
        Weighted.splitArrays exampleCfg [[4], [4, 5]] 5) :=
  ⟨rfl, weighted_splitter_deterministic exampleCfg _ _ _ _ 5 rfl rfl⟩

theorem take_enum_map {α β : Type} (out : List α) (f : Nat × α → β)
    (inputs : List β) (b0 : β) (hlen : inputs.length ≤ out.length)
    (hf : ∀ i (h : i < inputs.length) (h2 : i < out.length),
      f (i, out[i]) = inputs.getD i b0) :
    (out.enum.map f).take inputs.length = inputs := by
  apply List.ext_getElem
  · simp [List.length_take, List.enum_length]
    omega
  · intro i h1 h2
    have hio : i < out.length := by
      simp [List.length_take, List.enum_length] at h1
      omega
    have hie : i < out.enum.length := by simpa [List.enum_length] using hio
    rw [List.getElem_take, List.getElem_map, List.getElem_enum]
    rw [hf i h2 hio]
    exact List.getD_eq_getElem inputs b0 h2

theorem shallow_sets_roots (sets : List (List T)) :
    ((splitIntersectionsSetsShallow sets).take sets.length).map (fun n => n.set) =
      sets := by
  show ((((sets.map _) ++ _ : List (SetNode T))).take sets.length).map _ = _
  rw [List.take_left' (by simp)]
  rw [List.map_map]
  exact List.map_id'' (fun x => rfl) sets

theorem shallow_arrays_roots (arrays : List (List T)) :
    ((splitIntersectionsArrayShallow arrays).take arrays.length).map
      (fun n => n.array) = arrays := by
  show ((((arrays.map _) ++ _ : List (ArrayNode T))).take arrays.length).map _ = _
  rw [List.take_left' (by simp)]
  rw [List.map_map]
  exact List.map_id'' (fun x => rfl) arrays

theorem extractLI_map_array (nodes : List (ArrayNode T)) (li : List T) (lo : Nat) :
    ∃ t, ((extractLI nodes li lo).1).map (fun n => n.array) =
      nodes.map (fun n => n.array) ++ t := by
  simp only [extractLI]
  by_cases h : 0 < li.length
  · rw [if_pos h]
    refine ⟨[li], ?_⟩
    rw [List.map_append, List.map_map]
    apply congrArg₂ (· ++ ·)
    · apply List.map_congr_left
      intro n _
      dsimp only [Function.comp]
      split
      · rfl
      · rfl
    · rfl
  · rw [if_neg h]
    exact ⟨[], by simp⟩

theorem elemsLoop_inl (inter : List T → List T → List T)
    (nodes : List (ArrayNode T)) :
    ∀ (es : List T) (filtered base : List (List T)) (lo : Nat) (li : List T)
      (p : List (ArrayNode T) × Nat),
      elemsLoop inter nodes es filtered base lo li = Sum.inl p →
      ∃ li2 lo2, p = extractLI nodes li2 lo2 := by
  intro es
  induction es with
  | nil => intro filtered base lo li p h; exact absurd h (by simp [elemsLoop])
  | cons e es ih =>
    intro filtered base lo li p h
    rw [elemsLoop] at h
    rcases heq : elemStep inter nodes e filtered base lo li with r | r
    · rw [heq] at h
      simp only [elemStep] at heq
      split at heq
      · exact ⟨_, _, by injection h with h2; injection heq with h3; rw [← h2, ← h3]⟩
      · exact absurd heq (by simp)
    · rw [heq] at h
      exact ih r.1 r.2.1 r.2.2.1 r.2.2.2 p h

theorem bucketsLoop_inl (inter : List T → List T → List T)
    (nodes : List (ArrayNode T)) (ecm : List (Nat × List T)) :
    ∀ (cs : List Nat) (filtered base : List (List T)) (lo : Nat) (li : List T)
      (p : List (ArrayNode T) × Nat),
      bucketsLoop inter nodes ecm cs filtered base lo li = Sum.inl p →
      ∃ li2 lo2, p = extractLI nodes li2 lo2 := by
  intro cs
  induction cs with
  | nil => intro filtered base lo li p h; exact absurd h (by simp [bucketsLoop])
  | cons c cs ih =>
    intro filtered base lo li p h
    rw [bucketsLoop] at h
    rcases heq : elemsLoop inter nodes ((aget ecm c).getD []) filtered base lo li
      with r | r
    · rw [heq] at h
      injection h with h2
      subst h2
      exact elemsLoop_inl inter nodes _ filtered base lo li r heq
    · rw [heq] at h
      exact ih r.1 r.2.1 r.2.2.1 r.2.2.2 p h

theorem splitArrayNodes_map_array (inter : List T → List T → List T)
    (nodes : List (ArrayNode T)) :
    ∃ t, ((splitArrayNodes inter nodes).1).map (fun n => n.array) =
      nodes.map (fun n => n.array) ++ t := by
  simp only [splitArrayNodes]
  split
  · exact ⟨[], by simp⟩
  · rcases heq : bucketsLoop inter nodes
        (elementCountMapOf (elementCountOf nodes))
        (jsSortWith (fun (a b : Nat) => (b : Int) - (a : Int))
          ((elementCountMapOf (elementCountOf nodes)).map (fun p => p.1))).dropLast
        (nodes.map (fun n => n.rest.filter (fun e =>
          ¬ e ∈ ((aget (elementCountMapOf (elementCountOf nodes)) 1).getD []))))
        [] 0 [] with r | r
    · rw [heq]
      obtain ⟨li2, lo2, hp⟩ := bucketsLoop_inl inter nodes _ _ _ _ _ _ _ heq
      rw [hp]
      exact extractLI_map_array nodes li2 lo2
    · rw [heq]
      exact ⟨[], by simp⟩

theorem greedyLoop_map_array (inter : List T → List T → List T) :
    ∀ (fuel : Nat) (nodes out : List (ArrayNode T)),
      greedyLoop inter fuel nodes = some out →
      ∃ t, out.map (fun n => n.array) = nodes.map (fun n => n.array) ++ t := by
  intro fuel
  induction fuel with
  | zero => intro nodes out h; exact absurd h (by simp [greedyLoop])
  | succ n ih =>
    intro nodes out h
    simp only [greedyLoop] at h
    split at h
    · obtain ⟨t1, h1⟩ := ih _ _ h
      obtain ⟨t2, h2⟩ := splitArrayNodes_map_array inter nodes
      exact ⟨t2 ++ t1, by rw [h1, h2, List.append_assoc]⟩
    · injection h with h2
      subst h2
      exact splitArrayNodes_map_array inter nodes

/-- The invariant carried through the `unImportedNodes.forEach`: every entry
of the assigned pool holds the node at its own index with only the depth
changed, in particular with the original `array` field. -/
def AssignedArraysOk (nodes : List (ArrayNode T))
    (assigned : List (Nat × ArrayNode T)) : Prop :=
  ∀ q ∈ assigned, ∀ (h : q.1 < nodes.length), q.2.array = nodes[q.1].array

theorem assignedArraysOk_of_enum (nodes : List (ArrayNode T))
    (l : List (Nat × ArrayNode T)) (hl : ∀ q ∈ l, q ∈ nodes.enum) :
    AssignedArraysOk nodes l := by
  intro q hq h
  rcases q with ⟨i, a⟩
  have hm := List.mem_enum (hl _ hq)
  rw [hm.2]

theorem amd_assigned_arrays (nodes : List (ArrayNode T)) :
    ∀ (todo assigned assigned' : List (Nat × ArrayNode T)),
      todo.foldlM amdStep assigned = some assigned' →
      AssignedArraysOk nodes assigned →
      AssignedArraysOk nodes todo →
      AssignedArraysOk nodes assigned' := by
  intro todo
  induction todo with
  | nil =>
    intro assigned assigned' h ha _
    simp only [List.foldlM_nil] at h
    injection h with h2
    subst h2
    exact ha
  | cons jn todo ih =>
    intro assigned assigned' h ha ht
    simp only [List.foldlM_cons] at h
    rcases heq : amdStep assigned jn with _ | a2
    · rw [heq] at h; exact absurd h (by simp)
    · rw [heq] at h
      refine ih a2 assigned' h ?_ (fun q hq => ht q (by simp [hq]))
      simp only [amdStep] at heq
      split at heq
      · exact absurd heq (by simp)
      · injection heq with h2
        subst h2
        intro q hq hlt
        rw [List.mem_append] at hq
        rcases hq with hq | hq
        · exact ha q hq hlt
        · simp only [List.mem_singleton] at hq
          subst hq
          exact ht jn (by simp) hlt

theorem addMaxDepthToNodes_map_array (nodes out : List (ArrayNode T))
    (h : addMaxDepthToNodes nodes = some out) :
    out.map (fun n => n.array) = nodes.map (fun n => n.array) := by
  simp only [addMaxDepthToNodes, bind, Option.bind] at h
  split at h
  · exact absurd h (by simp)
  · next assigned heq =>
    injection h with h2
    have hroots : AssignedArraysOk nodes
        (nodes.enum.filter (fun p => p.2.depth = 0)) :=
      assignedArraysOk_of_enum _ _ (fun q hq => List.mem_of_mem_filter hq)
    have htodo : AssignedArraysOk nodes
        (nodes.enum.filter (fun p => ¬ p.2.depth = 0)) :=
      assignedArraysOk_of_enum _ _ (fun q hq => List.mem_of_mem_filter hq)
    have hassigned : AssignedArraysOk nodes assigned :=
      amd_assigned_arrays nodes _ _ _ heq hroots htodo
    subst h2
    rw [List.map_map]
    have hptwise : ∀ q ∈ nodes.enum,
        (((fun n : ArrayNode T => n.array) ∘ (fun p : Nat × ArrayNode T =>
          match assigned.find? (fun q2 : Nat × ArrayNode T => q2.1 = p.1) with
          | some q2 => q2.2
          | none => p.2)) q) = q.2.array := by
      intro q hq
      rcases q with ⟨i, a⟩
      show (match assigned.find? (fun q2 : Nat × ArrayNode T => q2.1 = i) with
        | some q2 => q2.2
        | none => a).array = a.array
      rcases hfind : assigned.find? (fun q2 : Nat × ArrayNode T => q2.1 = i)
        with _ | q2
      · rfl
      · show q2.2.array = a.array
        have hkey : q2.1 = i := by simpa using List.find?_some hfind
        have hmem := List.mem_of_find?_eq_some hfind
        subst hkey
        have hm := List.mem_enum hq
        have harr := hassigned q2 hmem hm.1
        rw [harr]
        exact congrArg (fun n => n.array) hm.2.symm
    rw [List.map_congr_left hptwise]
    rw [show (fun p : Nat × ArrayNode T => p.2.array) =
      ((fun n : ArrayNode T => n.array) ∘ Prod.snd) from rfl]
    rw [← List.map_map, List.enum_map_snd]

theorem splitArraysWith_roots (inter : List T → List T → List T)
    (initR : List T → List T) (arrays : List (List T)) (fuel : Nat)
    (out : List (ArrayNode T))
    (h : splitArraysWith inter initR arrays fuel = some out) :
    (out.take arrays.length).map (fun n => n.array) = arrays := by
  simp only [splitArraysWith, bind, Option.bind] at h
  split at h
  · exact absurd h (by simp)
  · next mid heq =>
    have h1 := addMaxDepthToNodes_map_array mid out h
    obtain ⟨t, h2⟩ := greedyLoop_map_array inter fuel _ mid heq
    have h3 : (arrays.map (fun a =>
        ({ array := a, rest := initR a, imports := [], depth := 0 } : ArrayNode T))).map
        (fun n => n.array) = arrays := by
      rw [List.map_map]
      exact List.map_id'' (fun x => rfl) arrays
    have h4 : out.map (fun n => n.array) = arrays ++ t := by
      rw [h1, h2, h3]
    rw [List.map_take, h4, List.take_left]

theorem splitArraysWith_length (inter : List T → List T → List T)
    (initR : List T → List T) (arrays : List (List T)) (fuel : Nat)
    (out : List (ArrayNode T))
    (h : splitArraysWith inter initR arrays fuel = some out) :
    arrays.length ≤ out.length := by
  have hr := splitArraysWith_roots inter initR arrays fuel out h
  have hl := congrArg List.length hr
  simp only [List.length_map, List.length_take] at hl
  omega

theorem splitSetsWith_roots (inter : List T → List T → List T)
    (initR : List T → List T) (sets : List (List T)) (fuel : Nat)
    (out : List (SetNode T))
    (h : splitSetsWith inter initR sets fuel = some out) :
    (out.take sets.length).map (fun n => n.set) = sets := by
  simp only [splitSetsWith, bind, Option.bind] at h
  split at h
  · exact absurd h (by simp)
  · next mid heq =>
    injection h with h2
    subst h2
    have hlen : sets.length ≤ mid.length := by
      have hml := splitArraysWith_length inter initR (sets.map (fun s => s)) fuel mid heq
      simpa using hml
    rw [List.map_take, List.map_map]
    exact take_enum_map mid _ sets [] hlen
      (fun i hi h2 => by
        dsimp only [Function.comp]
        rw [if_pos hi])

theorem aget_isSome_find {K V : Type} [DecidableEq K] {m : List (K × V)} {k : K}
    {v : V} (h : aget m k = some v) :
    (m.find? (fun p => p.1 = k)).isSome = true := by
  simp only [aget] at h
  rcases hf : m.find? (fun p => p.1 = k) with _ | p
  · rw [hf] at h; exact absurd h (by simp)
  · rw [hf]; rfl

theorem aget_none_find {K V : Type} [DecidableEq K] {m : List (K × V)} {k : K}
    (h : aget m k = none) : m.find? (fun p => p.1 = k) = none := by
  simp only [aget] at h
  rcases hf : m.find? (fun p => p.1 = k) with _ | p
  · exact hf
  · rw [hf] at h; exact absurd h (by simp)

theorem aget_cons_ne {K V : Type} [DecidableEq K] {q : K × V} {m : List (K × V)}
    {k : K} (h : ¬ q.1 = k) : aget (q :: m) k = aget m k := by
  have hd : (decide (q.1 = k)) = false := by simpa using h
  simp only [aget, List.find?_cons, hd]

theorem aget_cons_eq {K V : Type} [DecidableEq K] {q : K × V} {m : List (K × V)}
    {k : K} (h : q.1 = k) : aget (q :: m) k = some q.2 := by
  have hd : (decide (q.1 = k)) = true := by simpa using h
  simp only [aget, List.find?_cons, hd]
  rfl

theorem mapIf_id_of_not_mem {K V : Type} [DecidableEq K] (m : List (K × V))
    (k : K) (w : V) (h : ¬ k ∈ m.map (fun p => p.1)) :
    m.map (fun p => if p.1 = k then (k, w) else p) = m := by
  induction m with
  | nil => rfl
  | cons q m ih =>
    rw [List.map_cons] at h
    simp only [List.mem_cons] at h
    push_neg at h
    rw [List.map_cons, if_neg (fun he => h.1 he.symm), ih h.2]

theorem aset_keys {K V : Type} [DecidableEq K] (m : List (K × V)) (k : K) (v : V)
    (h : (m.find? (fun p => p.1 = k)).isSome = true) :
    (aset m k v).map (fun p => p.1) = m.map (fun p => p.1) := by
  simp only [aset, if_pos h, List.map_map]
  apply List.map_congr_left
  intro p _
  dsimp only [Function.comp]
  split
  · next hpk => simpa using hpk.symm
  · rfl

theorem aset_snd_map {K V γ : Type} [DecidableEq K] (f : V → γ) :
    ∀ (m : List (K × V)) (k : K) (v w : V),
      (m.map (fun p => p.1)).Nodup → aget m k = some v → f w = f v →
      (aset m k w).map (fun p => f p.2) = m.map (fun p => f p.2) := by
  intro m
  induction m with
  | nil => intro k v w _ hget _; exact absurd hget (by simp [aget])
  | cons q m ih =>
    intro k v w hnd hget hfw
    rw [List.map_cons, List.nodup_cons] at hnd
    by_cases hk : q.1 = k
    · have hv : v = q.2 := by
        rw [aget_cons_eq hk] at hget
        injection hget with h2
        exact h2.symm
      have hfind : ((q :: m).find? (fun p => p.1 = k)).isSome = true := by
        have hd : (decide (q.1 = k)) = true := by simpa using hk
        rw [List.find?_cons]
        rw [hd]
        rfl
      simp only [aset, if_pos hfind, List.map_cons, if_pos hk]
      rw [mapIf_id_of_not_mem m k w (hk ▸ hnd.1)]
      rw [hfw, hv]
    · have hget2 : aget m k = some v := by rwa [aget_cons_ne hk] at hget
      have hfindm : (m.find? (fun p => p.1 = k)).isSome = true :=
        aget_isSome_find hget2
      have hfind : ((q :: m).find? (fun p => p.1 = k)).isSome = true := by
        have hd : (decide (q.1 = k)) = false := by simpa using hk
        rw [List.find?_cons]
        rw [hd]
        exact hfindm
      have ihm := ih k v w hnd.2 hget2 hfw
      simp only [aset, if_pos hfindm] at ihm
      simp only [aset, if_pos hfind, List.map_cons, if_neg hk]
      rw [ihm]

theorem aset_not_found {K V : Type} [DecidableEq K] (m : List (K × V)) (k : K)
    (v : V) (h : m.find? (fun p => p.1 = k) = none) :
    aset m k v = m ++ [(k, v)] := by
  simp only [aset, h]
  rfl

theorem find?_none_of_not_mem_keys {K V : Type} [DecidableEq K]
    (m : List (K × V)) (k : K) (h : ¬ k ∈ m.map (fun p => p.1)) :
    m.find? (fun p => p.1 = k) = none := by
  rw [List.find?_eq_none]
  intro p hp
  simp only [decide_eq_true_eq]
  intro hpk
  exact h (List.mem_map.mpr ⟨p, hp, hpk⟩)

theorem updateSetObj_nodeMap {U : Type} [DecidableEq U]
    (store : List (Nat × List T)) (nodeMap : List (Nat × Weighted.WNode T))
    (sid : Nat) (newSetElems : List T) (newIdx : Nat) (depth : Int)
    (r : List (Nat × List T) × List (Nat × Weighted.WNode T) × Int)
    (hnd : (nodeMap.map (fun p => p.1)).Nodup)
    (h : Weighted.updateSetObj store nodeMap sid newSetElems newIdx depth = some r) :
    r.2.1.map (fun p => p.1) = nodeMap.map (fun p => p.1) ∧
    r.2.1.map (fun p => p.2.setElems) = nodeMap.map (fun p => p.2.setElems) := by
  simp only [Weighted.updateSetObj, bind, Option.bind, pure] at h
  rcases hget : aget nodeMap sid with _ | node
  · rw [hget] at h; exact absurd h (by simp)
  · rw [hget] at h
    injection h with h2
    subst h2
    constructor
    · exact aset_keys _ _ _ (aget_isSome_find hget)
    · exact aset_snd_map _ nodeMap sid node _ hnd hget rfl

theorem foldlM_nodeMap_preserved {α : Type}
    (F : (List (Nat × List T) × List (Nat × Weighted.WNode T) × Int) → α →
      Option (List (Nat × List T) × List (Nat × Weighted.WNode T) × Int))
    (hF : ∀ acc x r, F acc x = some r → (acc.2.1.map (fun p => p.1)).Nodup →
      r.2.1.map (fun p => p.1) = acc.2.1.map (fun p => p.1) ∧
      r.2.1.map (fun p => p.2.setElems) = acc.2.1.map (fun p => p.2.setElems)) :
    ∀ (xs : List α)
      (acc r : List (Nat × List T) × List (Nat × Weighted.WNode T) × Int),
      xs.foldlM F acc = some r → (acc.2.1.map (fun p => p.1)).Nodup →
      r.2.1.map (fun p => p.1) = acc.2.1.map (fun p => p.1) ∧
      r.2.1.map (fun p => p.2.setElems) = acc.2.1.map (fun p => p.2.setElems) := by
  intro xs
  induction xs with
  | nil =>
    intro acc r h _
    simp only [List.foldlM_nil] at h
    injection h with h2
    subst h2
    exact ⟨rfl, rfl⟩
  | cons x xs ih =>
    intro acc r h hnd
    simp only [List.foldlM_cons] at h
    rcases heq : F acc x with _ | a2
    · rw [heq] at h; exact absurd h (by simp)
    · rw [heq] at h
      obtain ⟨hk1, hs1⟩ := hF acc x a2 heq hnd
      obtain ⟨hk2, hs2⟩ := ih a2 r h (by rwa [hk1])
      exact ⟨by rw [hk2, hk1], by rw [hs2, hs1]⟩

theorem wStep_nodeMap {U : Type} [DecidableEq U] (cfg : Weighted.WConfig T U)
    (st st' : Weighted.WState T U) (h : Weighted.wStep cfg st = some st')
    (hnd : (st.setNodeMap.map (fun p => p.1)).Nodup)
    (hlt : ∀ k ∈ st.setNodeMap.map (fun p => p.1), k < st.nextId) :
    (∃ w, st'.setNodeMap.map (fun p => p.2.setElems) =
      st.setNodeMap.map (fun p => p.2.setElems) ++ [w]) ∧
    (st'.setNodeMap.map (fun p => p.1)).Nodup ∧
    (∀ k ∈ st'.setNodeMap.map (fun p => p.1), k < st'.nextId) := by
  simp only [Weighted.wStep, bind, Option.bind, pure] at h
  rcases h1 : Weighted.getHighestWeightIntersection cfg st.maps.wmap st.maps.imapSet
    with _ | khw
  · rw [h1] at h; exact absurd h (by simp)
  rw [h1] at h
  dsimp only at h
  obtain ⟨K, hw⟩ := khw
  rcases h2 : aget st.maps.imapSet K with _ | ims
  · rw [h2] at h; exact absurd h (by simp)
  rw [h2] at h
  dsimp only at h
  rcases h3 : Weighted.getOtherAffectedIntersections cfg (ims.map (fun q => q.1))
      st.maps.s2i K st.maps.imapSet with _ | oaioas
  · rw [h3] at h; exact absurd h (by simp)
  rw [h3] at h
  dsimp only at h
  obtain ⟨OAI, OAS⟩ := oaioas
  rcases h4 : Weighted.removeUpdatedFromMaps cfg K (ims.map (fun q => q.1)) OAI OAS
      st.maps hw with _ | pairsmp
  · rw [h4] at h; exact absurd h (by simp)
  rw [h4] at h
  dsimp only at h
  obtain ⟨pairs, mp1⟩ := pairsmp
  rcases h5 : (ims.map (fun q => q.1)).foldlM
      (fun (acc : List (Nat × List T) × List (Nat × Weighted.WNode T) × Int) sid =>
        Weighted.updateSetObj acc.1 acc.2.1 sid (jsNewSet (cfg.split K))
          st.setNodeMap.length acc.2.2)
      (st.store ++ [(st.nextId, jsNewSet (cfg.split K))], st.setNodeMap, (1 : Int))
    with _ | r1
  · rw [h5] at h; exact absurd h (by simp)
  rw [h5] at h
  dsimp only at h
  rcases h6 : OAS.foldlM
      (fun (acc : List (Nat × List T) × List (Nat × Weighted.WNode T) × Int) sid =>
        if (cfg.split K).all (fun e => e ∈ Weighted.storeGet acc.1 sid) then
          Weighted.updateSetObj acc.1 acc.2.1 sid (jsNewSet (cfg.split K))
            st.setNodeMap.length acc.2.2
        else some acc) r1 with _ | r2
  · rw [h6] at h; exact absurd h (by simp)
  rw [h6] at h
  dsimp only at h
  rcases h7 : Weighted.addUpdatedToMaps cfg r2.1 mp1 st.nextId st.clonedSets pairs
    with _ | mp2
  · rw [h7] at h; exact absurd h (by simp)
  rw [h7] at h
  dsimp only at h
  injection h with h8
  have hF1 := foldlM_nodeMap_preserved _
    (fun acc sid r hr hn => updateSetObj_nodeMap (U := U) acc.1 acc.2.1 sid
      (jsNewSet (cfg.split K)) st.setNodeMap.length acc.2.2 r hn hr)
    (ims.map (fun q => q.1)) _ r1 h5 hnd
  have hF2 := foldlM_nodeMap_preserved _
    (fun acc sid r hr hn => by
      by_cases hc : ((cfg.split K).all
          (fun e => e ∈ Weighted.storeGet acc.1 sid)) = true
      · rw [if_pos hc] at hr
        exact updateSetObj_nodeMap (U := U) acc.1 acc.2.1 sid
          (jsNewSet (cfg.split K)) st.setNodeMap.length acc.2.2 r hn hr
      · rw [if_neg hc] at hr
        injection hr with hr2
        subst hr2
        exact ⟨rfl, rfl⟩)
    OAS r1 r2 h6 (by rw [hF1.1]; exact hnd)
  have hkeys : r2.2.1.map (fun p => p.1) = st.setNodeMap.map (fun p => p.1) := by
    rw [hF2.1, hF1.1]
  have hsetElems : r2.2.1.map (fun p => p.2.setElems) =
      st.setNodeMap.map (fun p => p.2.setElems) := by
    rw [hF2.2, hF1.2]
  have hnotin : ¬ st.nextId ∈ r2.2.1.map (fun p => p.1) := by
    rw [hkeys]
    intro hmem
    exact absurd (hlt _ hmem) (by omega)
  have happ := aset_not_found r2.2.1 st.nextId
    ({ setElems := jsNewSet (cfg.split K), restId := st.nextId,
       depth := r2.2.2, imports := [] } : Weighted.WNode T)
    (find?_none_of_not_mem_keys _ _ hnotin)
  rw [← h8]
  refine ⟨⟨jsNewSet (cfg.split K), ?_⟩, ?_, ?_⟩
  · show (aset r2.2.1 st.nextId _).map (fun p => p.2.setElems) = _
    rw [happ, List.map_append, hsetElems]
    rfl
  · show ((aset r2.2.1 st.nextId _).map (fun p => p.1)).Nodup
    rw [happ, List.map_append, hkeys]
    simp only [List.map_cons, List.map_nil]
    rw [List.nodup_append]
    refine ⟨hnd, by simp, ?_⟩
    intro a ha hb
    simp only [List.mem_singleton] at hb
    subst hb
    exact absurd (hlt _ ha) (by omega)
  · show ∀ k ∈ (aset r2.2.1 st.nextId _).map (fun p => p.1), k < st.nextId + 1
    rw [happ, List.map_append, hkeys]
    intro k hk
    rw [List.mem_append] at hk
    rcases hk with hk | hk
    · have := hlt k hk
      omega
    · simp only [List.map_cons, List.map_nil, List.mem_singleton] at hk
      omega

theorem wLoop_roots {U : Type} [DecidableEq U] (cfg : Weighted.WConfig T U) :
    ∀ (fuel : Nat) (st : Weighted.WState T U) (out : List (SetNode T)),
      Weighted.wLoop cfg fuel st = some out →
      (st.setNodeMap.map (fun p => p.1)).Nodup →
      (∀ k ∈ st.setNodeMap.map (fun p => p.1), k < st.nextId) →
      ∃ t, out.map (fun n => n.set) =
        st.setNodeMap.map (fun p => p.2.setElems) ++ t := by
  intro fuel
  induction fuel with
  | zero =>
    intro st out h _ _
    simp only [Weighted.wLoop] at h
    split at h
    · injection h with h2
      subst h2
      exact ⟨[], by rw [List.map_map, List.append_nil]; rfl⟩
    · exact absurd h (by simp)
  | succ n ih =>
    intro st out h hnd hlt
    simp only [Weighted.wLoop] at h
    split at h
    · injection h with h2
      subst h2
      exact ⟨[], by rw [List.map_map, List.append_nil]; rfl⟩
    · simp only [bind, Option.bind] at h
      rcases hs : Weighted.wStep cfg st with _ | st2
      · rw [hs] at h; exact absurd h (by simp)
      · rw [hs] at h
        obtain ⟨⟨w, hw⟩, hnd2, hlt2⟩ := wStep_nodeMap cfg st st2 hs hnd hlt
        obtain ⟨t, ht⟩ := ih st2 out h hnd2 hlt2
        exact ⟨w :: t, by rw [ht, hw, List.append_assoc]; rfl⟩

theorem weighted_splitSets_roots {U : Type} [DecidableEq U]
    (cfg : Weighted.WConfig T U) (sets : List (List T)) (fuel : Nat)
    (out : List (SetNode T)) (h : Weighted.splitSets cfg sets fuel = some out) :
    (out.take sets.length).map (fun n => n.set) = sets := by
  simp only [Weighted.splitSets, Weighted.createSetObjMap] at h
  have hkeys : (sets.enum.map (fun (p : Nat × List T) =>
      ((p.1, ({ setElems := p.2, restId := p.1, depth := 0,
                imports := [] } : Weighted.WNode T))))).map
        (fun p => p.1) = List.range sets.length := by
    rw [List.map_map]
    exact List.enum_map_fst sets
  have hvals : (sets.enum.map (fun (p : Nat × List T) =>
      ((p.1, ({ setElems := p.2, restId := p.1, depth := 0,
                imports := [] } : Weighted.WNode T))))).map
        (fun p => p.2.setElems) = sets := by
    rw [List.map_map]
    exact List.enum_map_snd sets
  obtain ⟨t, hm⟩ := wLoop_roots cfg fuel _ out h
    (by rw [hkeys]; exact List.nodup_range _)
    (by intro k hk; rw [hkeys, List.mem_range] at hk; exact hk)
  rw [List.map_take, hm, hvals, List.take_left]

theorem weighted_splitSets_length {U : Type} [DecidableEq U]
    (cfg : Weighted.WConfig T U) (sets : List (List T)) (fuel : Nat)
    (out : List (SetNode T)) (h : Weighted.splitSets cfg sets fuel = some out) :
    sets.length ≤ out.length := by
  have hr := weighted_splitSets_roots cfg sets fuel out h
  have hl := congrArg List.length hr
  simp only [List.length_map, List.length_take] at hl
  omega

theorem weighted_splitArrays_roots {U : Type} [DecidableEq U]
    (cfg : Weighted.WConfig T U) (arrays : List (List T)) (fuel : Nat)
    (out : List (ArrayNode T))
    (h : Weighted.splitArrays cfg arrays fuel = some out) :
    (out.take arrays.length).map (fun n => n.array) = arrays := by
  simp only [Weighted.splitArrays, bind, Option.bind] at h
  split at h
  · exact absurd h (by simp)
  · next mid heq =>
    injection h with h2
    subst h2
    have hlen : arrays.length ≤ mid.length := by
      have hml := weighted_splitSets_length cfg
        (arrays.map (fun a => jsNewSet a)) fuel mid heq
      simpa using hml
    rw [List.map_take, List.map_map]
    exact take_enum_map mid _ arrays [] hlen
      (fun i hi h2 => by
        dsimp only [Function.comp]
        rw [if_pos hi])

/-- The C4 counterexample arena: one node whose reachable elements strictly
exceed its own collection. -/
def metricsBadNodes : List (ArrayNode Nat) :=
  [{ array := [1], rest := [1, 2], imports := [], depth := 0 }]

/-- C4: `getNodeMetric` does not raise exactly when reconstruction fails.
The check is one-directional (`nodeElements.some((e) => !allElements.includes(e))`):
on a node with collection `[1]` whose reachable elements are `[1,2]` the
reconstruction does not reproduce the collection, yet metrics are returned
without an error. -/
theorem metrics_check_misses_superset :
    (getNodeMetric metricsBadNodes 1 0).isSome = true ∧
    (getNodeMetricRecursive metricsBadNodes 1 0 0 ⟨0, 0, 0, 0, 0⟩).2 = [1, 2] ∧
    ¬ (([1, 2] : List Nat) ⊆ [1] ∧ ([1] : List Nat) ⊆ [1, 2]) := by decide

/-- C8: no splitter mutates a caller-supplied collection — the embedding is
pure, so inputs are untouched by construction, and what remains checkable is
that every root node carries its original input collection: for each of the
six entry points (shallow set/array splitter, greedy
`BiggestIntersectionsSplitter.splitArrays`/`splitSets` for any intersection
and rest-initialisation functions, and the weighted
`WeightedIntersectionsSplitter.splitSets`/`splitArrays` for any
configuration), the first `inputs.length` nodes of any returned list hold,
in input order, exactly the original collections — element-for-element and
in original order for arrays, as the identical insertion-ordered set for
sets — while only the nodes after them are freshly generated. -/
theorem roots_keep_original_collections {U : Type} [DecidableEq U]
    (sets arrays : List (List T)) (fuel : Nat)
    (inter : List T → List T → List T) (initR : List T → List T)
    (cfg : Weighted.WConfig T U) :
    (((splitIntersectionsSetsShallow sets).take sets.length).map
      (fun n => n.set) = sets) ∧
    (((splitIntersectionsArrayShallow arrays).take arrays.length).map
      (fun n => n.array) = arrays) ∧
    (∀ out, splitArraysWith inter initR arrays fuel = some out →
      (out.take arrays.length).map (fun n => n.array) = arrays) ∧
    (∀ out, splitSetsWith inter initR sets fuel = some out →
      (out.take sets.length).map (fun n => n.set) = sets) ∧
    (∀ out, Weighted.splitSets cfg sets fuel = some out →
      (out.take sets.length).map (fun n => n.set) = sets) ∧
    (∀ out, Weighted.splitArrays cfg arrays fuel = some out →
      (out.take arrays.length).map (fun n => n.array) = arrays) :=
  ⟨shallow_sets_roots sets, shallow_arrays_roots arrays,
   fun out h => splitArraysWith_roots inter initR arrays fuel out h,
   fun out h => splitSetsWith_roots inter initR sets fuel out h,
   fun out h => weighted_splitSets_roots cfg sets fuel out h,
   fun out h => weighted_splitArrays_roots cfg arrays fuel out h⟩

/-- The output of the weighted splitter on the witness input `{1,2}, {2,3}`:
two roots keeping their original sets plus one generated `{2}` node. -/
def c8Out : List (SetNode Nat) :=
  [{ set := [1, 2], rest := [1], imports := [2], depth := 0 },
   { set := [2, 3], rest := [3], imports := [2], depth := 0 },
   { set := [2], rest := [2], imports := [], depth := 1 }]

theorem roots_keep_original_collections_witness :
    Weighted.splitSets exampleCfg ([[1, 2], [2, 3]] : List (List Nat)) 10 =
      some c8Out ∧
    (c8Out.take 2).map (fun n => n.set) = [[1, 2], [2, 3]] ∧
    ((splitIntersectionsSetsShallow
        ([[1, 2], [2, 3]] : List (List Nat))).take 2).map (fun n => n.set) =
      [[1, 2], [2, 3]] :=
  ⟨by decide,
   (roots_keep_original_collections (U := List Nat) [[1, 2], [2, 3]]
     [[1, 2], [2, 3]] 10 getIntersection (fun a => a)
     exampleCfg).2.2.2.2.1 c8Out (by decide),
   (roots_keep_original_collections (U := List Nat) [[1, 2], [2, 3]]
     [[1, 2], [2, 3]] 10 getIntersection (fun a => a) exampleCfg).1⟩

theorem mem_insSorted (cmp : T → T → Int) (x y : T) :
    ∀ l : List T, x ∈ insSorted cmp y l ↔ x = y ∨ x ∈ l := by
  intro l
  induction l with
  | nil => simp [insSorted]
  | cons z zs ih =>
    simp only [insSorted]
    split
    · simp [List.mem_cons]
    · simp only [List.mem_cons, ih]
      tauto

theorem mem_foldl_insSorted (cmp : T → T → Int) (x : T) :
    ∀ (l : List T) (acc : List T),
      x ∈ l.foldl (fun acc2 y => insSorted cmp y acc2) acc ↔ x ∈ acc ∨ x ∈ l := by
  intro l
  induction l with
  | nil => simp
  | cons y ys ih =>
    intro acc
    simp only [List.foldl_cons, ih, mem_insSorted, List.mem_cons]
    tauto

theorem mem_jsSortWith (cmp : T → T → Int) (x : T) (l : List T) :
    x ∈ jsSortWith cmp l ↔ x ∈ l := by
  simp [jsSortWith, mem_foldl_insSorted]

theorem twoPtrC_of_disjoint (f : T → T → Int) (hf : ∀ a b, f a b = 0 → a = b) :
    ∀ (fuel : Nat) (a b : List T), (∀ x, x ∈ a → ¬ x ∈ b) →
      twoPtrC f fuel a b = [] := by
  intro fuel
  induction fuel with
  | zero => intro a b _; rfl
  | succ n ih =>
    intro a b h
    rcases a with _ | ⟨x, xs⟩
    · rfl
    · rcases b with _ | ⟨y, ys⟩
      · rfl
      · simp only [twoPtrC]
        by_cases h1 : f x y < 0
        · rw [if_pos h1]
          exact ih xs (y :: ys) (fun z hz => h z (List.mem_cons_of_mem x hz))
        · rw [if_neg h1]
          by_cases h2 : 0 < f x y
          · rw [if_pos h2]
            exact ih (x :: xs) ys (fun z hz hz2 =>
              h z hz (List.mem_cons_of_mem y hz2))
          · have h0 : f x y = 0 := by omega
            have hxy := hf x y h0
            exact absurd (hxy ▸ List.mem_cons_self y ys)
              (h x (List.mem_cons_self x xs))

theorem getIntersectionSorted_of_disjoint (f : T → T → Int)
    (hf : ∀ a b, f a b = 0 → a = b) (a b : List T)
    (h : ∀ x, x ∈ a → ¬ x ∈ b) : getIntersectionSorted f a b = [] :=
  twoPtrC_of_disjoint f hf (a.length + b.length) a b h

theorem gliInner_of_empty (inter : List T → List T → List T) (set : List T) :
    ∀ (alls : List (List T)) (lo : Nat) (li : List T),
      (∀ all ∈ alls, inter set all = []) →
      gliInner inter set alls lo li = (lo, li) := by
  intro alls
  induction alls with
  | nil => intro lo li _; rfl
  | cons all rest ih =>
    intro lo li h
    simp only [gliInner]
    rw [h all (List.mem_cons_self all rest)]
    rw [if_neg (by simp)]
    exact ih lo li (fun a ha => h a (List.mem_cons_of_mem all ha))

theorem gliLoop_of_pairwise (inter : List T → List T → List T)
    (allArrays : List (List T))
    (hPW : allArrays.Pairwise (fun a b => inter a b = [])) :
    ∀ (suf pre rem : List (List T)) (lo : Nat) (li : List T),
      allArrays = pre ++ suf ++ rem →
      gliLoop inter allArrays suf pre.length lo li = li := by
  intro suf
  induction suf with
  | nil => intro pre rem lo li _; rfl
  | cons set rest ih =>
    intro pre rem lo li heq
    simp only [gliLoop]
    have hdrop : allArrays.drop (pre.length + 1) = rest ++ rem := by
      rw [heq]
      rw [show pre ++ (set :: rest) ++ rem = (pre ++ [set]) ++ (rest ++ rem) by
        simp]
      exact List.drop_left' (by simp)
    have hall : ∀ all ∈ rest ++ rem, inter set all = [] := by
      rw [heq] at hPW
      have hsplit := List.pairwise_append.mp hPW
      have hsplit2 := List.pairwise_append.mp hsplit.1
      have hcons := List.pairwise_cons.mp hsplit2.2.1
      intro all hall
      rw [List.mem_append] at hall
      rcases hall with hall | hall
      · exact hcons.1 all hall
      · exact hsplit.2.2 set (by simp) all hall
    rw [hdrop, gliInner_of_empty inter set (rest ++ rem) lo li hall]
    have hpre1 : pre.length + 1 = (pre ++ [set]).length := by simp
    rw [hpre1]
    exact ih (pre ++ [set]) rem lo li (by rw [heq]; simp)

theorem getLongestIntersection_of_pairwise (inter : List T → List T → List T)
    (base next : List (List T))
    (hPW : (next ++ base).Pairwise (fun a b => inter a b = [])) (lo : Nat) :
    getLongestIntersection inter base next lo = [] := by
  simp only [getLongestIntersection]
  exact gliLoop_of_pairwise inter _ hPW next [] base lo [] rfl

theorem elemStep_disjoint (inter : List T → List T → List T)
    (hinter : ∀ a b : List T, (∀ x, x ∈ a → ¬ x ∈ b) → inter a b = [])
    (nodes : List (ArrayNode T)) (e : T) (filtered base : List (List T))
    (hPW : (filtered ++ base).Pairwise (fun a b => ∀ x, x ∈ a → ¬ x ∈ b)) :
    elemStep inter nodes e filtered base 0 [] = Sum.inl (nodes, 0) ∨
    ∃ f2 b2, elemStep inter nodes e filtered base 0 [] = Sum.inr (f2, b2, 0, []) ∧
      (f2 ++ b2).Pairwise (fun a b => ∀ x, x ∈ a → ¬ x ∈ b) := by
  have hsplit := List.pairwise_append.mp hPW
  have hNI : ((filtered.filter (fun r => 0 < r.length ∧ e ∈ r)) ++ base).Pairwise
      (fun a b : List T => ∀ x, x ∈ a → ¬ x ∈ b) :=
    List.Pairwise.sublist (List.Sublist.append_right (List.filter_sublist _) base) hPW
  have hint : getLongestIntersection inter base
      (filtered.filter (fun r => 0 < r.length ∧ e ∈ r)) 0 = [] :=
    getLongestIntersection_of_pairwise inter base _
      (hNI.imp (fun h => hinter _ _ h)) 0
  simp only [elemStep, hint, List.length_nil]
  rw [if_neg (Nat.lt_irrefl 0)]
  by_cases hNF : filtered.filter (fun r => 0 < r.length ∧ ¬ e ∈ r) = []
  · rw [if_pos hNF]
    left
    dsimp only
    have hex : extractLI nodes ([] : List T) 0 = (nodes, 0) := by simp [extractLI]
    rw [hex]
  · rw [if_neg hNF]
    right
    refine ⟨_, _, rfl, ?_⟩
    rw [List.pairwise_append]
    refine ⟨List.Pairwise.sublist (List.filter_sublist _) hsplit.1, ?_, ?_⟩
    · rw [List.pairwise_append]
      refine ⟨hsplit.2.1, List.Pairwise.sublist (List.filter_sublist _) hsplit.1, ?_⟩
      intro a ha b hb x hxa hxb
      exact hsplit.2.2 b (List.mem_of_mem_filter hb) a ha x hxb hxa
    · intro a ha c hc
      have haf := List.mem_filter.mp ha
      simp only [decide_eq_true_eq] at haf
      rw [List.mem_append] at hc
      rcases hc with hc | hc
      · exact hsplit.2.2 a haf.1 c hc
      · have hcf := List.mem_filter.mp hc
        simp only [decide_eq_true_eq] at hcf
        have hane : a ≠ c := by
          intro heq2
          exact haf.2.2 (heq2 ▸ hcf.2.2)
        have hsym : Symmetric (fun a b : List T => ∀ x, x ∈ a → ¬ x ∈ b) := by
          intro a b h x hx hx2
          exact h x hx2 hx
        exact List.Pairwise.forall hsym hsplit.1 haf.1 hcf.1 hane

theorem elemsLoop_disjoint (inter : List T → List T → List T)
    (hinter : ∀ a b : List T, (∀ x, x ∈ a → ¬ x ∈ b) → inter a b = [])
    (nodes : List (ArrayNode T)) :
    ∀ (es : List T) (filtered base : List (List T)),
      (filtered ++ base).Pairwise (fun a b => ∀ x, x ∈ a → ¬ x ∈ b) →
      elemsLoop inter nodes es filtered base 0 [] = Sum.inl (nodes, 0) ∨
      ∃ f2 b2, elemsLoop inter nodes es filtered base 0 [] = Sum.inr (f2, b2, 0, []) ∧
        (f2 ++ b2).Pairwise (fun a b => ∀ x, x ∈ a → ¬ x ∈ b) := by
  intro es
  induction es with
  | nil =>
    intro filtered base hPW
    exact Or.inr ⟨filtered, base, rfl, hPW⟩
  | cons e es ih =>
    intro filtered base hPW
    rw [elemsLoop]
    rcases elemStep_disjoint inter hinter nodes e filtered base hPW with h | ⟨f2, b2, h, hPW2⟩
    · rw [h]
      exact Or.inl rfl
    · rw [h]
      exact ih f2 b2 hPW2

theorem bucketsLoop_disjoint (inter : List T → List T → List T)
    (hinter : ∀ a b : List T, (∀ x, x ∈ a → ¬ x ∈ b) → inter a b = [])
    (nodes : List (ArrayNode T)) (ecm : List (Nat × List T)) :
    ∀ (cs : List Nat) (filtered base : List (List T)),
      (filtered ++ base).Pairwise (fun a b => ∀ x, x ∈ a → ¬ x ∈ b) →
      bucketsLoop inter nodes ecm cs filtered base 0 [] = Sum.inl (nodes, 0) ∨
      bucketsLoop inter nodes ecm cs filtered base 0 [] = Sum.inr () := by
  intro cs
  induction cs with
  | nil => intro filtered base _; exact Or.inr rfl
  | cons c cs ih =>
    intro filtered base hPW
    rw [bucketsLoop]
    rcases elemsLoop_disjoint inter hinter nodes ((aget ecm c).getD []) filtered base hPW
      with h | ⟨f2, b2, h, hPW2⟩
    · rw [h]
      exact Or.inl rfl
    · rw [h]
      exact ih f2 b2 hPW2

theorem splitArrayNodes_disjoint (inter : List T → List T → List T)
    (hinter : ∀ a b : List T, (∀ x, x ∈ a → ¬ x ∈ b) → inter a b = [])
    (nodes : List (ArrayNode T))
    (hPW : (nodes.map (fun n => n.rest)).Pairwise
      (fun a b => ∀ x, x ∈ a → ¬ x ∈ b)) :
    splitArrayNodes inter nodes = (nodes, 0) := by
  simp only [splitArrayNodes]
  split
  · rfl
  · have hPW0 : ((nodes.map (fun n => n.rest.filter (fun e =>
        ¬ e ∈ ((aget (elementCountMapOf (elementCountOf nodes)) 1).getD [])))) ++
        ([] : List (List T))).Pairwise
        (fun a b => ∀ x, x ∈ a → ¬ x ∈ b) := by
      rw [List.append_nil]
      rw [List.pairwise_map] at hPW ⊢
      refine hPW.imp ?_
      intro n m h x hx hx2
      exact h x (List.mem_of_mem_filter hx) (List.mem_of_mem_filter hx2)
    rcases bucketsLoop_disjoint inter hinter nodes
        (elementCountMapOf (elementCountOf nodes))
        (jsSortWith (fun (a b : Nat) => (b : Int) - (a : Int))
          ((elementCountMapOf (elementCountOf nodes)).map (fun p => p.1))).dropLast
        (nodes.map (fun n => n.rest.filter (fun e =>
          ¬ e ∈ ((aget (elementCountMapOf (elementCountOf nodes)) 1).getD []))))
        [] hPW0 with h | h
    · rw [h]
    · rw [h]

theorem addMaxDepthToNodes_id (nodes : List (ArrayNode T))
    (h : ∀ n ∈ nodes, n.depth = 0) :
    addMaxDepthToNodes nodes = some nodes := by
  simp only [addMaxDepthToNodes]
  have hmemnodes : ∀ p ∈ nodes.enum, p.2 ∈ nodes := by
    intro p hp
    rcases p with ⟨i, a⟩
    have hm := List.mem_enum hp
    exact hm.2 ▸ List.getElem_mem hm.1
  have hroots : nodes.enum.filter (fun p => p.2.depth = 0) = nodes.enum := by
    apply List.filter_eq_self.mpr
    intro p hp
    simpa using h p.2 (hmemnodes p hp)
  have htodo : nodes.enum.filter (fun p => ¬ p.2.depth = 0) = [] := by
    apply List.filter_eq_nil.mpr
    intro p hp
    simpa using h p.2 (hmemnodes p hp)
  rw [hroots, htodo]
  simp only [List.foldlM_nil, bind, Option.bind, pure]
  have hnd : (nodes.enum.map (fun p => p.1)).Nodup := by
    rw [List.enum_map_fst]
    exact List.nodup_range _
  refine congrArg some ?_
  have hstep : nodes.enum.map (fun p =>
      match nodes.enum.find? (fun q => q.1 = p.1) with
      | some q => q.2 | none => p.2) = nodes.enum.map (fun p => p.2) := by
    apply List.map_congr_left
    intro p hp
    rcases hfind : nodes.enum.find? (fun q => q.1 = p.1) with _ | q
    · rw [hfind]
    · rw [hfind]
      have hq : q.1 = p.1 := by simpa using List.find?_some hfind
      have hqm := List.mem_of_find?_eq_some hfind
      have heq : q = p := List.inj_on_of_nodup_map hnd hqm hp hq
      rw [heq]
  exact hstep.trans (List.enum_map_snd nodes)

theorem greedyLoop_of_fixpoint (inter : List T → List T → List T)
    (nodes : List (ArrayNode T))
    (h : splitArrayNodes inter nodes = (nodes, 0)) (fuel : Nat) :
    greedyLoop inter (fuel + 1) nodes = some nodes := by
  simp only [greedyLoop, h]
  rw [if_neg (Nat.lt_irrefl 0)]

theorem splitArraysSorter_of_disjoint (f : T → T → Int)
    (hf : ∀ a b, f a b = 0 → a = b) (arrays : List (List T))
    (hdisj : arrays.Pairwise (fun a b => ∀ x, x ∈ a → ¬ x ∈ b)) (k : Nat) :
    splitArraysSorter f arrays (k + 1) =
      some (arrays.map (fun a =>
        { array := a, rest := jsSortWith f a, imports := [], depth := 0 })) := by
  have hinter : ∀ a b : List T, (∀ x, x ∈ a → ¬ x ∈ b) →
      getIntersectionSorted f a b = [] :=
    fun a b hd => getIntersectionSorted_of_disjoint f hf a b hd
  have hPW0 : (((arrays.map (fun a =>
      ({ array := a, rest := jsSortWith f a, imports := [],
         depth := 0 } : ArrayNode T)))).map (fun n => n.rest)).Pairwise
      (fun a b => ∀ x, x ∈ a → ¬ x ∈ b) := by
    rw [List.map_map]
    rw [show ((fun n : ArrayNode T => n.rest) ∘ (fun a : List T =>
      ({ array := a, rest := jsSortWith f a, imports := [],
         depth := 0 } : ArrayNode T))) = (fun a : List T => jsSortWith f a)
      from rfl]
    rw [List.pairwise_map]
    refine hdisj.imp ?_
    intro a b hab x hx hx2
    exact hab x ((mem_jsSortWith f x a).mp hx) ((mem_jsSortWith f x b).mp hx2)
  have hfix := splitArrayNodes_disjoint (getIntersectionSorted f) hinter _ hPW0
  have hloop := greedyLoop_of_fixpoint (getIntersectionSorted f) _ hfix k
  have hdepth0 : ∀ n ∈ arrays.map (fun a =>
      ({ array := a, rest := jsSortWith f a, imports := [],
         depth := 0 } : ArrayNode T)), n.depth = 0 := by
    intro n hn
    rcases List.mem_map.mp hn with ⟨a, _, ha⟩
    rw [← ha]
  have hamd := addMaxDepthToNodes_id _ hdepth0
  simp only [splitArraysSorter, splitArraysWith, bind, Option.bind]
  rw [hloop]
  exact hamd

/-- Companion of the `AssignedArraysOk` invariant for the `rest` field: the
assigned pool of `addMaxDepthToNodes` never changes a node's `rest`. -/
def AssignedRestsOk (nodes : List (ArrayNode T))
    (assigned : List (Nat × ArrayNode T)) : Prop :=
  ∀ q ∈ assigned, ∀ (h : q.1 < nodes.length), q.2.rest = nodes[q.1].rest

theorem assignedRestsOk_of_enum (nodes : List (ArrayNode T))
    (l : List (Nat × ArrayNode T)) (hl : ∀ q ∈ l, q ∈ nodes.enum) :
    AssignedRestsOk nodes l := by
  intro q hq h
  rcases q with ⟨i, a⟩
  have hm := List.mem_enum (hl _ hq)
  rw [hm.2]

theorem amd_assigned_rests (nodes : List (ArrayNode T)) :
    ∀ (todo assigned assigned' : List (Nat × ArrayNode T)),
      todo.foldlM amdStep assigned = some assigned' →
      AssignedRestsOk nodes assigned →
      AssignedRestsOk nodes todo →
      AssignedRestsOk nodes assigned' := by
  intro todo
  induction todo with
  | nil =>
    intro assigned assigned' h ha _
    simp only [List.foldlM_nil] at h
    injection h with h2
    subst h2
    exact ha
  | cons jn todo ih =>
    intro assigned assigned' h ha ht
    simp only [List.foldlM_cons] at h
    rcases heq : amdStep assigned jn with _ | a2
    · rw [heq] at h; exact absurd h (by simp)
    · rw [heq] at h
      refine ih a2 assigned' h ?_ (fun q hq => ht q (by simp [hq]))
      simp only [amdStep] at heq
      split at heq
      · exact absurd heq (by simp)
      · injection heq with h2
        subst h2
        intro q hq hlt
        rw [List.mem_append] at hq
        rcases hq with hq | hq
        · exact ha q hq hlt
        · simp only [List.mem_singleton] at hq
          subst hq
          exact ht jn (by simp) hlt

theorem addMaxDepthToNodes_map_rest (nodes out : List (ArrayNode T))
    (h : addMaxDepthToNodes nodes = some out) :
    out.map (fun n => n.rest) = nodes.map (fun n => n.rest) := by
  simp only [addMaxDepthToNodes, bind, Option.bind] at h
  split at h
  · exact absurd h (by simp)
  · next assigned heq =>
    injection h with h2
    have hroots : AssignedRestsOk nodes
        (nodes.enum.filter (fun p => p.2.depth = 0)) :=
      assignedRestsOk_of_enum _ _ (fun q hq => List.mem_of_mem_filter hq)
    have htodo : AssignedRestsOk nodes
        (nodes.enum.filter (fun p => ¬ p.2.depth = 0)) :=
      assignedRestsOk_of_enum _ _ (fun q hq => List.mem_of_mem_filter hq)
    have hassigned : AssignedRestsOk nodes assigned :=
      amd_assigned_rests nodes _ _ _ heq hroots htodo
    subst h2
    rw [List.map_map]
    have hptwise : ∀ q ∈ nodes.enum,
        (((fun n : ArrayNode T => n.rest) ∘ (fun p : Nat × ArrayNode T =>
          match assigned.find? (fun q2 : Nat × ArrayNode T => q2.1 = p.1) with
          | some q2 => q2.2
          | none => p.2)) q) = q.2.rest := by
      intro q hq
      rcases q with ⟨i, a⟩
      show (match assigned.find? (fun q2 : Nat × ArrayNode T => q2.1 = i) with
        | some q2 => q2.2
        | none => a).rest = a.rest
      rcases hfind : assigned.find? (fun q2 : Nat × ArrayNode T => q2.1 = i)
        with _ | q2
      · rfl
      · show q2.2.rest = a.rest
        have hkey : q2.1 = i := by simpa using List.find?_some hfind
        have hmem := List.mem_of_find?_eq_some hfind
        subst hkey
        have hm := List.mem_enum hq
        have harr := hassigned q2 hmem hm.1
        rw [harr]
        exact congrArg (fun n => n.rest) hm.2.symm
    rw [List.map_congr_left hptwise]
    rw [show (fun p : Nat × ArrayNode T => p.2.rest) =
      ((fun n : ArrayNode T => n.rest) ∘ Prod.snd) from rfl]
    rw [← List.map_map, List.enum_map_snd]

theorem forall2_rest_refl :
    ∀ l : List (ArrayNode T),
      List.Forall₂ (fun a b => b.rest.Sublist a.rest) l l
  | [] => List.Forall₂.nil
  | n :: l => List.Forall₂.cons (List.Sublist.refl n.rest) (forall2_rest_refl l)

theorem forall2_rest_map (g : ArrayNode T → ArrayNode T)
    (hg : ∀ n, (g n).rest.Sublist n.rest) :
    ∀ l : List (ArrayNode T),
      List.Forall₂ (fun a b => b.rest.Sublist a.rest) l (l.map g)
  | [] => List.Forall₂.nil
  | n :: l => List.Forall₂.cons (hg n) (forall2_rest_map g hg l)

theorem forall2_rest_trans {l1 l2 l3 : List (ArrayNode T)}
    (h12 : List.Forall₂ (fun a b => b.rest.Sublist a.rest) l1 l2)
    (h23 : List.Forall₂ (fun a b => b.rest.Sublist a.rest) l2 l3) :
    List.Forall₂ (fun a b => b.rest.Sublist a.rest) l1 l3 := by
  induction h12 generalizing l3 with
  | nil =>
    cases h23
    exact List.Forall₂.nil
  | cons hab h ih =>
    cases h23 with
    | cons hbc h2 => exact List.Forall₂.cons (hbc.trans hab) (ih h2)

theorem forall2_rest_take :
    ∀ (n : Nat) {l1 l2 : List (ArrayNode T)},
      List.Forall₂ (fun a b => b.rest.Sublist a.rest) l1 l2 →
      List.Forall₂ (fun a b => b.rest.Sublist a.rest) (l1.take n) (l2.take n) := by
  intro n
  induction n with
  | zero =>
    intro l1 l2 _
    simp only [List.take_zero]
    exact List.Forall₂.nil
  | succ m ih =>
    intro l1 l2 h
    cases h with
    | nil =>
      simp only [List.take_nil]
      exact List.Forall₂.nil
    | cons hab h2 =>
      simp only [List.take_succ_cons]
      exact List.Forall₂.cons hab (ih h2)

theorem forall2_rest_of_map_eq {l1 l2 l2' : List (ArrayNode T)}
    (hmap : l2.map (fun n => n.rest) = l2'.map (fun n => n.rest))
    (h : List.Forall₂ (fun a b => b.rest.Sublist a.rest) l1 l2) :
    List.Forall₂ (fun a b => b.rest.Sublist a.rest) l1 l2' := by
  induction h generalizing l2' with
  | nil =>
    cases l2' with
    | nil => exact List.Forall₂.nil
    | cons c l => exact absurd hmap (by simp)
  | cons hab h2 ih =>
    cases l2' with
    | nil => exact absurd hmap (by simp)
    | cons c l =>
      simp only [List.map_cons, List.cons.injEq] at hmap
      exact List.Forall₂.cons (by rw [hmap.1] at hab; exact hab) (ih hmap.2)

theorem extractLI_rest_sublist (nodes : List (ArrayNode T)) (li : List T)
    (lo : Nat) :
    List.Forall₂ (fun a b => b.rest.Sublist a.rest) nodes
      ((extractLI nodes li lo).1.take nodes.length) := by
  simp only [extractLI]
  split
  · rw [List.take_left' (by simp)]
    exact forall2_rest_map _
      (fun n => by
        split
        · exact List.filter_sublist n.rest
        · exact List.Sublist.refl n.rest) nodes
  · rw [List.take_length]
    exact forall2_rest_refl nodes

theorem splitArrayNodes_rest_sublist (inter : List T → List T → List T)
    (nodes : List (ArrayNode T)) :
    List.Forall₂ (fun a b => b.rest.Sublist a.rest) nodes
      (((splitArrayNodes inter nodes).1).take nodes.length) := by
  simp only [splitArrayNodes]
  split
  · rw [List.take_length]
    exact forall2_rest_refl nodes
  · rcases heq : bucketsLoop inter nodes
        (elementCountMapOf (elementCountOf nodes))
        (jsSortWith (fun (a b : Nat) => (b : Int) - (a : Int))
          ((elementCountMapOf (elementCountOf nodes)).map (fun p => p.1))).dropLast
        (nodes.map (fun n => n.rest.filter (fun e =>
          ¬ e ∈ ((aget (elementCountMapOf (elementCountOf nodes)) 1).getD []))))
        [] 0 [] with r | r
    · rw [heq]
      obtain ⟨li2, lo2, hp⟩ := bucketsLoop_inl inter nodes _ _ _ _ _ _ _ heq
      rw [hp]
      exact extractLI_rest_sublist nodes li2 lo2
    · rw [heq]
      rw [List.take_length]
      exact forall2_rest_refl nodes

theorem greedyLoop_rest_sublist (inter : List T → List T → List T) :
    ∀ (fuel : Nat) (nodes out : List (ArrayNode T)),
      greedyLoop inter fuel nodes = some out →
      List.Forall₂ (fun a b => b.rest.Sublist a.rest) nodes
        (out.take nodes.length) := by
  intro fuel
  induction fuel with
  | zero => intro nodes out h; exact absurd h (by simp [greedyLoop])
  | succ n ih =>
    intro nodes out h
    simp only [greedyLoop] at h
    split at h
    · have h1 := splitArrayNodes_rest_sublist inter nodes
      have h2 := ih _ _ h
      have hlen : nodes.length ≤ (splitArrayNodes inter nodes).1.length := by
        have hl := List.Forall₂.length_eq h1
        simp only [List.length_take] at hl
        omega
      have h2t := forall2_rest_take nodes.length h2
      rw [List.take_take, min_eq_left hlen] at h2t
      exact forall2_rest_trans h1 h2t
    · injection h with h2
      subst h2
      exact splitArrayNodes_rest_sublist inter nodes

theorem forall2_rest_unmap (initR : List T → List T) :
    ∀ (arrays : List (List T)) (l : List (ArrayNode T)),
      List.Forall₂ (fun a b => b.rest.Sublist a.rest)
        (arrays.map (fun a =>
          ({ array := a, rest := initR a, imports := [],
             depth := 0 } : ArrayNode T))) l →
      List.Forall₂ (fun (a : List T) (n : ArrayNode T) =>
        n.rest.Sublist (initR a)) arrays l := by
  intro arrays
  induction arrays with
  | nil =>
    intro l h
    cases h
    exact List.Forall₂.nil
  | cons a arrays ih =>
    intro l h
    rcases l with _ | ⟨n, l2⟩
    · cases h
    · rw [List.map_cons] at h
      cases h with
      | cons hab h2 => exact List.Forall₂.cons hab (ih l2 h2)

theorem splitArraysWith_rest_sublist (inter : List T → List T → List T)
    (initR : List T → List T) (arrays : List (List T)) (fuel : Nat)
    (out : List (ArrayNode T))
    (h : splitArraysWith inter initR arrays fuel = some out) :
    List.Forall₂ (fun (a : List T) (n : ArrayNode T) => n.rest.Sublist (initR a))
      arrays (out.take arrays.length) := by
  simp only [splitArraysWith, bind, Option.bind] at h
  split at h
  · exact absurd h (by simp)
  · next mid heq =>
    have hrest := addMaxDepthToNodes_map_rest mid out h
    have h1 := greedyLoop_rest_sublist inter fuel _ mid heq
    have hmapeq : (mid.take (arrays.map (fun a =>
        ({ array := a, rest := initR a, imports := [],
           depth := 0 } : ArrayNode T))).length).map (fun n => n.rest) =
        (out.take (arrays.map (fun a =>
        ({ array := a, rest := initR a, imports := [],
           depth := 0 } : ArrayNode T))).length).map (fun n => n.rest) := by
      rw [List.map_take, List.map_take, hrest]
    have h2 := forall2_rest_of_map_eq hmapeq h1
    have h3 : List.Forall₂ (fun a b => b.rest.Sublist a.rest)
        (arrays.map (fun a =>
          ({ array := a, rest := initR a, imports := [],
             depth := 0 } : ArrayNode T)))
        (out.take arrays.length) := by
      rw [show (arrays.map (fun a =>
        ({ array := a, rest := initR a, imports := [],
           depth := 0 } : ArrayNode T))).length = arrays.length by simp] at h2
      exact h2
    exact forall2_rest_unmap initR arrays (out.take arrays.length) h3

theorem defaultCmp_eq_zero [LinearOrder T] (a b : T) (h : defaultCmp a b = 0) :
    a = b := by
  simp only [defaultCmp] at h
  by_cases h1 : a < b
  · rw [if_pos h1] at h
    exact absurd h (by decide)
  · rw [if_neg h1] at h
    by_cases h2 : b < a
    · rw [if_pos h2] at h
      exact absurd h (by decide)
    · rw [if_neg h2] at h
      exact le_antisymm (not_lt.mp h2) (not_lt.mp h1)

/-- C10: with `sort = true` or a sorter function, every root node's `rest`
is kept in the comparator's sort order rather than the caller's element
order: for any input family, each root's rest is a sublist of the sorted
copy of its array (the extraction loop only ever filters rests, so the
sorted order persists); and on a family of pairwise-disjoint arrays nothing
is extracted, so each root's rest equals exactly the sorted copy of its
input array while its `array` field keeps the original order. `sort = true`
is the sorter run at the default relational comparator (`defaultCmp` over
the `LinearOrder`, the default JS string sort order). -/
theorem sorter_orders_root_rests [LinearOrder T] (f : T → T → Int)
    (hf : ∀ a b : T, f a b = 0 → a = b) (arrays : List (List T))
    (hdisj : arrays.Pairwise (fun a b => ∀ x, x ∈ a → ¬ x ∈ b))
    (fuel : Nat) (hfuel : 0 < fuel) :
    (∀ (g : T → T → Int) (arrs : List (List T)) (out : List (ArrayNode T)),
      splitArraysSorter g arrs fuel = some out →
      List.Forall₂ (fun (a : List T) (n : ArrayNode T) =>
        n.rest.Sublist (jsSortWith g a)) arrs (out.take arrs.length)) ∧
    splitArraysSorter f arrays fuel =
      some (arrays.map (fun a =>
        { array := a, rest := jsSortWith f a, imports := [], depth := 0 })) ∧
    splitArraysTrue arrays fuel =
      some (arrays.map (fun a =>
        { array := a, rest := jsSortWith defaultCmp a, imports := [],
          depth := 0 })) := by
  rcases fuel with _ | k
  · exact absurd hfuel (by omega)
  refine ⟨?_, ?_, ?_⟩
  · intro g arrs out h
    exact splitArraysWith_rest_sublist (getIntersectionSorted g) (jsSortWith g)
      arrs (k + 1) out h
  · exact splitArraysSorter_of_disjoint f hf arrays hdisj k
  · exact splitArraysSorter_of_disjoint defaultCmp
      (fun a b h => defaultCmp_eq_zero a b h) arrays hdisj k

theorem sorter_orders_root_rests_witness :
    splitArraysSorter natSortCmp ([[3, 1, 2], [5, 4]] : List (List Nat)) 1 =
      some (([[3, 1, 2], [5, 4]] : List (List Nat)).map (fun a =>
        { array := a, rest := jsSortWith natSortCmp a, imports := [],
          depth := 0 })) ∧
    splitArraysTrue ([[3, 1, 2], [5, 4]] : List (List Nat)) 1 =
      some (([[3, 1, 2], [5, 4]] : List (List Nat)).map (fun a =>
        { array := a, rest := jsSortWith defaultCmp a, imports := [],
          depth := 0 })) :=
  ⟨(sorter_orders_root_rests natSortCmp
      (fun a b h => by
        simp only [natSortCmp] at h
        by_cases h1 : a < b
        · rw [if_pos h1] at h
          exact absurd h (by decide)
        · rw [if_neg h1] at h
          by_cases h2 : b < a
          · rw [if_pos h2] at h
            exact absurd h (by decide)
          · omega)
      [[3, 1, 2], [5, 4]] (by decide) 1 (by decide)).2.1,
   (sorter_orders_root_rests natSortCmp
      (fun a b h => by
        simp only [natSortCmp] at h
        by_cases h1 : a < b
        · rw [if_pos h1] at h
          exact absurd h (by decide)
        · rw [if_neg h1] at h
          by_cases h2 : b < a
          · rw [if_pos h2] at h
            exact absurd h (by decide)
          · omega)
      [[3, 1, 2], [5, 4]] (by decide) 1 (by decide)).2.2⟩

/-- The import graph of a node list, abstracted to positions: entry `i`
holds the list of import target positions and the depth. -/
def nodeEdge (g : List (List Nat × Int)) (i j : Nat) : Prop :=
  ∃ h : i < g.length, j ∈ (g.get ⟨i, h⟩).1

/-- Every import edge points strictly forward and into the list. -/
def FwdEdges (g : List (List Nat × Int)) : Prop :=
  ∀ i (hi : i < g.length), ∀ j ∈ (g.get ⟨i, hi⟩).1, i < j ∧ j < g.length

/-- The three invariants of claim C5 on an import graph: the import relation
is acyclic, a node no other node imports has depth `0`, and along every
edge of the graph the child is at least one deeper than the parent. -/
def DagProps (g : List (List Nat × Int)) : Prop :=
  (∀ i, ¬ Relation.TransGen (nodeEdge g) i i) ∧
  (∀ j (hj : j < g.length),
    (∀ i (hi : i < g.length), ¬ j ∈ (g.get ⟨i, hi⟩).1) →
    (g.get ⟨j, hj⟩).2 = 0) ∧
  (∀ i (hi : i < g.length), ∀ j ∈ (g.get ⟨i, hi⟩).1,
    ∀ (hj : j < g.length), (g.get ⟨i, hi⟩).2 + 1 ≤ (g.get ⟨j, hj⟩).2)

def arrayGraph (l : List (ArrayNode T)) : List (List Nat × Int) :=
  l.map (fun n => (n.imports, n.depth))

def setGraph (l : List (SetNode T)) : List (List Nat × Int) :=
  l.map (fun n => (n.imports, n.depth))

theorem transGen_lt_of_fwd {g : List (List Nat × Int)} (hf : FwdEdges g) :
    ∀ i j, Relation.TransGen (nodeEdge g) i j → i < j := by
  intro i j h
  induction h with
  | single h1 =>
    rcases h1 with ⟨hi, hj⟩
    exact (hf _ hi _ hj).1
  | tail h1 h2 ih =>
    rcases h2 with ⟨hi, hj⟩
    exact lt_trans ih (hf _ hi _ hj).1

theorem acyclic_of_fwd {g : List (List Nat × Int)} (hf : FwdEdges g) :
    ∀ i, ¬ Relation.TransGen (nodeEdge g) i i :=
  fun i h => absurd (transGen_lt_of_fwd hf i i h) (lt_irrefl i)

/-- A two-layer graph — roots at depth 0 importing only generated nodes,
generated nodes at depth 1 importing nothing, every generated node imported
by some root — satisfies all three C5 invariants. -/
theorem dagProps_two_layer (g : List (List Nat × Int)) (N M : Nat)
    (hlen : g.length = N + M)
    (hroot : ∀ i (hi : i < g.length), i < N →
      (g.get ⟨i, hi⟩).2 = 0 ∧ ∀ j ∈ (g.get ⟨i, hi⟩).1, N ≤ j ∧ j < N + M)
    (hgen : ∀ i (hi : i < g.length), N ≤ i →
      (g.get ⟨i, hi⟩).1 = [] ∧ (g.get ⟨i, hi⟩).2 = 1)
    (himp : ∀ k, N ≤ k → k < N + M →
      ∃ i, ∃ hi : i < g.length, i < N ∧ k ∈ (g.get ⟨i, hi⟩).1) :
    DagProps g := by
  have hfwd : FwdEdges g := by
    intro i hi j hj
    by_cases hiN : i < N
    · obtain ⟨hNj, hjM⟩ := (hroot i hi hiN).2 j hj
      exact ⟨lt_of_lt_of_le hiN hNj, by omega⟩
    · rw [(hgen i hi (le_of_not_lt hiN)).1] at hj
      exact absurd hj (List.not_mem_nil j)
  refine ⟨acyclic_of_fwd hfwd, ?_, ?_⟩
  · intro j hj hunimp
    by_cases hjN : j < N
    · exact (hroot j hj hjN).1
    · obtain ⟨i, hi, hiN, hmem⟩ := himp j (le_of_not_lt hjN) (by omega)
      exact absurd hmem (hunimp i hi)
  · intro i hi j hj hjlen
    by_cases hiN : i < N
    · rw [(hroot i hi hiN).1]
      have hNj := ((hroot i hi hiN).2 j hj).1
      rw [(hgen j hjlen hNj).2]
      omega
    · rw [(hgen i hi (le_of_not_lt hiN)).1] at hj
      exact absurd hj (List.not_mem_nil j)

theorem shallow_arrays_dag (arrays : List (List T)) :
    DagProps (arrayGraph (splitIntersectionsArrayShallow arrays)) := by
  have hg : arrayGraph (splitIntersectionsArrayShallow arrays) =
      arrays.map (fun a =>
        ((a.filter (fun e => e ∈ (collectMultiArr arrays).2)).map
          (fun e => arrays.length +
            (jsNewSet (collectMultiArr arrays).2).indexOf e),
         (0 : Int))) ++
      (jsNewSet (collectMultiArr arrays).2).map
        (fun _ => (([] : List Nat), (1 : Int))) := by
    simp only [splitIntersectionsArrayShallow, arrayGraph, List.map_append,
      List.map_map]
    rfl
  rw [hg]
  apply dagProps_two_layer _ arrays.length
    (jsNewSet (collectMultiArr arrays).2).length
  · simp
  · intro i hi hiN
    rw [List.get_eq_getElem]
    rw [List.getElem_append_left (by simpa using hiN)]
    rw [List.getElem_map]
    refine ⟨rfl, ?_⟩
    intro j hj
    rcases List.mem_map.mp hj with ⟨e, hef, hje⟩
    have hemulti : e ∈ (collectMultiArr arrays).2 := by
      have := List.mem_filter.mp hef
      simpa using this.2
    have hekeys : e ∈ jsNewSet (collectMultiArr arrays).2 :=
      (mem_jsNewSet _ _).mpr hemulti
    have hidx := List.indexOf_lt_length.mpr hekeys
    omega
  · intro i hi hiN
    rw [List.get_eq_getElem]
    rw [List.getElem_append_right (by simpa using hiN)]
    rw [List.getElem_map]
    exact ⟨rfl, rfl⟩
  · intro k hkN hkM
    have hm : k - arrays.length <
        (jsNewSet (collectMultiArr arrays).2).length := by omega
    have hekeys : (jsNewSet (collectMultiArr arrays).2)[k - arrays.length] ∈
        jsNewSet (collectMultiArr arrays).2 := List.getElem_mem hm
    have hemulti := (mem_jsNewSet _ _).mp hekeys
    have hcount := (mem_collectMultiArr arrays _).mp hemulti
    have hflat : (jsNewSet (collectMultiArr arrays).2)[k - arrays.length] ∈
        arrays.flatten := by
      rw [← List.count_pos_iff]
      simp only [totalOccurrences] at hcount
      omega
    rcases List.mem_flatten.mp hflat with ⟨a, hamem, hea⟩
    rcases List.getElem_of_mem hamem with ⟨i, hi, hai⟩
    refine ⟨i, ?_, hi, ?_⟩
    · simp
      omega
    · rw [List.get_eq_getElem]
      rw [List.getElem_append_left (by simpa using hi)]
      rw [List.getElem_map]
      apply List.mem_map.mpr
      refine ⟨(jsNewSet (collectMultiArr arrays).2)[k - arrays.length], ?_, ?_⟩
      · rw [hai]
        exact List.mem_filter.mpr ⟨hea, by simpa using hemulti⟩
      · have hidxlt := List.indexOf_lt_length.mpr hekeys
        have hidxget := List.getElem_indexOf hidxlt
        have hidx := (List.Nodup.getElem_inj_iff
          (nodup_jsNewSet (collectMultiArr arrays).2)).mp hidxget
        omega

theorem shallow_sets_dag (sets : List (List T)) (hsets : ∀ s ∈ sets, s.Nodup) :
    DagProps (setGraph (splitIntersectionsSetsShallow sets)) := by
  have hg : setGraph (splitIntersectionsSetsShallow sets) =
      sets.map (fun s =>
        ((s.filter (fun e => e ∈ (collectMultiSets sets).2)).map
          (fun e => sets.length + (collectMultiSets sets).2.indexOf e),
         (0 : Int))) ++
      (collectMultiSets sets).2.map
        (fun _ => (([] : List Nat), (1 : Int))) := by
    simp only [splitIntersectionsSetsShallow, setGraph, List.map_append,
      List.map_map]
    rfl
  rw [hg]
  apply dagProps_two_layer _ sets.length (collectMultiSets sets).2.length
  · simp
  · intro i hi hiN
    rw [List.get_eq_getElem]
    rw [List.getElem_append_left (by simpa using hiN)]
    rw [List.getElem_map]
    refine ⟨rfl, ?_⟩
    intro j hj
    rcases List.mem_map.mp hj with ⟨e, hef, hje⟩
    have hemulti : e ∈ (collectMultiSets sets).2 := by
      have := List.mem_filter.mp hef
      simpa using this.2
    have hidx := List.indexOf_lt_length.mpr hemulti
    omega
  · intro i hi hiN
    rw [List.get_eq_getElem]
    rw [List.getElem_append_right (by simpa using hiN)]
    rw [List.getElem_map]
    exact ⟨rfl, rfl⟩
  · intro k hkN hkM
    have hm : k - sets.length < (collectMultiSets sets).2.length := by omega
    have hemulti : (collectMultiSets sets).2[k - sets.length] ∈
        (collectMultiSets sets).2 := List.getElem_mem hm
    have hcount := (mem_collectMultiSets sets _ hsets).mp hemulti
    have hset : ∃ s ∈ sets, (collectMultiSets sets).2[k - sets.length] ∈ s := by
      have hpos : 0 < setsContaining ((collectMultiSets sets).2[k - sets.length])
          sets := by omega
      simp only [setsContaining] at hpos
      rcases List.countP_pos.mp hpos with ⟨s, hs, hps⟩
      exact ⟨s, hs, by simpa using hps⟩
    rcases hset with ⟨s, hsmem, hes⟩
    rcases List.getElem_of_mem hsmem with ⟨i, hi, hsi⟩
    refine ⟨i, ?_, hi, ?_⟩
    · simp
      omega
    · rw [List.get_eq_getElem]
      rw [List.getElem_append_left (by simpa using hi)]
      rw [List.getElem_map]
      apply List.mem_map.mpr
      refine ⟨(collectMultiSets sets).2[k - sets.length], ?_, ?_⟩
      · rw [hsi]
        exact List.mem_filter.mpr ⟨hes, by simpa using hemulti⟩
      · have hidxlt := List.indexOf_lt_length.mpr hemulti
        have hidxget := List.getElem_indexOf hidxlt
        have hidx := (List.Nodup.getElem_inj_iff
          (nodup_collectMultiSets sets)).mp hidxget
        omega

/-- The structural invariant of the greedy arena: every import edge points
strictly forward at a generated node, which carries the placeholder depth 1
until `addMaxDepthToNodes` runs. -/
def ArenaOk (nodes : List (ArrayNode T)) : Prop :=
  ∀ i (hi : i < nodes.length), ∀ j ∈ (nodes.get ⟨i, hi⟩).imports,
    i < j ∧ ∃ hj : j < nodes.length, (nodes.get ⟨j, hj⟩).depth = 1

theorem arenaOk_extend (nodes : List (ArrayNode T))
    (g : ArrayNode T → ArrayNode T) (new : ArrayNode T)
    (hgdep : ∀ n, (g n).depth = n.depth)
    (hgimp : ∀ n, (g n).imports = n.imports ∨
      (g n).imports = n.imports ++ [nodes.length])
    (hnewi : new.imports = []) (hnewd : new.depth = 1)
    (h : ArenaOk nodes) : ArenaOk (nodes.map g ++ [new]) := by
  intro i hi j hj
  have hlen : (nodes.map g ++ [new]).length = nodes.length + 1 := by simp
  by_cases hiN : i < nodes.length
  · rw [List.get_eq_getElem, List.getElem_append_left (by simpa using hiN),
      List.getElem_map] at hj
    have hj2 : j ∈ nodes[i].imports ∨ j = nodes.length := by
      rcases hgimp nodes[i] with hg1 | hg1
      · rw [hg1] at hj
        exact Or.inl hj
      · rw [hg1] at hj
        rcases List.mem_append.mp hj with hj | hj
        · exact Or.inl hj
        · exact Or.inr (by simpa using hj)
    rcases hj2 with hj2 | hj2
    · obtain ⟨hij, hjN, hdep⟩ := h i hiN j (by rw [List.get_eq_getElem]; exact hj2)
      refine ⟨hij, ⟨by omega, ?_⟩⟩
      rw [List.get_eq_getElem, List.getElem_append_left (by simpa using hjN),
        List.getElem_map, hgdep]
      rw [List.get_eq_getElem] at hdep
      exact hdep
    · subst hj2
      refine ⟨hiN, ⟨by omega, ?_⟩⟩
      rw [List.get_eq_getElem,
        List.getElem_append_right (by simp)]
      simp only [List.length_map, Nat.sub_self]
      exact hnewd
  · have hieq : i = nodes.length := by
      rw [hlen] at hi
      omega
    rw [List.get_eq_getElem,
      List.getElem_append_right (by simp [hieq])] at hj
    subst hieq
    simp only [List.length_map, Nat.sub_self] at hj
    rw [show ([new] : List (ArrayNode T))[0] = new from rfl, hnewi] at hj
    exact absurd hj (List.not_mem_nil j)

theorem extractLI_arenaOk (nodes : List (ArrayNode T)) (li : List T) (lo : Nat)
    (h : ArenaOk nodes) : ArenaOk (extractLI nodes li lo).1 := by
  simp only [extractLI]
  split
  · exact arenaOk_extend nodes _ _
      (fun n => by split <;> rfl)
      (fun n => by
        split
        · exact Or.inr rfl
        · exact Or.inl rfl)
      rfl rfl h
  · exact h

theorem splitArrayNodes_arenaOk (inter : List T → List T → List T)
    (nodes : List (ArrayNode T)) (h : ArenaOk nodes) :
    ArenaOk (splitArrayNodes inter nodes).1 := by
  simp only [splitArrayNodes]
  split
  · exact h
  · rcases heq : bucketsLoop inter nodes
        (elementCountMapOf (elementCountOf nodes))
        (jsSortWith (fun (a b : Nat) => (b : Int) - (a : Int))
          ((elementCountMapOf (elementCountOf nodes)).map (fun p => p.1))).dropLast
        (nodes.map (fun n => n.rest.filter (fun e =>
          ¬ e ∈ ((aget (elementCountMapOf (elementCountOf nodes)) 1).getD []))))
        [] 0 [] with r | r
    · rw [heq]
      obtain ⟨li2, lo2, hp⟩ := bucketsLoop_inl inter nodes _ _ _ _ _ _ _ heq
      rw [hp]
      exact extractLI_arenaOk nodes li2 lo2 h
    · rw [heq]
      exact h

theorem greedyLoop_arenaOk (inter : List T → List T → List T) :
    ∀ (fuel : Nat) (nodes out : List (ArrayNode T)),
      greedyLoop inter fuel nodes = some out → ArenaOk nodes → ArenaOk out := by
  intro fuel
  induction fuel with
  | zero => intro nodes out h _; exact absurd h (by simp [greedyLoop])
  | succ n ih =>
    intro nodes out h hA
    simp only [greedyLoop] at h
    split at h
    · exact ih _ _ h (splitArrayNodes_arenaOk inter nodes hA)
    · injection h with h2
      subst h2
      exact splitArrayNodes_arenaOk inter nodes hA

theorem intMax?_spec (l : List Int) (m : Int) (h : l.max? = some m) :
    m ∈ l ∧ ∀ x ∈ l, x ≤ m := by
  haveI hanti : Std.Antisymm (α := Int) (fun a b => a ≤ b) :=
    ⟨fun h1 h2 => le_antisymm h1 h2⟩
  rw [List.max?_eq_some_iff] at h
  · exact h
  · exact fun a => le_refl a
  · exact fun a b => max_choice a b
  · exact fun a b c => max_le_iff

/-- The invariant carried through the `unImportedNodes.forEach` fold of
`addMaxDepthToNodes`: `assigned` holds, per key, the node with its final
depth, pairwise consistent with the import edges; `rem` is the suffix of
non-root nodes still to process, in index order. -/
structure AmdInv (nodes : List (ArrayNode T))
    (assigned rem : List (Nat × ArrayNode T)) : Prop where
  klt : ∀ q ∈ assigned, q.1 < nodes.length
  imps : ∀ q ∈ assigned, ∀ h : q.1 < nodes.length,
    q.2.imports = (nodes.get ⟨q.1, h⟩).imports
  rootz : ∀ q ∈ assigned, ∀ h : q.1 < nodes.length,
    (nodes.get ⟨q.1, h⟩).depth = 0 → q.2.depth = 0
  dnn : ∀ q ∈ assigned, 0 ≤ q.2.depth
  pair : ∀ p ∈ assigned, ∀ c ∈ assigned, c.1 ∈ p.2.imports →
    p.2.depth + 1 ≤ c.2.depth
  nd : (assigned.map (fun q => q.1)).Nodup
  total : ∀ i, i < nodes.length → i ∈ assigned.map (fun q => q.1) ∨
    i ∈ rem.map (fun q => q.1)
  ord : ∀ jn ∈ rem, ∀ q ∈ assigned, ∀ h : q.1 < nodes.length,
    ¬ (nodes.get ⟨q.1, h⟩).depth = 0 → q.1 < jn.1
  remok : ∀ jn ∈ rem, ∃ h : jn.1 < nodes.length,
    jn.2 = nodes.get ⟨jn.1, h⟩ ∧ ¬ jn.2.depth = 0
  rempw : (rem.map (fun q => q.1)).Pairwise (fun a b => a < b)
  imported : ∀ q ∈ assigned, ∀ h : q.1 < nodes.length,
    ¬ (nodes.get ⟨q.1, h⟩).depth = 0 →
    ∃ p, ∃ hp : p < nodes.length, q.1 ∈ (nodes.get ⟨p, hp⟩).imports

theorem amdStep_inv (nodes : List (ArrayNode T)) (hA : ArenaOk nodes)
    (assigned a2 : List (Nat × ArrayNode T)) (jn : Nat × ArrayNode T)
    (rem : List (Nat × ArrayNode T))
    (hstep : amdStep assigned jn = some a2)
    (hinv : AmdInv nodes assigned (jn :: rem)) : AmdInv nodes a2 rem := by
  obtain ⟨hjn, hjval, hjnz⟩ := hinv.remok jn (List.mem_cons_self jn rem)
  simp only [amdStep] at hstep
  split at hstep
  · exact absurd hstep (by simp)
  · next m hmax =>
    injection hstep with h2
    subst h2
    obtain ⟨hmmem, hmall⟩ := intMax?_spec _ m hmax
    have hfilmem : ∀ p, p ∈ assigned.filter (fun p => jn.1 ∈ p.2.imports) →
        p ∈ assigned ∧ jn.1 ∈ p.2.imports := by
      intro p hp
      exact ⟨List.mem_of_mem_filter hp, by simpa using List.of_mem_filter hp⟩
    have hjnotin : ¬ jn.1 ∈ assigned.map (fun q => q.1) := by
      intro hmem
      rcases List.mem_map.mp hmem with ⟨q, hq, hq1⟩
      have hklt := hinv.klt q hq
      by_cases hz : (nodes.get ⟨q.1, hklt⟩).depth = 0
      · have hfin : (⟨q.1, hklt⟩ : Fin nodes.length) = ⟨jn.1, hjn⟩ :=
          Fin.ext hq1
        rw [hfin] at hz
        rw [hjval] at hjnz
        exact hjnz hz
      · have := hinv.ord jn (List.mem_cons_self jn rem) q hq hklt hz
        omega
    have hmdep : ∃ q ∈ assigned, jn.1 ∈ q.2.imports ∧ q.2.depth = m := by
      rcases List.mem_map.mp hmmem with ⟨q, hq, hqd⟩
      obtain ⟨hq1, hq2⟩ := hfilmem q hq
      exact ⟨q, hq1, hq2, hqd⟩
    refine ⟨?_, ?_, ?_, ?_, ?_, ?_, ?_, ?_, ?_, ?_, ?_⟩
    · intro q hq
      rcases List.mem_append.mp hq with hq | hq
      · exact hinv.klt q hq
      · simp only [List.mem_singleton] at hq
        subst hq
        exact hjn
    · intro q hq h
      rcases List.mem_append.mp hq with hq | hq
      · exact hinv.imps q hq h
      · simp only [List.mem_singleton] at hq
        subst hq
        show jn.2.imports = _
        rw [hjval]
    · intro q hq h hz
      rcases List.mem_append.mp hq with hq | hq
      · exact hinv.rootz q hq h hz
      · simp only [List.mem_singleton] at hq
        subst hq
        rw [hjval] at hjnz
        exact absurd hz hjnz
    · intro q hq
      rcases List.mem_append.mp hq with hq | hq
      · exact hinv.dnn q hq
      · simp only [List.mem_singleton] at hq
        subst hq
        obtain ⟨q2, hq2, _, hq2d⟩ := hmdep
        have := hinv.dnn q2 hq2
        show 0 ≤ m + 1
        omega
    · intro p hp c hc hedge
      rcases List.mem_append.mp hp with hp | hp
      · rcases List.mem_append.mp hc with hc | hc
        · exact hinv.pair p hp c hc hedge
        · simp only [List.mem_singleton] at hc
          subst hc
          have hpfil : p ∈ assigned.filter (fun p => jn.1 ∈ p.2.imports) :=
            List.mem_filter.mpr ⟨hp, by simpa using hedge⟩
          have hple : p.2.depth ≤ m :=
            hmall _ (List.mem_map.mpr ⟨p, hpfil, rfl⟩)
          show p.2.depth + 1 ≤ m + 1
          omega
      · simp only [List.mem_singleton] at hp
        subst hp
        rcases List.mem_append.mp hc with hc | hc
        · have hedge2 : c.1 ∈ (nodes.get ⟨jn.1, hjn⟩).imports := by
            rw [hjval] at hedge
            exact hedge
          obtain ⟨hlt, hcj, hcd⟩ := hA jn.1 hjn c.1 hedge2
          have hznz : ¬ (nodes.get ⟨c.1, hinv.klt c hc⟩).depth = 0 := by
            have h1 : (nodes.get ⟨c.1, hinv.klt c hc⟩).depth = 1 := hcd
            rw [h1]
            decide
          have := hinv.ord jn (List.mem_cons_self jn rem) c hc
            (hinv.klt c hc) hznz
          omega
        · simp only [List.mem_singleton] at hc
          subst hc
          have hedge2 : jn.1 ∈ (nodes.get ⟨jn.1, hjn⟩).imports := by
            rw [hjval] at hedge
            exact hedge
          have := (hA jn.1 hjn jn.1 hedge2).1
          omega
    · rw [List.map_append]
      simp only [List.map_cons, List.map_nil]
      rw [List.nodup_append]
      refine ⟨hinv.nd, by simp, ?_⟩
      intro a ha hb
      simp only [List.mem_singleton] at hb
      subst hb
      exact hjnotin ha
    · intro i hilt
      rcases hinv.total i hilt with hi | hi
      · exact Or.inl (by rw [List.map_append]; exact List.mem_append_left _ hi)
      · simp only [List.map_cons] at hi
        rcases List.mem_cons.mp hi with hi | hi
        · exact Or.inl (by
            rw [List.map_append]
            refine List.mem_append_right _ ?_
            simpa using hi)
        · exact Or.inr hi
    · intro jn2 hjn2 q hq h hz
      rcases List.mem_append.mp hq with hq | hq
      · exact hinv.ord jn2 (List.mem_cons_of_mem jn hjn2) q hq h hz
      · simp only [List.mem_singleton] at hq
        subst hq
        show jn.1 < jn2.1
        have hpw := hinv.rempw
        simp only [List.map_cons] at hpw
        exact (List.pairwise_cons.mp hpw).1 jn2.1
          (List.mem_map.mpr ⟨jn2, hjn2, rfl⟩)
    · intro jn2 hjn2
      exact hinv.remok jn2 (List.mem_cons_of_mem jn hjn2)
    · have hpw := hinv.rempw
      simp only [List.map_cons] at hpw
      exact (List.pairwise_cons.mp hpw).2
    · intro q hq h hz
      rcases List.mem_append.mp hq with hq | hq
      · exact hinv.imported q hq h hz
      · simp only [List.mem_singleton] at hq
        subst hq
        obtain ⟨q2, hq2, hq2i, _⟩ := hmdep
        refine ⟨q2.1, hinv.klt q2 hq2, ?_⟩
        rw [← hinv.imps q2 hq2 (hinv.klt q2 hq2)]
        exact hq2i

theorem amdFold_inv (nodes : List (ArrayNode T)) (hA : ArenaOk nodes) :
    ∀ (rem : List (Nat × ArrayNode T)) (assigned a2 : List (Nat × ArrayNode T)),
      rem.foldlM amdStep assigned = some a2 →
      AmdInv nodes assigned rem → AmdInv nodes a2 [] := by
  intro rem
  induction rem with
  | nil =>
    intro assigned a2 h hinv
    simp only [List.foldlM_nil] at h
    injection h with h2
    subst h2
    exact hinv
  | cons jn rem ih =>
    intro assigned a2 h hinv
    simp only [List.foldlM_cons] at h
    rcases heq : amdStep assigned jn with _ | a3
    · rw [heq] at h
      exact absurd h (by simp)
    · rw [heq] at h
      exact ih a3 a2 h (amdStep_inv nodes hA assigned a3 jn rem heq hinv)

theorem amdInv_init (nodes : List (ArrayNode T)) (hA : ArenaOk nodes) :
    AmdInv nodes (nodes.enum.filter (fun p => p.2.depth = 0))
      (nodes.enum.filter (fun p => ¬ p.2.depth = 0)) := by
  have hval : ∀ q ∈ nodes.enum, ∃ h : q.1 < nodes.length,
      q.2 = nodes.get ⟨q.1, h⟩ := by
    intro q hq
    rcases q with ⟨i, a⟩
    have hm := List.mem_enum hq
    exact ⟨hm.1, by rw [List.get_eq_getElem]; exact hm.2⟩
  have hrootmem : ∀ q ∈ nodes.enum.filter (fun p => p.2.depth = 0),
      q ∈ nodes.enum ∧ q.2.depth = 0 := by
    intro q hq
    exact ⟨List.mem_of_mem_filter hq, by simpa using List.of_mem_filter hq⟩
  have hndk : ((nodes.enum.filter (fun p => p.2.depth = 0)).map
      (fun q => q.1)).Nodup := by
    refine List.Nodup.sublist (List.Sublist.map _ (List.filter_sublist _)) ?_
    rw [List.enum_map_fst]
    exact List.nodup_range _
  refine ⟨?_, ?_, ?_, ?_, ?_, hndk, ?_, ?_, ?_, ?_, ?_⟩
  · intro q hq
    obtain ⟨h, _⟩ := hval q (hrootmem q hq).1
    exact h
  · intro q hq h
    obtain ⟨h2, hv⟩ := hval q (hrootmem q hq).1
    rw [hv]
  · intro q hq h _
    exact (hrootmem q hq).2
  · intro q hq
    rw [(hrootmem q hq).2]
  · intro p hp c hc hedge
    obtain ⟨hpl, hpv⟩ := hval p (hrootmem p hp).1
    obtain ⟨hcl, hcv⟩ := hval c (hrootmem c hc).1
    have hedge2 : c.1 ∈ (nodes.get ⟨p.1, hpl⟩).imports := by
      rw [← hpv]
      exact hedge
    obtain ⟨_, hcj, hcd⟩ := hA p.1 hpl c.1 hedge2
    have : c.2.depth = 1 := by
      rw [hcv]
      exact hcd
    rw [(hrootmem c hc).2] at this
    exact absurd this (by decide)
  · intro i hilt
    have hbound : i < nodes.enum.length := by
      rw [List.enum_length]
      exact hilt
    have henum : (i, nodes[i]) ∈ nodes.enum := by
      have hg : nodes.enum[i] = (i, nodes[i]) :=
        List.getElem_enum nodes i hbound
      rw [← hg]
      exact List.getElem_mem hbound
    by_cases hz : (nodes[i]).depth = 0
    · refine Or.inl (List.mem_map.mpr ⟨(i, nodes[i]), ?_, rfl⟩)
      exact List.mem_filter.mpr ⟨henum, by simpa using hz⟩
    · refine Or.inr (List.mem_map.mpr ⟨(i, nodes[i]), ?_, rfl⟩)
      exact List.mem_filter.mpr ⟨henum, by simpa using hz⟩
  · intro jn _ q hq h hz
    obtain ⟨h2, hv⟩ := hval q (hrootmem q hq).1
    have hthis := (hrootmem q hq).2
    rw [hv] at hthis
    exact absurd hthis hz
  · intro jn hjn
    have hjm := List.mem_of_mem_filter hjn
    have hjz : ¬ jn.2.depth = 0 := by simpa using List.of_mem_filter hjn
    obtain ⟨h, hv⟩ := hval jn hjm
    exact ⟨h, hv, hjz⟩
  · refine List.Pairwise.sublist (List.Sublist.map _ (List.filter_sublist _)) ?_
    rw [List.enum_map_fst]
    exact List.pairwise_lt_range _
  · intro q hq h hz
    obtain ⟨h2, hv⟩ := hval q (hrootmem q hq).1
    have hthis := (hrootmem q hq).2
    rw [hv] at hthis
    exact absurd hthis hz

theorem find_key_of_mem {V : Type} (m : List (Nat × V)) (i : Nat)
    (hmem : i ∈ m.map (fun q => q.1)) :
    ∃ q, m.find? (fun q => q.1 = i) = some q ∧ q.1 = i ∧ q ∈ m := by
  rcases hf : m.find? (fun q => q.1 = i) with _ | q
  · rw [List.find?_eq_none] at hf
    rcases List.mem_map.mp hmem with ⟨q, hq, hq1⟩
    have h2 := hf q hq
    simp only [decide_eq_true_eq] at h2
    exact absurd hq1 h2
  · exact ⟨q, hf, by simpa using List.find?_some hf,
      List.mem_of_find?_eq_some hf⟩

theorem addMaxDepthToNodes_dag (nodes out : List (ArrayNode T))
    (hA : ArenaOk nodes) (h : addMaxDepthToNodes nodes = some out) :
    DagProps (arrayGraph out) := by
  simp only [addMaxDepthToNodes, bind, Option.bind] at h
  split at h
  · exact absurd h (by simp)
  · next assigned heq =>
    injection h with h2
    have hinv := amdFold_inv nodes hA _ _ assigned heq (amdInv_init nodes hA)
    subst h2
    have hglen : (arrayGraph (nodes.enum.map (fun p =>
        match assigned.find? (fun q => q.1 = p.1) with
        | some q => q.2 | none => p.2))).length = nodes.length := by
      simp [arrayGraph]
    have hmain : ∀ i (hi : i < nodes.length), ∃ q ∈ assigned, q.1 = i ∧
        ∀ hig : i < (arrayGraph (nodes.enum.map (fun p =>
          match assigned.find? (fun q => q.1 = p.1) with
          | some q => q.2 | none => p.2))).length,
        (arrayGraph (nodes.enum.map (fun p =>
          match assigned.find? (fun q => q.1 = p.1) with
          | some q => q.2 | none => p.2))).get ⟨i, hig⟩ =
          (q.2.imports, q.2.depth) := by
      intro i hi
      have hik : i ∈ assigned.map (fun q => q.1) := by
        rcases hinv.total i hi with h3 | h3
        · exact h3
        · exact absurd h3 (by simp)
      obtain ⟨q, hfind, hq1, hqmem⟩ := find_key_of_mem assigned i hik
      refine ⟨q, hqmem, hq1, ?_⟩
      intro hig
      rw [List.get_eq_getElem]
      show (arrayGraph _)[i] = _
      simp only [arrayGraph]
      rw [List.getElem_map, List.getElem_map]
      have hb : i < nodes.enum.length := by
        rw [List.enum_length]
        exact hi
      rw [List.getElem_enum]
      dsimp only
      rw [hfind]
    refine ⟨?_, ?_, ?_⟩
    · apply acyclic_of_fwd
      intro i hig j hj
      have hi : i < nodes.length := lt_of_lt_of_eq hig hglen
      obtain ⟨q, hqmem, hq1, hget⟩ := hmain i hi
      rw [hget hig] at hj
      have hj2 : j ∈ (nodes.get ⟨i, hi⟩).imports := by
        have hklt : q.1 < nodes.length := by rw [hq1]; exact hi
        have himps := hinv.imps q hqmem hklt
        have hfin : (⟨q.1, hklt⟩ : Fin nodes.length) = ⟨i, hi⟩ := Fin.ext hq1
        rw [hfin] at himps
        rw [← himps]
        exact hj
      obtain ⟨hij, hjn, _⟩ := hA i hi j hj2
      exact ⟨hij, by omega⟩
    · intro j hjg hunimp
      have hj : j < nodes.length := lt_of_lt_of_eq hjg hglen
      obtain ⟨q, hqmem, hq1, hget⟩ := hmain j hj
      rw [hget hjg]
      show q.2.depth = 0
      by_cases hz : (nodes.get ⟨j, hj⟩).depth = 0
      · exact hinv.rootz q hqmem (by rw [hq1]; exact hj)
          (by
            have hfin : (⟨q.1, by rw [hq1]; exact hj⟩ : Fin nodes.length) =
              ⟨j, hj⟩ := Fin.ext hq1
            rw [hfin]
            exact hz)
      · obtain ⟨p, hp, hpm⟩ := hinv.imported q hqmem (by rw [hq1]; exact hj)
          (by
            intro hz2
            have hfin : (⟨q.1, by rw [hq1]; exact hj⟩ : Fin nodes.length) =
              ⟨j, hj⟩ := Fin.ext hq1
            rw [hfin] at hz2
            exact hz hz2)
        rw [hq1] at hpm
        obtain ⟨qp, hqpmem, hqp1, hqpget⟩ := hmain p hp
        have hun := hunimp p (lt_of_lt_of_eq hp hglen.symm)
        rw [hqpget (lt_of_lt_of_eq hp hglen.symm)] at hun
        have himps := hinv.imps qp hqpmem (by rw [hqp1]; exact hp)
        have hfin : (⟨qp.1, by rw [hqp1]; exact hp⟩ : Fin nodes.length) =
          ⟨p, hp⟩ := Fin.ext hqp1
        rw [hfin] at himps
        rw [himps] at hun
        exact absurd hpm hun
    · intro i hig j hj hjg
      have hi : i < nodes.length := lt_of_lt_of_eq hig hglen
      have hjn : j < nodes.length := lt_of_lt_of_eq hjg hglen
      obtain ⟨qi, hqimem, hqi1, hqiget⟩ := hmain i hi
      obtain ⟨qj, hqjmem, hqj1, hqjget⟩ := hmain j hjn
      rw [hqiget hig] at hj ⊢
      rw [hqjget hjg]
      show qi.2.depth + 1 ≤ qj.2.depth
      exact hinv.pair qi hqimem qj hqjmem (by rw [hqj1]; exact hj)

theorem splitArraysWith_dag (inter : List T → List T → List T)
    (initR : List T → List T) (arrays : List (List T)) (fuel : Nat)
    (out : List (ArrayNode T))
    (h : splitArraysWith inter initR arrays fuel = some out) :
    DagProps (arrayGraph out) := by
  simp only [splitArraysWith, bind, Option.bind] at h
  split at h
  · exact absurd h (by simp)
  · next mid heq =>
    have hA0 : ArenaOk (arrays.map (fun a =>
        ({ array := a, rest := initR a, imports := [],
           depth := 0 } : ArrayNode T))) := by
      intro i hi j hj
      rw [List.get_eq_getElem, List.getElem_map] at hj
      exact absurd hj (List.not_mem_nil j)
    exact addMaxDepthToNodes_dag mid out (greedyLoop_arenaOk inter fuel _ mid heq hA0) h

theorem splitSetsWith_dag (inter : List T → List T → List T)
    (initR : List T → List T) (sets : List (List T)) (fuel : Nat)
    (out : List (SetNode T))
    (h : splitSetsWith inter initR sets fuel = some out) :
    DagProps (setGraph out) := by
  simp only [splitSetsWith, bind, Option.bind] at h
  split at h
  · exact absurd h (by simp)
  · next mid heq =>
    injection h with h2
    subst h2
    have hgr : setGraph (mid.enum.map (fun p =>
        ({ set := if p.1 < sets.length then sets.getD p.1 [] else jsNewSet p.2.array
           rest := jsNewSet p.2.rest
           imports := p.2.imports
           depth := p.2.depth } : SetNode T))) = arrayGraph mid := by
      simp only [setGraph, arrayGraph, List.map_map]
      have hcomp : ((fun n : SetNode T => (n.imports, n.depth)) ∘
          (fun p : Nat × ArrayNode T =>
            ({ set := if p.1 < sets.length then sets.getD p.1 []
                 else jsNewSet p.2.array
               rest := jsNewSet p.2.rest
               imports := p.2.imports
               depth := p.2.depth } : SetNode T))) =
          ((fun n : ArrayNode T => (n.imports, n.depth)) ∘ Prod.snd) := rfl
      rw [hcomp, ← List.map_map, List.enum_map_snd]
    rw [hgr]
    exact splitArraysWith_dag inter initR (sets.map (fun s => s)) fuel mid heq

theorem mem_aset {K V : Type} [DecidableEq K] {m : List (K × V)} {k : K}
    {v : V} {p : K × V} (hp : p ∈ aset m k v) : p ∈ m ∨ p = (k, v) := by
  simp only [aset] at hp
  split at hp
  · rcases List.mem_map.mp hp with ⟨q, hq, hqe⟩
    by_cases hqk : q.1 = k
    · rw [if_pos hqk] at hqe
      exact Or.inr hqe.symm
    · rw [if_neg hqk] at hqe
      exact Or.inl (hqe ▸ hq)
  · rcases List.mem_append.mp hp with hp | hp
    · exact Or.inl hp
    · exact Or.inr (by simpa using hp)

theorem mem_adel {K V : Type} [DecidableEq K] {m : List (K × V)} {k : K}
    {p : K × V} (hp : p ∈ adel m k) : p ∈ m :=
  List.mem_of_mem_filter hp

theorem aset_ne_nil {K V : Type} [DecidableEq K] (m : List (K × V)) (k : K)
    (v : V) : ¬ aset m k v = [] := by
  simp only [aset]
  split
  · next hfound =>
    intro hnil
    rcases hf : m.find? (fun p => p.1 = k) with _ | q
    · rw [hf] at hfound
      exact absurd hfound (by simp)
    · have hqm := List.mem_of_find?_eq_some hf
      rcases m with _ | ⟨a, m2⟩
      · exact absurd hqm (List.not_mem_nil q)
      · exact absurd hnil (by simp)
  · simp

theorem foldlM_inv {α β : Type} (P : β → Prop) (F : β → α → Option β)
    (hF : ∀ b a b2, F b a = some b2 → P b → P b2) :
    ∀ (xs : List α) (b b2 : β), xs.foldlM F b = some b2 → P b → P b2 := by
  intro xs
  induction xs with
  | nil =>
    intro b b2 h hb
    simp only [List.foldlM_nil] at h
    injection h with h2
    subst h2
    exact hb
  | cons x xs ih =>
    intro b b2 h hb
    simp only [List.foldlM_cons] at h
    rcases heq : F b x with _ | b3
    · rw [heq] at h
      exact absurd h (by simp)
    · rw [heq] at h
      exact ih b3 b2 h (hF b x b3 heq hb)

theorem foldl_ne_nil_of_ne {α β : Type} (f : List β → α → List β)
    (hf : ∀ m a, ¬ f m a = []) :
    ∀ (l : List α) (acc : List β), ¬ acc = [] → ¬ l.foldl f acc = [] := by
  intro l
  induction l with
  | nil => intro acc h; simpa using h
  | cons a l ih =>
    intro acc h
    rw [List.foldl_cons]
    exact ih _ (hf acc a)

theorem cimsPairs_ne_nil (pairs : List (Nat × Nat)) (h : ¬ pairs = []) :
    ¬ Weighted.cimsPairs pairs = [] := by
  rcases pairs with _ | ⟨pr, rest⟩
  · exact absurd rfl h
  · simp only [Weighted.cimsPairs, List.foldl_cons]
    apply foldl_ne_nil_of_ne
    · intro m a
      dsimp only
      split
      · exact aset_ne_nil _ _ _
      · exact aset_ne_nil _ _ _
    · dsimp only
      split
      · exact aset_ne_nil _ _ _
      · exact aset_ne_nil _ _ _

theorem cimInner_values_ne_nil {U : Type} [DecidableEq U]
    (cfg : Weighted.WConfig T U) (store : List (Nat × List T)) (s1 : Nat) :
    ∀ (rest : List Nat) (m : List (U × List (Nat × Nat))),
      (∀ p ∈ m, ¬ p.2 = []) →
      ∀ p ∈ Weighted.cimInner cfg store s1 rest m, ¬ p.2 = [] := by
  intro rest
  induction rest with
  | nil => intro m hm p hp; exact hm p hp
  | cons s2 rest ih =>
    intro m hm p hp
    simp only [Weighted.cimInner] at hp
    refine ih _ ?_ p hp
    intro q hq
    split at hq
    · split at hq
      · rcases mem_aset hq with hq2 | hq2
        · exact hm q hq2
        · rw [hq2]
          simp
      · rcases mem_aset hq with hq2 | hq2
        · exact hm q hq2
        · rw [hq2]
          simp
    · exact hm q hq

theorem createIntersectionMap_values_ne_nil {U : Type} [DecidableEq U]
    (cfg : Weighted.WConfig T U) (store : List (Nat × List T)) :
    ∀ (keys : List Nat) (m : List (U × List (Nat × Nat))),
      (∀ p ∈ m, ¬ p.2 = []) →
      ∀ p ∈ Weighted.createIntersectionMap cfg store keys m, ¬ p.2 = [] := by
  intro keys
  induction keys with
  | nil => intro m hm p hp; exact hm p hp
  | cons s1 rest ih =>
    intro m hm p hp
    rw [Weighted.createIntersectionMap] at hp
    exact ih _ (cimInner_values_ne_nil cfg store s1 rest m hm) p hp

theorem createIntersectionMapSet_values_ne_nil {U : Type} [DecidableEq U]
    (imap : List (U × List (Nat × Nat)))
    (h : ∀ p ∈ imap, ¬ p.2 = []) :
    ∀ p ∈ Weighted.createIntersectionMapSet imap, ¬ p.2 = [] := by
  intro p hp
  rcases List.mem_map.mp hp with ⟨q, hq, hqe⟩
  rw [← hqe]
  exact cimsPairs_ne_nil q.2 (h q hq)

/-- The values of the live intersection index are never empty. -/
def NEMaps {U : Type} [DecidableEq U] (mp : Weighted.WMaps T U) : Prop :=
  ∀ p ∈ mp.imapSet, ¬ p.2 = []

theorem removeOtherAffectedSetFromMaps_ne {U : Type} [DecidableEq U]
    (cfg : Weighted.WConfig T U) (mp mp2 : Weighted.WMaps T U) (key : U)
    (sid : Nat) (h : Weighted.removeOtherAffectedSetFromMaps cfg mp key sid =
      some mp2) (hne : NEMaps mp) : NEMaps mp2 := by
  simp only [Weighted.removeOtherAffectedSetFromMaps, bind, Option.bind,
    pure] at h
  rcases h1 : aget mp.imapSet key with _ | setMap
  · rw [h1] at h
    exact absurd h (by simp)
  rw [h1] at h
  dsimp only at h
  have hval : ∀ (sm2 : List (Nat × Nat)) (q : U × List (Nat × Nat)),
      q ∈ (if sm2.length = 0 then adel mp.imapSet key
        else aset mp.imapSet key sm2) → ¬ q.2 = [] := by
    intro sm2 q hq
    split at hq
    · exact hne q (mem_adel hq)
    · next hlen =>
      rcases mem_aset hq with hq2 | hq2
      · exact hne q hq2
      · rw [hq2]
        intro hnil
        have hnil2 : sm2 = [] := hnil
        rw [hnil2] at hlen
        exact hlen rfl
  rcases h2 : aget setMap sid with _ | c
  · rw [h2] at h
    dsimp only at h
    rcases h3 : Weighted.removeFromSetOrDeleteFromMap mp.wmap
        (cfg.primaryWeight ((cfg.split key).length : Int) (setMap.length : Int))
        key with _ | wmap2
    · rw [h3] at h
      exact absurd h (by simp)
    rw [h3] at h
    dsimp only at h
    rcases h4 : Weighted.removeFromSetOrDeleteFromMap mp.s2i sid key with _ | s2i2
    · rw [h4] at h
      exact absurd h (by simp)
    rw [h4] at h
    dsimp only at h
    injection h with h5
    subst h5
    intro q hq
    exact hval _ q hq
  · rw [h2] at h
    dsimp only at h
    split at h
    · injection h with h5
      subst h5
      intro q hq
      exact hval _ q hq
    · rcases h3 : Weighted.removeFromSetOrDeleteFromMap mp.wmap
          (cfg.primaryWeight ((cfg.split key).length : Int)
            (setMap.length : Int)) key with _ | wmap2
      · rw [h3] at h
        exact absurd h (by simp)
      rw [h3] at h
      dsimp only at h
      rcases h4 : Weighted.removeFromSetOrDeleteFromMap mp.s2i sid key
        with _ | s2i2
      · rw [h4] at h
        exact absurd h (by simp)
      rw [h4] at h
      dsimp only at h
      injection h with h5
      subst h5
      intro q hq
      exact hval _ q hq

theorem removeUpdatedFromMaps_ne {U : Type} [DecidableEq U]
    (cfg : Weighted.WConfig T U) (K : U) (intersectingSets : List Nat)
    (OAI : List U) (OAS : List Nat) (mp : Weighted.WMaps T U) (hw : Int)
    (pairs : List (Nat × Nat)) (mp2 : Weighted.WMaps T U)
    (h : Weighted.removeUpdatedFromMaps cfg K intersectingSets OAI OAS mp hw =
      some (pairs, mp2))
    (hne : NEMaps mp) : NEMaps mp2 := by
  simp only [Weighted.removeUpdatedFromMaps, bind, Option.bind, pure] at h
  rcases h1 : intersectingSets.foldlM
      (fun m sid => Weighted.removeFromSetOrDeleteFromMap m sid K) mp.s2i
    with _ | s2i1
  · rw [h1] at h
    exact absurd h (by simp)
  rw [h1] at h
  dsimp only at h
  rcases h2 : Weighted.removeFromSetOrDeleteFromMap mp.wmap hw K with _ | wmap1
  · rw [h2] at h
    exact absurd h (by simp)
  rw [h2] at h
  dsimp only at h
  have h0 : NEMaps ({ imap := adel mp.imap K
                      imapSet := adel mp.imapSet K
                      s2i := s2i1
                      wmap := wmap1 } : Weighted.WMaps T U) := by
    intro q hq
    exact hne q (mem_adel hq)
  have hfold := foldlM_inv
    (fun (acc : List (Nat × Nat) × Weighted.WMaps T U) => NEMaps acc.2) _
    (fun acc oK r hr hacc => by
      rcases hr1 : aget acc.2.imap oK with _ | possiblyAffected
      · rw [hr1] at hr
        exact absurd hr (by simp)
      rw [hr1] at hr
      dsimp only at hr
      split at hr
      · exact absurd hr (by simp)
      · next r2 hr2 =>
        injection hr with hr3
        subst hr3
        have hinner := foldlM_inv
          (fun (acc2 : List (Nat × Nat) × List (Nat × Nat) ×
            Weighted.WMaps T U) => NEMaps acc2.2.2) _
          (fun acc2 pr r3 hr3 hacc2 => by
            split at hr3
            · split at hr3
              · exact absurd hr3 (by simp)
              · next mp3 hr4 =>
                dsimp only at hr3
                split at hr3
                · exact absurd hr3 (by simp)
                · next mp4 hr5 =>
                  injection hr3 with hr6
                  subst hr6
                  exact removeOtherAffectedSetFromMaps_ne cfg mp3 mp4 oK
                    pr.2 hr5
                    (removeOtherAffectedSetFromMaps_ne cfg acc2.2.2 mp3 oK
                      pr.1 hr4 hacc2)
            · injection hr3 with hr6
              subst hr6
              exact hacc2)
          possiblyAffected _ r2 hr2 hacc
        intro q hq
        exact hinner q hq)
    OAI _ (pairs, mp2) h h0
  exact hfold

theorem addToIntersectingMapSets_ne_nil (ims : List (Nat × Nat)) (sid : Nat) :
    ¬ Weighted.addToIntersectingMapSets ims sid = [] := by
  simp only [Weighted.addToIntersectingMapSets]
  split
  · exact aset_ne_nil _ _ _
  · exact aset_ne_nil _ _ _

theorem addUpdateToMaps_ne {U : Type} [DecidableEq U]
    (cfg : Weighted.WConfig T U) (store : List (Nat × List T))
    (mp mp2 : Weighted.WMaps T U) (s1 s2 : Nat)
    (h : Weighted.addUpdateToMaps cfg store mp s1 s2 = some mp2)
    (hne : NEMaps mp) : NEMaps mp2 := by
  simp only [Weighted.addUpdateToMaps, bind, Option.bind, pure] at h
  split at h
  · split at h
    · next ims hims =>
      split at h
      · exact absurd h (by simp)
      · next wmap2 hw2 =>
        injection h with h2
        subst h2
        intro q hq
        rcases mem_aset hq with hq2 | hq2
        · exact hne q hq2
        · rw [hq2]
          exact addToIntersectingMapSets_ne_nil _ _
    · next hims =>
      injection h with h2
      subst h2
      intro q hq
      rcases mem_aset hq with hq2 | hq2
      · exact hne q hq2
      · rw [hq2]
        simp
  · injection h with h2
    subst h2
    exact hne

theorem addUpdatedToMaps_ne {U : Type} [DecidableEq U]
    (cfg : Weighted.WConfig T U) (store : List (Nat × List T))
    (mp mp2 : Weighted.WMaps T U) (newSetId : Nat) (prevSets : List Nat)
    (pairs : List (Nat × Nat))
    (h : Weighted.addUpdatedToMaps cfg store mp newSetId prevSets pairs =
      some mp2)
    (hne : NEMaps mp) : NEMaps mp2 := by
  simp only [Weighted.addUpdatedToMaps, bind, Option.bind] at h
  rcases h1 : prevSets.foldlM
      (fun m sid => Weighted.addUpdateToMaps cfg store m sid newSetId) mp
    with _ | mpA
  · rw [h1] at h
    exact absurd h (by simp)
  rw [h1] at h
  dsimp only at h
  have hA : NEMaps mpA := foldlM_inv NEMaps _
    (fun b a b2 hb hP => addUpdateToMaps_ne cfg store b b2 a newSetId hb hP)
    prevSets mp mpA h1 hne
  exact foldlM_inv NEMaps _
    (fun b a b2 hb hP => addUpdateToMaps_ne cfg store b b2 a.1 a.2 hb hP)
    pairs mpA mp2 h hA

/-- Relation between the weighted node map before and after a run of
`updateSetObj` calls building node `L`: length, keys and depths are
unchanged, imports only gain copies of `L`, the running depth accumulator
only grows, and a node whose imports grew sits strictly below the
accumulator. -/
def WStepRel (L : Nat) (m : List (Nat × Weighted.WNode T)) (d : Int)
    (m2 : List (Nat × Weighted.WNode T)) (d2 : Int) : Prop :=
  m2.length = m.length ∧ d ≤ d2 ∧
  ∀ pos (hp : pos < m.length) (hp2 : pos < m2.length),
    (m2.get ⟨pos, hp2⟩).1 = (m.get ⟨pos, hp⟩).1 ∧
    (m2.get ⟨pos, hp2⟩).2.depth = (m.get ⟨pos, hp⟩).2.depth ∧
    ∃ tail, (m2.get ⟨pos, hp2⟩).2.imports =
        (m.get ⟨pos, hp⟩).2.imports ++ tail ∧
      (∀ x ∈ tail, x = L) ∧
      (¬ tail = [] → (m.get ⟨pos, hp⟩).2.depth + 1 ≤ d2)

theorem wStepRel_refl (L : Nat) (m : List (Nat × Weighted.WNode T)) (d : Int) :
    WStepRel L m d m d :=
  ⟨rfl, le_refl d, fun pos hp hp2 =>
    ⟨rfl, rfl, [], by simp, fun x hx => absurd hx (List.not_mem_nil x),
      fun h => absurd rfl h⟩⟩

theorem wStepRel_trans {L : Nat} {m m1 m2 : List (Nat × Weighted.WNode T)}
    {d d1 d2 : Int} (h1 : WStepRel L m d m1 d1)
    (h2 : WStepRel L m1 d1 m2 d2) : WStepRel L m d m2 d2 := by
  obtain ⟨hl1, hd1, hp1⟩ := h1
  obtain ⟨hl2, hd2, hp2⟩ := h2
  refine ⟨hl2.trans hl1, le_trans hd1 hd2, ?_⟩
  intro pos hp hp2'
  have hpm1 : pos < m1.length := by omega
  obtain ⟨hk1, hdep1, t1, ht1, ht1L, ht1d⟩ := hp1 pos hp hpm1
  obtain ⟨hk2, hdep2, t2, ht2, ht2L, ht2d⟩ := hp2 pos hpm1 hp2'
  refine ⟨hk2.trans hk1, hdep2.trans hdep1, t1 ++ t2, ?_, ?_, ?_⟩
  · rw [ht2, ht1, List.append_assoc]
  · intro x hx
    rcases List.mem_append.mp hx with hx | hx
    · exact ht1L x hx
    · exact ht2L x hx
  · intro hne
    by_cases h1ne : t1 = []
    · have h2ne : ¬ t2 = [] := by
        intro h2e
        rw [h1ne, h2e] at hne
        exact hne rfl
      have h3 := ht2d h2ne
      rw [hdep1] at h3
      exact h3
    · have h3 := ht1d h1ne
      omega

theorem aget_some_entry {K V : Type} [DecidableEq K] {m : List (K × V)}
    {k : K} {v : V} (h : aget m k = some v) :
    ∃ q ∈ m, q.1 = k ∧ q.2 = v := by
  simp only [aget] at h
  rcases hf : m.find? (fun p => p.1 = k) with _ | q
  · rw [hf] at h
    exact absurd h (by simp)
  · rw [hf] at h
    injection h with h2
    exact ⟨q, List.mem_of_find?_eq_some hf, by simpa using List.find?_some hf,
      h2⟩

theorem updateSetObj_rel (store : List (Nat × List T))
    (nodeMap : List (Nat × Weighted.WNode T)) (sid : Nat)
    (newSetElems : List T) (L : Nat) (d : Int)
    (r : List (Nat × List T) × List (Nat × Weighted.WNode T) × Int)
    (hnd : (nodeMap.map (fun p => p.1)).Nodup)
    (h : Weighted.updateSetObj store nodeMap sid newSetElems L d = some r) :
    WStepRel L nodeMap d r.2.1 r.2.2 := by
  simp only [Weighted.updateSetObj, bind, Option.bind, pure] at h
  rcases hget : aget nodeMap sid with _ | node
  · rw [hget] at h
    exact absurd h (by simp)
  rw [hget] at h
  injection h with h2
  subst h2
  obtain ⟨q, hqm, hq1, hq2⟩ := aget_some_entry hget
  have hfound : (nodeMap.find? (fun p => p.1 = sid)).isSome = true := by
    simp only [aget] at hget
    rcases hf : nodeMap.find? (fun p => p.1 = sid) with _ | q2
    · rw [hf] at hget
      exact absurd hget (by simp)
    · rw [hf]
      rfl
  have haset : aset nodeMap sid
      ({ node with imports := node.imports ++ [L] } : Weighted.WNode T) =
      nodeMap.map (fun p => if p.1 = sid then
        (sid, ({ node with imports := node.imports ++ [L] } :
          Weighted.WNode T)) else p) := by
    simp only [aset]
    split
    · rfl
    · next hns => exact absurd hfound hns
  dsimp only
  have hd2 : d ≤ (if d ≤ node.depth then node.depth + 1 else d) := by
    split
    · omega
    · exact le_refl d
  rw [haset]
  refine ⟨by simp, hd2, ?_⟩
  intro pos hp hp2
  rw [List.get_eq_getElem, List.get_eq_getElem, List.getElem_map]
  by_cases hkey : (nodeMap[pos]).1 = sid
  · rw [if_pos hkey]
    have hqeq : nodeMap[pos] = q := by
      apply List.inj_on_of_nodup_map hnd (List.getElem_mem hp) hqm
      rw [hkey, hq1]
    have hnode : (nodeMap[pos]).2 = node := by
      rw [hqeq, hq2]
    refine ⟨by rw [hkey], by rw [← hnode], [L], by rw [← hnode], ?_, ?_⟩
    · intro x hx
      simpa using hx
    · intro _
      rw [hnode]
      split
      · omega
      · next hgt => omega
  · rw [if_neg hkey]
    exact ⟨rfl, rfl, [], by simp, fun x hx => absurd hx (List.not_mem_nil x),
      fun hc => absurd rfl hc⟩

theorem foldlM_wRel {α : Type} (L : Nat)
    (F : (List (Nat × List T) × List (Nat × Weighted.WNode T) × Int) → α →
      Option (List (Nat × List T) × List (Nat × Weighted.WNode T) × Int))
    (hF : ∀ acc x r, F acc x = some r →
      (acc.2.1.map (fun p => p.1)).Nodup →
      WStepRel L acc.2.1 acc.2.2 r.2.1 r.2.2 ∧
      r.2.1.map (fun p => p.1) = acc.2.1.map (fun p => p.1)) :
    ∀ (xs : List α)
      (acc r : List (Nat × List T) × List (Nat × Weighted.WNode T) × Int),
      xs.foldlM F acc = some r →
      (acc.2.1.map (fun p => p.1)).Nodup →
      WStepRel L acc.2.1 acc.2.2 r.2.1 r.2.2 ∧
      r.2.1.map (fun p => p.1) = acc.2.1.map (fun p => p.1) := by
  intro xs
  induction xs with
  | nil =>
    intro acc r h hnd
    simp only [List.foldlM_nil] at h
    injection h with h2
    subst h2
    exact ⟨wStepRel_refl L acc.2.1 acc.2.2, rfl⟩
  | cons x xs ih =>
    intro acc r h hnd
    simp only [List.foldlM_cons] at h
    rcases heq : F acc x with _ | a2
    · rw [heq] at h
      exact absurd h (by simp)
    · rw [heq] at h
      obtain ⟨hrel1, hk1⟩ := hF acc x a2 heq hnd
      obtain ⟨hrel2, hk2⟩ := ih a2 r h (by rwa [hk1])
      exact ⟨wStepRel_trans hrel1 hrel2, by rw [hk2, hk1]⟩

theorem wRel_mem_imports {L : Nat} {m m2 : List (Nat × Weighted.WNode T)}
    {d d2 : Int} (h : WStepRel L m d m2 d2) (pos : Nat)
    (hp : pos < m.length) (hp2 : pos < m2.length) (j : Nat)
    (hj : j ∈ (m.get ⟨pos, hp⟩).2.imports) :
    j ∈ (m2.get ⟨pos, hp2⟩).2.imports := by
  obtain ⟨_, _, hpw⟩ := h
  obtain ⟨_, _, tail, ht, _, _⟩ := hpw pos hp hp2
  rw [ht]
  exact List.mem_append_left tail hj

theorem updateSetObj_imported (store : List (Nat × List T))
    (nodeMap : List (Nat × Weighted.WNode T)) (sid : Nat)
    (newSetElems : List T) (L : Nat) (d : Int)
    (r : List (Nat × List T) × List (Nat × Weighted.WNode T) × Int)
    (h : Weighted.updateSetObj store nodeMap sid newSetElems L d = some r) :
    ∃ pos, ∃ hp2 : pos < r.2.1.length, L ∈ (r.2.1.get ⟨pos, hp2⟩).2.imports := by
  simp only [Weighted.updateSetObj, bind, Option.bind, pure] at h
  rcases hget : aget nodeMap sid with _ | node
  · rw [hget] at h
    exact absurd h (by simp)
  rw [hget] at h
  injection h with h2
  subst h2
  obtain ⟨q, hqm, hq1, hq2⟩ := aget_some_entry hget
  have hfound : (nodeMap.find? (fun p => p.1 = sid)).isSome = true := by
    simp only [aget] at hget
    rcases hf : nodeMap.find? (fun p => p.1 = sid) with _ | q2
    · rw [hf] at hget
      exact absurd hget (by simp)
    · rw [hf]
      rfl
  obtain ⟨pos, hp, hpq⟩ := List.getElem_of_mem hqm
  have haset : aset nodeMap sid
      ({ node with imports := node.imports ++ [L] } : Weighted.WNode T) =
      nodeMap.map (fun p => if p.1 = sid then
        (sid, ({ node with imports := node.imports ++ [L] } :
          Weighted.WNode T)) else p) := by
    simp only [aset]
    split
    · rfl
    · next hns => exact absurd hfound hns
  dsimp only
  rw [haset]
  refine ⟨pos, by simpa using hp, ?_⟩
  rw [List.get_eq_getElem, List.getElem_map, hpq, if_pos hq1]
  simp

theorem getElem_singleton_eq {α : Type} (x : α) (idx : Nat)
    (hidx : idx < ([x] : List α).length) : ([x] : List α)[idx] = x := by
  have h0 : idx = 0 := by simpa using hidx
  subst h0
  rfl

/-- Claim C5's invariants on the weighted node map: edges point strictly
forward at strictly deeper non-root nodes. -/
def WMapOk (m : List (Nat × Weighted.WNode T)) : Prop :=
  ∀ i (hi : i < m.length), ∀ j ∈ (m.get ⟨i, hi⟩).2.imports,
    i < j ∧ ∃ hj : j < m.length,
      (m.get ⟨i, hi⟩).2.depth + 1 ≤ (m.get ⟨j, hj⟩).2.depth ∧
      ¬ (m.get ⟨j, hj⟩).2.depth = 0

/-- A node of the weighted map no other node imports is a root (depth 0). -/
def WUnimp (m : List (Nat × Weighted.WNode T)) : Prop :=
  ∀ j (hj : j < m.length),
    (∀ i (hi : i < m.length), ¬ j ∈ (m.get ⟨i, hi⟩).2.imports) →
    (m.get ⟨j, hj⟩).2.depth = 0

theorem wStep_dag {U : Type} [DecidableEq U] (cfg : Weighted.WConfig T U)
    (st st' : Weighted.WState T U) (h : Weighted.wStep cfg st = some st')
    (hnd : (st.setNodeMap.map (fun p => p.1)).Nodup)
    (hlt : ∀ k ∈ st.setNodeMap.map (fun p => p.1), k < st.nextId)
    (hne : NEMaps st.maps)
    (hok : WMapOk st.setNodeMap) (hun : WUnimp st.setNodeMap) :
    (st'.setNodeMap.map (fun p => p.1)).Nodup ∧
    (∀ k ∈ st'.setNodeMap.map (fun p => p.1), k < st'.nextId) ∧
    NEMaps st'.maps ∧ WMapOk st'.setNodeMap ∧ WUnimp st'.setNodeMap := by
  simp only [Weighted.wStep, bind, Option.bind, pure] at h
  rcases h1 : Weighted.getHighestWeightIntersection cfg st.maps.wmap st.maps.imapSet
    with _ | khw
  · rw [h1] at h; exact absurd h (by simp)
  rw [h1] at h
  dsimp only at h
  obtain ⟨K, hw⟩ := khw
  rcases h2 : aget st.maps.imapSet K with _ | ims
  · rw [h2] at h; exact absurd h (by simp)
  rw [h2] at h
  dsimp only at h
  rcases h3 : Weighted.getOtherAffectedIntersections cfg (ims.map (fun q => q.1))
      st.maps.s2i K st.maps.imapSet with _ | oaioas
  · rw [h3] at h; exact absurd h (by simp)
  rw [h3] at h
  dsimp only at h
  obtain ⟨OAI, OAS⟩ := oaioas
  rcases h4 : Weighted.removeUpdatedFromMaps cfg K (ims.map (fun q => q.1)) OAI OAS
      st.maps hw with _ | pairsmp
  · rw [h4] at h; exact absurd h (by simp)
  rw [h4] at h
  dsimp only at h
  obtain ⟨pairs, mp1⟩ := pairsmp
  rcases h5 : (ims.map (fun q => q.1)).foldlM
      (fun (acc : List (Nat × List T) × List (Nat × Weighted.WNode T) × Int) sid =>
        Weighted.updateSetObj acc.1 acc.2.1 sid (jsNewSet (cfg.split K))
          st.setNodeMap.length acc.2.2)
      (st.store ++ [(st.nextId, jsNewSet (cfg.split K))], st.setNodeMap, (1 : Int))
    with _ | r1
  · rw [h5] at h; exact absurd h (by simp)
  rw [h5] at h
  dsimp only at h
  rcases h6 : OAS.foldlM
      (fun (acc : List (Nat × List T) × List (Nat × Weighted.WNode T) × Int) sid =>
        if (cfg.split K).all (fun e => e ∈ Weighted.storeGet acc.1 sid) then
          Weighted.updateSetObj acc.1 acc.2.1 sid (jsNewSet (cfg.split K))
            st.setNodeMap.length acc.2.2
        else some acc) r1 with _ | r2
  · rw [h6] at h; exact absurd h (by simp)
  rw [h6] at h
  dsimp only at h
  rcases h7 : Weighted.addUpdatedToMaps cfg r2.1 mp1 st.nextId st.clonedSets pairs
    with _ | mp2
  · rw [h7] at h; exact absurd h (by simp)
  rw [h7] at h
  dsimp only at h
  injection h with h8
  have hstep1 : ∀ (acc : List (Nat × List T) ×
      List (Nat × Weighted.WNode T) × Int) (sid : Nat)
      (r : List (Nat × List T) × List (Nat × Weighted.WNode T) × Int),
      Weighted.updateSetObj acc.1 acc.2.1 sid (jsNewSet (cfg.split K))
        st.setNodeMap.length acc.2.2 = some r →
      (acc.2.1.map (fun p => p.1)).Nodup →
      WStepRel st.setNodeMap.length acc.2.1 acc.2.2 r.2.1 r.2.2 ∧
      r.2.1.map (fun p => p.1) = acc.2.1.map (fun p => p.1) :=
    fun acc sid r hr hn =>
      ⟨updateSetObj_rel acc.1 acc.2.1 sid (jsNewSet (cfg.split K))
        st.setNodeMap.length acc.2.2 r hn hr,
       (updateSetObj_nodeMap (U := U) acc.1 acc.2.1 sid
        (jsNewSet (cfg.split K)) st.setNodeMap.length acc.2.2 r hn hr).1⟩
  have hF1 := foldlM_wRel st.setNodeMap.length _ hstep1
    (ims.map (fun q => q.1)) _ r1 h5 hnd
  have hF2 := foldlM_wRel st.setNodeMap.length _
    (fun acc sid r hr hn => by
      split at hr
      · exact hstep1 acc sid r hr hn
      · injection hr with hr2
        subst hr2
        exact ⟨wStepRel_refl _ _ _, rfl⟩)
    OAS r1 r2 h6 (by rw [hF1.2]; exact hnd)
  have hrel : WStepRel st.setNodeMap.length st.setNodeMap 1 r2.2.1 r2.2.2 :=
    wStepRel_trans hF1.1 hF2.1
  have hkeys : r2.2.1.map (fun p => p.1) = st.setNodeMap.map (fun p => p.1) := by
    rw [hF2.2, hF1.2]
  have hr2len : r2.2.1.length = st.setNodeMap.length := hrel.1
  have hnotin : ¬ st.nextId ∈ r2.2.1.map (fun p => p.1) := by
    rw [hkeys]
    intro hmem
    exact absurd (hlt _ hmem) (by omega)
  have happ := aset_not_found r2.2.1 st.nextId
    ({ setElems := jsNewSet (cfg.split K), restId := st.nextId,
       depth := r2.2.2, imports := [] } : Weighted.WNode T)
    (find?_none_of_not_mem_keys _ _ hnotin)
  have himsne : ¬ ims = [] := by
    obtain ⟨q, hqm, _, hq2⟩ := aget_some_entry h2
    intro hnil
    exact hne q hqm (by rw [hq2, hnil])
  have himported : ∃ pos, ∃ hp2 : pos < r2.2.1.length,
      st.setNodeMap.length ∈ (r2.2.1.get ⟨pos, hp2⟩).2.imports := by
    rcases hcase : ims.map (fun q => q.1) with _ | ⟨sid, rest⟩
    · exact absurd (List.map_eq_nil.mp hcase) himsne
    · rw [hcase] at h5
      simp only [List.foldlM_cons] at h5
      rcases hfst : Weighted.updateSetObj
          (st.store ++ [(st.nextId, jsNewSet (cfg.split K))]) st.setNodeMap sid
          (jsNewSet (cfg.split K)) st.setNodeMap.length 1 with _ | acc1
      · rw [hfst] at h5
        exact absurd h5 (by simp)
      · rw [hfst] at h5
        obtain ⟨pos, hp1, hmem1⟩ := updateSetObj_imported _ _ _ _ _ _ _ hfst
        have hacc1nd : (acc1.2.1.map (fun p => p.1)).Nodup := by
          rw [(updateSetObj_nodeMap (U := U) _ _ _ _ _ _ _ hnd hfst).1]
          exact hnd
        have hrest := foldlM_wRel st.setNodeMap.length _ hstep1 rest acc1 r1 h5
          hacc1nd
        have hposr1 : pos < r1.2.1.length := by
          have := hrest.1.1
          omega
        have hmem2 := wRel_mem_imports hrest.1 pos hp1 hposr1 _ hmem1
        have hposr2 : pos < r2.2.1.length := by
          have := hF2.1.1
          omega
        exact ⟨pos, hposr2, wRel_mem_imports hF2.1 pos hposr1 hposr2 _ hmem2⟩
  have hd1 : (1 : Int) ≤ r2.2.2 := hrel.2.1
  rw [← h8]
  refine ⟨?_, ?_, ?_, ?_, ?_⟩
  · show ((aset r2.2.1 st.nextId _).map (fun p => p.1)).Nodup
    rw [happ, List.map_append, hkeys]
    simp only [List.map_cons, List.map_nil]
    rw [List.nodup_append]
    refine ⟨hnd, by simp, ?_⟩
    intro a ha hb
    simp only [List.mem_singleton] at hb
    subst hb
    exact absurd (hlt _ ha) (by omega)
  · show ∀ k ∈ (aset r2.2.1 st.nextId _).map (fun p => p.1), k < st.nextId + 1
    rw [happ, List.map_append, hkeys]
    intro k hk
    rw [List.mem_append] at hk
    rcases hk with hk | hk
    · have := hlt k hk
      omega
    · simp only [List.map_cons, List.map_nil, List.mem_singleton] at hk
      omega
  · show NEMaps mp2
    exact addUpdatedToMaps_ne cfg r2.1 mp1 mp2 st.nextId st.clonedSets pairs h7
      (removeUpdatedFromMaps_ne cfg K (ims.map (fun q => q.1)) OAI OAS st.maps
        hw pairs mp1 h4 hne)
  · show WMapOk (aset r2.2.1 st.nextId _)
    rw [happ]
    intro i hi j hj
    have hm2len : (r2.2.1 ++ [((st.nextId,
        ({ setElems := jsNewSet (cfg.split K), restId := st.nextId,
           depth := r2.2.2, imports := [] } : Weighted.WNode T)))]).length =
        r2.2.1.length + 1 := by simp
    by_cases hiL : i < r2.2.1.length
    · rw [List.get_eq_getElem, List.getElem_append_left hiL] at hj
      have hiS : i < st.setNodeMap.length := by omega
      obtain ⟨hk2, hdep2, tail, htail, htailL, htaild⟩ :=
        hrel.2.2 i hiS hiL
      rw [List.get_eq_getElem] at htail
      rw [htail] at hj
      rcases List.mem_append.mp hj with hj | hj
      · obtain ⟨hij, hjS, hdepij, hjnz⟩ := hok i hiS j hj
        have hjL : j < r2.2.1.length := by omega
        refine ⟨hij, by omega, ?_, ?_⟩
        · rw [List.get_eq_getElem, List.get_eq_getElem,
            List.getElem_append_left hiL, List.getElem_append_left hjL]
          obtain ⟨_, hdepj, _⟩ := hrel.2.2 j hjS hjL
          rw [List.get_eq_getElem] at hdep2 hdepj
          rw [hdep2, hdepj]
          rw [List.get_eq_getElem] at hdepij
          exact hdepij
        · rw [List.get_eq_getElem, List.getElem_append_left hjL]
          obtain ⟨_, hdepj, _⟩ := hrel.2.2 j hjS hjL
          rw [List.get_eq_getElem] at hdepj
          rw [hdepj]
          rw [List.get_eq_getElem] at hjnz
          exact hjnz
      · have hjL : j = st.setNodeMap.length := htailL j hj
        have htne : ¬ tail = [] := by
          intro hte
          rw [hte] at hj
          exact absurd hj (List.not_mem_nil j)
        have hdepi := htaild htne
        refine ⟨by omega, by omega, ?_, ?_⟩
        · rw [List.get_eq_getElem, List.get_eq_getElem]
          dsimp only
          rw [List.getElem_append_left hiL,
            List.getElem_append_right (by omega), getElem_singleton_eq]
          show (r2.2.1[i]).2.depth + 1 ≤ r2.2.2
          rw [List.get_eq_getElem] at hdep2
          rw [hdep2]
          rw [List.get_eq_getElem] at hdepi
          exact hdepi
        · rw [List.get_eq_getElem]
          dsimp only
          rw [List.getElem_append_right (by omega), getElem_singleton_eq]
          show ¬ r2.2.2 = 0
          omega
    · have hieq : i = r2.2.1.length := by
        rw [hm2len] at hi
        omega
      rw [List.get_eq_getElem] at hj
      dsimp only at hj
      rw [List.getElem_append_right (by omega), getElem_singleton_eq] at hj
      exact absurd hj (by simp)
  · show WUnimp (aset r2.2.1 st.nextId _)
    rw [happ]
    intro j hj hunimp
    have hm2len : (r2.2.1 ++ [((st.nextId,
        ({ setElems := jsNewSet (cfg.split K), restId := st.nextId,
           depth := r2.2.2, imports := [] } : Weighted.WNode T)))]).length =
        r2.2.1.length + 1 := by simp
    by_cases hjL : j < r2.2.1.length
    · have hjS : j < st.setNodeMap.length := by omega
      have hstunimp : ∀ i (hi : i < st.setNodeMap.length),
          ¬ j ∈ (st.setNodeMap.get ⟨i, hi⟩).2.imports := by
        intro i hi hmem
        have hiL : i < r2.2.1.length := by omega
        have hmem2 := wRel_mem_imports hrel i hi hiL j hmem
        have hm2 : j ∈ ((r2.2.1 ++ [((st.nextId,
            ({ setElems := jsNewSet (cfg.split K), restId := st.nextId,
               depth := r2.2.2, imports := [] } : Weighted.WNode T)))]).get
            ⟨i, by omega⟩).2.imports := by
          rw [List.get_eq_getElem, List.getElem_append_left hiL]
          rw [List.get_eq_getElem] at hmem2
          exact hmem2
        exact hunimp i (by omega) hm2
      have hz := hun j hjS hstunimp
      rw [List.get_eq_getElem, List.getElem_append_left hjL]
      obtain ⟨_, hdepj, _⟩ := hrel.2.2 j hjS hjL
      rw [List.get_eq_getElem] at hdepj
      rw [hdepj]
      rw [List.get_eq_getElem] at hz
      exact hz
    · have hjeq : j = r2.2.1.length := by
        rw [hm2len] at hj
        omega
      obtain ⟨pos, hp2, hmem⟩ := himported
      have hLj : st.setNodeMap.length = j := by omega
      exfalso
      refine hunimp pos (by omega) ?_
      rw [List.get_eq_getElem, List.getElem_append_left hp2]
      rw [List.get_eq_getElem] at hmem
      rw [← hLj]
      exact hmem

theorem dagProps_of_wmap (m : List (Nat × Weighted.WNode T))
    (hok : WMapOk m) (hun : WUnimp m) :
    DagProps (m.map (fun p => (p.2.imports, p.2.depth))) := by
  have hfwd : FwdEdges (m.map (fun p => (p.2.imports, p.2.depth))) := by
    intro i hig j hj
    have hi : i < m.length := by simpa using hig
    rw [List.get_eq_getElem, List.getElem_map] at hj
    obtain ⟨hij, hjm, _⟩ := hok i hi j (by rw [List.get_eq_getElem]; exact hj)
    exact ⟨hij, by simpa using hjm⟩
  refine ⟨acyclic_of_fwd hfwd, ?_, ?_⟩
  · intro j hjg hunimp
    have hj : j < m.length := by simpa using hjg
    rw [List.get_eq_getElem, List.getElem_map]
    show (m[j]).2.depth = 0
    have hz := hun j hj (fun i hi hmem => by
      refine hunimp i (by simpa using hi) ?_
      rw [List.get_eq_getElem, List.getElem_map]
      rw [List.get_eq_getElem] at hmem
      exact hmem)
    rw [List.get_eq_getElem] at hz
    exact hz
  · intro i hig j hj hjg
    have hi : i < m.length := by simpa using hig
    have hjm : j < m.length := by simpa using hjg
    rw [List.get_eq_getElem, List.getElem_map] at hj
    rw [List.get_eq_getElem, List.get_eq_getElem, List.getElem_map,
      List.getElem_map]
    obtain ⟨_, hjm2, hdep, _⟩ := hok i hi j (by rw [List.get_eq_getElem]; exact hj)
    show (m[i]).2.depth + 1 ≤ (m[j]).2.depth
    rw [List.get_eq_getElem, List.get_eq_getElem] at hdep
    exact hdep

theorem wLoop_dag {U : Type} [DecidableEq U] (cfg : Weighted.WConfig T U) :
    ∀ (fuel : Nat) (st : Weighted.WState T U) (out : List (SetNode T)),
      Weighted.wLoop cfg fuel st = some out →
      (st.setNodeMap.map (fun p => p.1)).Nodup →
      (∀ k ∈ st.setNodeMap.map (fun p => p.1), k < st.nextId) →
      NEMaps st.maps → WMapOk st.setNodeMap → WUnimp st.setNodeMap →
      DagProps (setGraph out) := by
  have hfin : ∀ (st : Weighted.WState T U),
      WMapOk st.setNodeMap → WUnimp st.setNodeMap →
      DagProps (setGraph (st.setNodeMap.map (fun p =>
        ({ set := p.2.setElems, rest := Weighted.storeGet st.store p.2.restId,
           imports := p.2.imports, depth := p.2.depth } : SetNode T)))) := by
    intro st hok hun
    have hsg : setGraph (st.setNodeMap.map (fun p =>
        ({ set := p.2.setElems, rest := Weighted.storeGet st.store p.2.restId,
           imports := p.2.imports, depth := p.2.depth } : SetNode T))) =
        st.setNodeMap.map (fun p => (p.2.imports, p.2.depth)) := by
      simp only [setGraph, List.map_map]
      rfl
    rw [hsg]
    exact dagProps_of_wmap st.setNodeMap hok hun
  intro fuel
  induction fuel with
  | zero =>
    intro st out h hnd hlt hne hok hun
    simp only [Weighted.wLoop] at h
    split at h
    · injection h with h2
      subst h2
      exact hfin st hok hun
    · exact absurd h (by simp)
  | succ n ih =>
    intro st out h hnd hlt hne hok hun
    simp only [Weighted.wLoop] at h
    split at h
    · injection h with h2
      subst h2
      exact hfin st hok hun
    · simp only [bind, Option.bind] at h
      rcases hs : Weighted.wStep cfg st with _ | st2
      · rw [hs] at h
        exact absurd h (by simp)
      · rw [hs] at h
        obtain ⟨hnd2, hlt2, hne2, hok2, hun2⟩ :=
          wStep_dag cfg st st2 hs hnd hlt hne hok hun
        exact ih st2 out h hnd2 hlt2 hne2 hok2 hun2

theorem weighted_splitSets_dag {U : Type} [DecidableEq U]
    (cfg : Weighted.WConfig T U) (sets : List (List T)) (fuel : Nat)
    (out : List (SetNode T)) (h : Weighted.splitSets cfg sets fuel = some out) :
    DagProps (setGraph out) := by
  simp only [Weighted.splitSets, Weighted.createSetObjMap] at h
  have hkeys : (sets.enum.map (fun (p : Nat × List T) =>
      ((p.1, ({ setElems := p.2, restId := p.1, depth := 0,
                imports := [] } : Weighted.WNode T))))).map
        (fun p => p.1) = List.range sets.length := by
    rw [List.map_map]
    exact List.enum_map_fst sets
  refine wLoop_dag cfg fuel _ out h ?_ ?_ ?_ ?_ ?_
  · rw [hkeys]
    exact List.nodup_range _
  · intro k hk
    rw [hkeys, List.mem_range] at hk
    exact hk
  · intro p hp
    refine createIntersectionMapSet_values_ne_nil _ ?_ p hp
    exact createIntersectionMap_values_ne_nil cfg _ _ []
      (fun q hq => absurd hq (List.not_mem_nil q))
  · intro i hi j hj
    rw [List.get_eq_getElem, List.getElem_map] at hj
    simp at hj
  · intro j hj hunimp
    rw [List.get_eq_getElem, List.getElem_map]

theorem weighted_splitArrays_dag {U : Type} [DecidableEq U]
    (cfg : Weighted.WConfig T U) (arrays : List (List T)) (fuel : Nat)
    (out : List (ArrayNode T))
    (h : Weighted.splitArrays cfg arrays fuel = some out) :
    DagProps (arrayGraph out) := by
  simp only [Weighted.splitArrays, bind, Option.bind] at h
  split at h
  · exact absurd h (by simp)
  · next mid heq =>
    injection h with h2
    subst h2
    have hgr : arrayGraph (mid.enum.map (fun p =>
        ({ array := if p.1 < arrays.length then arrays.getD p.1 [] else p.2.set
           rest := p.2.rest
           imports := p.2.imports
           depth := p.2.depth } : ArrayNode T))) = setGraph mid := by
      simp only [setGraph, arrayGraph, List.map_map]
      have hcomp : ((fun n : ArrayNode T => (n.imports, n.depth)) ∘
          (fun p : Nat × SetNode T =>
            ({ array := if p.1 < arrays.length then arrays.getD p.1 []
                 else p.2.set
               rest := p.2.rest
               imports := p.2.imports
               depth := p.2.depth } : ArrayNode T))) =
          ((fun n : SetNode T => (n.imports, n.depth)) ∘ Prod.snd) := rfl
      rw [hcomp, ← List.map_map, List.enum_map_snd]
    rw [hgr]
    exact weighted_splitSets_dag cfg (arrays.map (fun a => jsNewSet a)) fuel
      mid heq

/-- C5: in the node list returned by every splitter — the shallow set and
array splitters, the greedy `BiggestIntersectionsSplitter.splitArrays` /
`splitSets` for any intersection and rest-initialisation functions, and the
weighted `WeightedIntersectionsSplitter.splitSets` / `splitArrays` for any
configuration — the import relation is acyclic (no node ever transitively
reaches itself), every node no other node imports has depth 0, and along
every edge `depth(child) ≥ depth(parent) + 1`. The set inputs of the
shallow splitter are genuine sets (duplicate-free), and the fuelled
splitters are quantified over their returned lists. -/
theorem splitters_acyclic_depth_monotone {U : Type} [DecidableEq U]
    (sets arrays : List (List T)) (hsets : ∀ s ∈ sets, s.Nodup)
    (fuel : Nat) (inter : List T → List T → List T) (initR : List T → List T)
    (cfg : Weighted.WConfig T U) :
    DagProps (setGraph (splitIntersectionsSetsShallow sets)) ∧
    DagProps (arrayGraph (splitIntersectionsArrayShallow arrays)) ∧
    (∀ out, splitArraysWith inter initR arrays fuel = some out →
      DagProps (arrayGraph out)) ∧
    (∀ out, splitSetsWith inter initR sets fuel = some out →
      DagProps (setGraph out)) ∧
    (∀ out, Weighted.splitSets cfg sets fuel = some out →
      DagProps (setGraph out)) ∧
    (∀ out, Weighted.splitArrays cfg arrays fuel = some out →
      DagProps (arrayGraph out)) :=
  ⟨shallow_sets_dag sets hsets, shallow_arrays_dag arrays,
   fun out h => splitArraysWith_dag inter initR arrays fuel out h,
   fun out h => splitSetsWith_dag inter initR sets fuel out h,
   fun out h => weighted_splitSets_dag cfg sets fuel out h,
   fun out h => weighted_splitArrays_dag cfg arrays fuel out h⟩

theorem splitters_acyclic_depth_monotone_witness :
    (∀ s ∈ ([[1, 2], [2, 3]] : List (List Nat)), s.Nodup) ∧
    DagProps (setGraph (splitIntersectionsSetsShallow
      ([[1, 2], [2, 3]] : List (List Nat)))) ∧
    DagProps (arrayGraph (splitIntersectionsArrayShallow
      ([[1, 2], [2, 3]] : List (List Nat)))) :=
  ⟨by decide,
   (splitters_acyclic_depth_monotone (U := List Nat) [[1, 2], [2, 3]]
     [[1, 2], [2, 3]] (by decide) 10 getIntersection (fun a => a)
     exampleCfg).1,
   (splitters_acyclic_depth_monotone (U := List Nat) [[1, 2], [2, 3]]
     [[1, 2], [2, 3]] (by decide) 10 getIntersection (fun a => a)
     exampleCfg).2.1⟩

end IntersectionSplitter
